import Mathlib

set_option maxHeartbeats 1000000

/-! Shallow embedding of the edge-policy-hub enforcement pipeline. -/

/-- JSON values as manipulated by the services (object entries keep their
textual order; integers stand in for JSON numbers). -/
inductive Json where
  | null
  | bool (b : Bool)
  | num (n : Int)
  | str (s : String)
  | arr (elems : List Json)
  | obj (entries : List (String × Json))
deriving Repr

mutual

def Json.beq : Json → Json → Bool
  | .null, .null => true
  | .bool l, .bool r => l == r
  | .num l, .num r => l == r
  | .str l, .str r => l == r
  | .arr l, .arr r => Json.beqList l r
  | .obj l, .obj r => Json.beqObj l r
  | _, _ => false

def Json.beqList : List Json → List Json → Bool
  | [], rest => rest.isEmpty
  | _ :: _, [] => false
  | x :: xs, y :: ys => Json.beq x y && Json.beqList xs ys

def Json.beqObj : List (String × Json) → List (String × Json) → Bool
  | [], rest => rest.isEmpty
  | _ :: _, [] => false
  | a :: xs, b :: ys => a.1 == b.1 && Json.beq a.2 b.2 && Json.beqObj xs ys

end

mutual

def Json.beqSound : ∀ (a b : Json), Json.beq a b = true → a = b
  | .null, .null, _ => rfl
  | .null, .bool _, h => Bool.noConfusion h
  | .null, .num _, h => Bool.noConfusion h
  | .null, .str _, h => Bool.noConfusion h
  | .null, .arr _, h => Bool.noConfusion h
  | .null, .obj _, h => Bool.noConfusion h
  | .bool _, .null, h => Bool.noConfusion h
  | .bool _, .bool _, h => congrArg Json.bool (eq_of_beq h)
  | .bool _, .num _, h => Bool.noConfusion h
  | .bool _, .str _, h => Bool.noConfusion h
  | .bool _, .arr _, h => Bool.noConfusion h
  | .bool _, .obj _, h => Bool.noConfusion h
  | .num _, .null, h => Bool.noConfusion h
  | .num _, .bool _, h => Bool.noConfusion h
  | .num _, .num _, h => congrArg Json.num (eq_of_beq h)
  | .num _, .str _, h => Bool.noConfusion h
  | .num _, .arr _, h => Bool.noConfusion h
  | .num _, .obj _, h => Bool.noConfusion h
  | .str _, .null, h => Bool.noConfusion h
  | .str _, .bool _, h => Bool.noConfusion h
  | .str _, .num _, h => Bool.noConfusion h
  | .str _, .str _, h => congrArg Json.str (eq_of_beq h)
  | .str _, .arr _, h => Bool.noConfusion h
  | .str _, .obj _, h => Bool.noConfusion h
  | .arr _, .null, h => Bool.noConfusion h
  | .arr _, .bool _, h => Bool.noConfusion h
  | .arr _, .num _, h => Bool.noConfusion h
  | .arr _, .str _, h => Bool.noConfusion h
  | .arr xs, .arr ys, h => congrArg Json.arr (Json.beqListSound xs ys h)
  | .arr _, .obj _, h => Bool.noConfusion h
  | .obj _, .null, h => Bool.noConfusion h
  | .obj _, .bool _, h => Bool.noConfusion h
  | .obj _, .num _, h => Bool.noConfusion h
  | .obj _, .str _, h => Bool.noConfusion h
  | .obj _, .arr _, h => Bool.noConfusion h
  | .obj xs, .obj ys, h => congrArg Json.obj (Json.beqObjSound xs ys h)

def Json.beqListSound : ∀ (a b : List Json), Json.beqList a b = true → a = b
  | [], [], _ => rfl
  | [], _ :: _, h => Bool.noConfusion h
  | _ :: _, [], h => Bool.noConfusion h
  | x :: xs, y :: ys, h => by
      rw [Json.beqList] at h
      obtain ⟨h₁, h₂⟩ := Bool.and_eq_true_iff.mp h
      exact congrArg₂ List.cons (Json.beqSound x y h₁) (Json.beqListSound xs ys h₂)

def Json.beqObjSound :
    ∀ (a b : List (String × Json)), Json.beqObj a b = true → a = b
  | [], [], _ => rfl
  | [], _ :: _, h => Bool.noConfusion h
  | _ :: _, [], h => Bool.noConfusion h
  | (k₁, v₁) :: xs, (k₂, v₂) :: ys, h => by
      rw [Json.beqObj] at h
      obtain ⟨h₁₂, h₃⟩ := Bool.and_eq_true_iff.mp h
      obtain ⟨h₁, h₂⟩ := Bool.and_eq_true_iff.mp h₁₂
      have hk : k₁ = k₂ := eq_of_beq h₁
      have hv : v₁ = v₂ := Json.beqSound v₁ v₂ h₂
      rw [hk, hv, Json.beqObjSound xs ys h₃]

end

mutual

def Json.beqRefl : ∀ (a : Json), Json.beq a a = true
  | .null => rfl
  | .bool b => by rw [Json.beq]; exact beq_self_eq_true b
  | .num n => by rw [Json.beq]; exact beq_self_eq_true n
  | .str s => by rw [Json.beq]; exact beq_self_eq_true s
  | .arr xs => by rw [Json.beq]; exact Json.beqListRefl xs
  | .obj xs => by rw [Json.beq]; exact Json.beqObjRefl xs

def Json.beqListRefl : ∀ (a : List Json), Json.beqList a a = true
  | [] => rfl
  | x :: xs => by
      rw [Json.beqList]
      exact Bool.and_eq_true_iff.mpr ⟨Json.beqRefl x, Json.beqListRefl xs⟩

def Json.beqObjRefl : ∀ (a : List (String × Json)), Json.beqObj a a = true
  | [] => rfl
  | (k, v) :: xs => by
      rw [Json.beqObj]
      refine Bool.and_eq_true_iff.mpr ⟨Bool.and_eq_true_iff.mpr ⟨?_, ?_⟩, ?_⟩
      · exact beq_self_eq_true k
      · exact Json.beqRefl v
      · exact Json.beqObjRefl xs

end

instance : DecidableEq Json := fun a b =>
  decidable_of_iff (Json.beq a b = true)
    ⟨Json.beqSound a b, fun h => h ▸ Json.beqRefl a⟩

example : (Json.obj [("a", .num 1)]) ≠ Json.obj [] := by decide

instance {ε α : Type} [DecidableEq ε] [DecidableEq α] :
    DecidableEq (Except ε α) := fun a b =>
  match a, b with
  | .ok x, .ok y =>
      if h : x = y then isTrue (by rw [h]) else isFalse (by simp [h])
  | .error x, .error y =>
      if h : x = y then isTrue (by rw [h]) else isFalse (by simp [h])
  | .ok _, .error _ => isFalse (by simp)
  | .error _, .ok _ => isFalse (by simp)

/-- `str::split(sep)` on the character list of a string: every maximal
separator-free run, with empty runs kept (`"".split('.')` is `[""]`). -/
def splitChars (sep : Char) : List Char → List (List Char)
  | [] => [[]]
  | c :: rest =>
      if c == sep then [] :: splitChars sep rest
      else
        match splitChars sep rest with
        | [] => [[c]]
        | g :: gs => (c :: g) :: gs

/-- `str::split(sep).collect::<Vec<_>>()`. -/
def splitOnCharStr (sep : Char) (s : String) : List String :=
  (splitChars sep s.data).map String.mk

/-- `str::trim`: drop leading and trailing whitespace. -/
def trimChars (s : String) : String :=
  String.mk
    (((s.data.dropWhile Char.isWhitespace).reverse.dropWhile
        Char.isWhitespace).reverse)

/-- `serde_json::Value::as_bool`. -/
def Json.asBool : Json → Option Bool
  | .bool b => some b
  | _ => none

/-- `serde_json::Value::as_str`. -/
def Json.asStr : Json → Option String
  | .str s => some s
  | _ => none

/-- `serde_json::Value::as_array`. -/
def Json.asArr : Json → Option (List Json)
  | .arr xs => some xs
  | _ => none

/-- `serde_json::Map::get`: value of the first entry carrying the key
(`serde_json` maps never hold a key twice). -/
def objGet (entries : List (String × Json)) (key : String) : Option Json :=
  (entries.find? (fun kv => kv.1 == key)).map (·.2)

/-- `serde_json::Map::remove`: erase the entry carrying the key. -/
def objRemove (entries : List (String × Json)) (key : String) :
    List (String × Json) :=
  entries.filter (fun kv => !(kv.1 == key))

/-- `serde_json::Map::get_mut` followed by writing the updated value back:
the value stored under the key is replaced, order and other entries kept. -/
def objSet (entries : List (String × Json)) (key : String) (v : Json) :
    List (String × Json) :=
  entries.map (fun kv => if kv.1 == key then (kv.1, v) else kv)

/-- Membership test `serde_json::Map::contains_key`. -/
def objHas (entries : List (String × Json)) (key : String) : Bool :=
  entries.any (fun kv => kv.1 == key)

/-! ## Enforcer policy engine (src/services/enforcer/src/policy) -/

/-- `MAX_EVAL_TIME_MS` from `policy/mod.rs`. -/
def MAX_EVAL_TIME_MS : Nat := 10

/-- `DEFAULT_ENTRYPOINT_TEMPLATE` from `policy/mod.rs`. -/
def DEFAULT_ENTRYPOINT_TEMPLATE : String := "data.tenants.\x7btenant_id\x7d.allow"

/-- `PolicyDecision` from the enforcer API types. -/
structure PolicyDecision where
  allow : Bool
  redact : Option (List String)
  reason : Option String
deriving Repr, DecidableEq

/-- The error kinds of `PolicyError` relevant to evaluation
(`policy/mod.rs`). -/
inductive PolicyError where
  | tenantNotFound (tenant_id : String)
  | evaluationFailed (tenant_id : String)
  | bundleLoadError (tenant_id : String)
  | invalidPolicy (tenant_id : String) (reason : String)
deriving Repr, DecidableEq

/-- `parse_decision` from `policy/engine.rs`. The argument is the
`serde_json::to_value` rendering of the Rego result; `none` stands for the
`Err` arm of that conversion, which falls into the same catch-all. -/
def parseDecision (result : Option Json) : PolicyDecision :=
  match result with
  | some (.bool allow) => { allow := allow, redact := none, reason := none }
  | some (.obj map) =>
      let allow := ((objGet map "allow").bind Json.asBool).getD false
      let redact :=
        (((objGet map "redact").bind Json.asArr).map
            (fun items => items.filterMap Json.asStr)).filter
          (fun items => !items.isEmpty)
      let reason := (objGet map "reason").bind Json.asStr
      { allow := allow, redact := redact, reason := reason }
  | _ =>
      { allow := false, redact := none,
        reason := some "policy returned undefined result" }

/-- `TenantEngine::evaluate` from `policy/engine.rs`, with the wall clock made
explicit: `elapsedMs` is the wall-clock time the blocking Rego evaluation
takes, and `ruleResult` the value it would produce (`Except.error` for the
`eval_rule` error arm). `tokio::time::timeout` fires exactly when the task
has not finished within `MAX_EVAL_TIME_MS`. -/
def tenantEngineEvaluate (tenant_id : String) (elapsedMs : Nat)
    (ruleResult : Except String (Option Json)) :
    Except PolicyError PolicyDecision :=
  if MAX_EVAL_TIME_MS < elapsedMs then
    .error (.evaluationFailed tenant_id)
  else
    match ruleResult with
    | .error _ => .error (.evaluationFailed tenant_id)
    | .ok value => .ok (parseDecision value)

/-! ## Enforcer policy manager (src/services/enforcer/src/policy/manager.rs) -/

/-- `PolicyBundle` from `policy/loader.rs`: named rule sources plus the
optional `data.json` document. -/
structure PolicyBundle where
  policies : List (String × String)
  data : Option Json

/-- The registry state of `PolicyManager`: the tenant → engine map. The
engine type is abstract (`regorus::Engine` is an external crate). -/
structure ManagerState (Engine : Type) where
  engines : String → Option Engine

/-- `PolicyManager::install_tenant_engine`: construct the engine
(`TenantEngine::new`), verify its entry point, and only then replace the
mapping. `compile` and `verify` stand for the external Rego engine calls. -/
def installTenantEngine {Engine : Type}
    (compile : String → PolicyBundle → Except PolicyError Engine)
    (verify : Engine → Except PolicyError Unit)
    (st : ManagerState Engine) (tenant_id : String) (bundle : PolicyBundle) :
    Except PolicyError Unit × ManagerState Engine :=
  match compile tenant_id bundle with
  | .error e => (.error e, st)
  | .ok engine =>
      match verify engine with
      | .error e => (.error e, st)
      | .ok _ =>
          (.ok (),
           { engines := fun t =>
               if t = tenant_id then some engine else st.engines t })

/-- `PolicyManager::reload_tenant`: load the bundle from disk, then install.
`loadBundle` stands for `BundleLoader::load_bundle` on the tenant's bundle
directory. -/
def reloadTenant {Engine : Type}
    (loadBundle : Except String PolicyBundle)
    (compile : String → PolicyBundle → Except PolicyError Engine)
    (verify : Engine → Except PolicyError Unit)
    (st : ManagerState Engine) (tenant_id : String) :
    Except PolicyError Unit × ManagerState Engine :=
  match loadBundle with
  | .error _ => (.error (.bundleLoadError tenant_id), st)
  | .ok bundle => installTenantEngine compile verify st tenant_id bundle

/-- `PolicyManager::evaluate`: look the engine up; an unknown tenant is
`TenantNotFound`, otherwise the held engine evaluates the input. -/
def managerEvaluate {Engine : Type}
    (evalEngine : Engine → Json → Except PolicyError PolicyDecision)
    (st : ManagerState Engine) (tenant_id : String) (input : Json) :
    Except PolicyError PolicyDecision :=
  match st.engines tenant_id with
  | none => .error (.tenantNotFound tenant_id)
  | some engine => evalEngine engine input

/-! ## Policy bundle store (src/services/audit-store/src/storage/policy_bundles.rs) -/

/-- `PolicyBundleRecord`. -/
structure PolicyBundleRecord where
  bundle_id : String
  tenant_id : String
  version : Int
  rego_code : String
  metadata : Option Json
  status : String
  created_at : String
  activated_at : Option String
deriving Repr, DecidableEq

/-- The `policy_bundles` table in row order. -/
abbrev BundleDb := List PolicyBundleRecord

/-- `query_next_version`: `MAX(version)` over the tenant's rows (`0` when the
tenant has none) plus one. -/
def queryNextVersion (db : BundleDb) (tenant_id : String) : Int :=
  ((db.filter (fun r => r.tenant_id == tenant_id)).map (·.version)).foldl
    max 0 + 1

/-- `PolicyBundleStore::store_bundle`: allocate the next version and insert
the row with the caller-supplied status. The `bundle_id TEXT PRIMARY KEY`
constraint makes the insert fail on a duplicate id. -/
def storeBundle (db : BundleDb) (bundle : PolicyBundleRecord) :
    Except String BundleDb :=
  if db.any (fun r => r.bundle_id == bundle.bundle_id) then
    .error "UNIQUE constraint failed: policy_bundles.bundle_id"
  else
    .ok (db ++ [{ bundle with version := queryNextVersion db bundle.tenant_id }])

/-- `PolicyBundleStore::get_bundle`. -/
def getBundle (db : BundleDb) (bundle_id : String) :
    Option PolicyBundleRecord :=
  db.find? (fun r => r.bundle_id == bundle_id)

/-- `PolicyBundleStore::activate_bundle`: inside one transaction demote every
row of the bundle's tenant to `inactive` with `activated_at` cleared, then
set the target row `active` with `activated_at = now`. -/
def activateBundle (db : BundleDb) (bundle_id : String) (now : String) :
    Except String BundleDb :=
  match getBundle db bundle_id with
  | none => .error "bundle not found"
  | some bundle =>
      let demoted := db.map (fun r =>
        if r.tenant_id == bundle.tenant_id then
          { r with status := "inactive", activated_at := none }
        else r)
      .ok (demoted.map (fun r =>
        if r.bundle_id == bundle_id then
          { r with status := "active", activated_at := some now }
        else r))

/-- `PolicyBundleStore::archive_bundle`. -/
def archiveBundle (db : BundleDb) (bundle_id : String) :
    Except String BundleDb :=
  if db.any (fun r => r.bundle_id == bundle_id) then
    .ok (db.map (fun r =>
      if r.bundle_id == bundle_id then { r with status := "archived" } else r))
  else
    .error "bundle not found"

/-- One client call against the bundle store. -/
inductive BundleOp where
  | store (bundle : PolicyBundleRecord)
  | activate (bundle_id : String) (now : String)
  | archive (bundle_id : String)
deriving Repr

/-- Run one operation; a failed operation (rolled-back transaction or
rejected insert) leaves the table as it was. -/
def applyBundleOp (db : BundleDb) (op : BundleOp) : BundleDb :=
  match op with
  | .store b => (storeBundle db b).toOption.getD db
  | .activate bid now => (activateBundle db bid now).toOption.getD db
  | .archive bid => (archiveBundle db bid).toOption.getD db

/-- Run a sequence of operations from a starting table. -/
def runBundleOps (db : BundleDb) (ops : List BundleOp) : BundleDb :=
  ops.foldl applyBundleOp db

/-- Number of `active` rows a tenant has. -/
def activeCount (db : BundleDb) (tenant_id : String) : Nat :=
  db.countP (fun r => r.tenant_id == tenant_id && r.status == "active")

/-! ## Quota tracker (src/services/quota-tracker/src/tracker/manager.rs) -/

/-- `u64::MAX`. -/
def U64_MAX : Nat := 2 ^ 64 - 1

/-- `u64::saturating_add` on the `Nat` carrier of a `u64` counter. -/
def satAdd (a b : Nat) : Nat := min (a + b) U64_MAX

/-- The in-memory `QuotaMetrics` entry of one tenant, with the parts
`increment_message_count` touches. `lastResetMonth` is the
`{:04}-{:02}`-formatted month of `last_reset`. -/
structure QuotaEntry where
  message_count : Nat
  bytes_sent : Nat
  period : String
  lastResetMonth : String
deriving Repr, DecidableEq

/-- `QuotaManager::increment_message_count` on an existing cache entry
(`ensure_entry` has run). `currentDay`/`currentMonth` are the wall-clock
period labels at the moment of the call; `autoReset` is
`enable_auto_reset`. -/
def incrementMessageCount (autoReset : Bool) (currentDay currentMonth : String)
    (entry : QuotaEntry) (messages bytes : Nat) : QuotaEntry :=
  let entry :=
    if autoReset && entry.period != currentDay then
      { entry with period := currentDay, message_count := 0 }
    else entry
  let entry :=
    if autoReset && currentMonth != entry.lastResetMonth then
      { entry with bytes_sent := 0, lastResetMonth := currentMonth }
    else entry
  let msgInc := if messages == 0 then 1 else messages
  { entry with
      message_count := satAdd entry.message_count msgInc,
      bytes_sent := satAdd entry.bytes_sent bytes }

/-- The fresh entry `ensure_entry` creates for an untracked tenant. -/
def freshQuotaEntry (currentDay currentMonth : String) : QuotaEntry :=
  { message_count := 0, bytes_sent := 0, period := currentDay,
    lastResetMonth := currentMonth }

/-- A run of `increment(tenant, m, b)` calls within one wall-clock period. -/
def runIncrements (autoReset : Bool) (currentDay currentMonth : String)
    (entry : QuotaEntry) (calls : List (Nat × Nat)) : QuotaEntry :=
  calls.foldl
    (fun e c => incrementMessageCount autoReset currentDay currentMonth e c.1 c.2)
    entry

/-- The message delta one `increment` call reports: a zero `messages`
argument is coalesced to `1` by the code. -/
def msgDelta (m : Nat) : Nat := if m == 0 then 1 else m

/-! ## Decision stream (src/services/enforcer/src/api/websocket.rs) -/

/-- The part of a `DecisionEvent` the stream filter can look at. -/
structure StreamEvent where
  tenant_id : String
  allow : Bool
deriving Repr, DecidableEq

/-- `should_send_event`: the per-subscriber filter state is an
`Option<String>` holding only a tenant id. -/
def shouldSendEvent (event : StreamEvent) (tenantFilter : Option String) :
    Bool :=
  match tenantFilter with
  | some filter => event.tenant_id == filter
  | none => true

/-- The text-message arm of `handle_decision_stream`: a `"filter"` message
updates the tenant filter from its `tenant_id` member (trimmed, empty
cleared); every other member, `decision` included, is ignored. -/
def applyClientTextMessage (msg : Json) (filter : Option String) :
    Option String :=
  match msg with
  | .obj entries =>
      match objGet entries "type" with
      | some (.str ty) =>
          if ty = "filter" then
            match objGet entries "tenant_id" with
            | some tenantValue =>
                (tenantValue.asStr.map (fun tenant => trimChars tenant)).bind
                  (fun tenant =>
                    if tenant = "" then none else some tenant)
            | none => filter
          else filter
      | _ => filter
  | _ => filter

/-- The filter the spec describes (`{tenant_id?, decision ∈ {allow,deny}?}`).
Modelled from the spec: the richer `StreamFilter` shape; the running
websocket handler does not use it. -/
structure SpecStreamFilter where
  tenant_id : Option String
  decision : Option String
deriving Repr, DecidableEq

/-- Delivery as the claim states it: an event passes only when it matches
both components of the filter. Modelled from the spec. -/
def specShouldSendEvent (event : StreamEvent) (filter : SpecStreamFilter) :
    Bool :=
  (match filter.tenant_id with
   | some t => event.tenant_id == t
   | none => true) &&
  (match filter.decision with
   | some d => (if event.allow then "allow" else "deny") == d
   | none => true)

/-! ## Audit log signer (src/services/audit-store/src/signing/signer.rs) -/

/-- `AuditLogEntry` (the signed fields). -/
structure AuditLogEntry where
  log_id : String
  tenant_id : String
  timestamp : String
  decision : String
  protocol : String
  subject : Json
  action : String
  resource : Json
  environment : Json
  policy_version : Option Nat
  reason : Option String
deriving Repr, DecidableEq

/-- JSON string escaping as `serde_json` writes it (compact form). -/
def escapeJsonChar (c : Char) : String :=
  if c = '"' then "\\\""
  else if c = '\\' then "\\\\"
  else if c = '\n' then "\\n"
  else if c = '\r' then "\\r"
  else if c = '\t' then "\\t"
  else if c.toNat = 8 then "\\b"
  else if c.toNat = 12 then "\\f"
  else if c.toNat < 32 then
    "\\u00" ++ String.mk [Nat.digitChar (c.toNat / 16), Nat.digitChar (c.toNat % 16)]
  else String.mk [c]

/-- `serde_json` compact rendering of a string literal. -/
def renderJsonString (s : String) : String :=
  "\"" ++ String.join (s.data.map escapeJsonChar) ++ "\""

mutual

/-- `serde_json::to_string` (compact). -/
def renderJson : Json → String
  | .null => "null"
  | .bool b => if b then "true" else "false"
  | .num n => toString n
  | .str s => renderJsonString s
  | .arr xs => "[" ++ renderJsonList xs ++ "]"
  | .obj xs => "\x7b" ++ renderJsonObj xs ++ "\x7d"

def renderJsonList : List Json → String
  | [] => ""
  | [x] => renderJson x
  | x :: xs => renderJson x ++ "," ++ renderJsonList xs

def renderJsonObj : List (String × Json) → String
  | [] => ""
  | [(k, v)] => renderJsonString k ++ ":" ++ renderJson v
  | (k, v) :: xs =>
      renderJsonString k ++ ":" ++ renderJson v ++ "," ++ renderJsonObj xs

end

/-- Lexicographic order on character lists (the order of Rust `String`,
hence of `BTreeMap<String, _>` iteration; UTF-8 byte order and code-point
order agree). -/
def charListLe : List Char → List Char → Bool
  | [], _ => true
  | _ :: _, [] => false
  | a :: as1, b :: bs =>
      if a == b then charListLe as1 bs else decide (a.toNat < b.toNat)

/-- `a ≤ b` on strings, as `BTreeMap<String, _>` orders its keys. -/
def strLeb (a b : String) : Bool := charListLe a.data b.data

/-- Key ordering used by `BTreeMap<String, _>`: lexicographic on the key. -/
def keyLe (a b : String × Json) : Prop := strLeb a.1 b.1 = true

instance : DecidableRel keyLe := fun a b =>
  inferInstanceAs (Decidable (strLeb a.1 b.1 = true))

mutual

/-- `sort_json_keys`: recursively rebuild every object with its keys in
`BTreeMap` (lexicographic) order. -/
def sortJsonKeys : Json → Json
  | .null => .null
  | .bool b => .bool b
  | .num n => .num n
  | .str s => .str s
  | .arr xs => .arr (sortJsonKeysList xs)
  | .obj xs => .obj ((sortJsonKeysObj xs).insertionSort keyLe)

def sortJsonKeysList : List Json → List Json
  | [] => []
  | x :: xs => sortJsonKeys x :: sortJsonKeysList xs

def sortJsonKeysObj : List (String × Json) → List (String × Json)
  | [] => []
  | (k, v) :: xs => (k, sortJsonKeys v) :: sortJsonKeysObj xs

end

/-- `canonicalize_json`: serialize the key-sorted value. -/
def canonicalizeJson (value : Json) : String :=
  renderJson (sortJsonKeys value)

/-- `canonical_payload`: the pipe-joined canonical serialization of a log
record; absent optional scalars render as the empty string. -/
def canonicalPayload (log : AuditLogEntry) : String :=
  String.intercalate "|"
    [ log.log_id,
      log.tenant_id,
      log.timestamp,
      log.decision,
      log.protocol,
      canonicalizeJson log.subject,
      log.action,
      canonicalizeJson log.resource,
      canonicalizeJson log.environment,
      (log.policy_version.map toString).getD "",
      log.reason.getD "" ]

/-- `Signer::sign`: base64 of the HMAC-SHA256 tag. `hmac` (the
`hmac`/`sha2` crates, keyed with the signer's key) and `b64enc` (the
`base64` crate) are external-library parameters; bytes and the base64 text
are both carried as `List Nat`. -/
def signerSign (hmac : String → List Nat) (b64enc : List Nat → List Nat)
    (data : String) : List Nat :=
  b64enc (hmac data)

/-- `Signer::verify`: decode the signature from base64 (an undecodable
signature is an `EncodingError`), recompute the tag and compare. -/
def signerVerify (hmac : String → List Nat)
    (b64dec : List Nat → Option (List Nat)) (data : String)
    (signature : List Nat) : Except String Bool :=
  match b64dec signature with
  | none => .error "EncodingError"
  | some decoded => .ok (decoded == hmac data)

/-- `Signer::sign_audit_log`: sign the canonical payload. -/
def signAuditLog (hmac : String → List Nat) (b64enc : List Nat → List Nat)
    (log : AuditLogEntry) : List Nat :=
  signerSign hmac b64enc (canonicalPayload log)

/-! ## HTTP response redaction (src/services/proxy-http/src/redaction) -/

/-- `MAX_REDACTION_DEPTH` from `redaction/mod.rs`. -/
def MAX_REDACTION_DEPTH : Nat := 10

/-- `REDACTED_PLACEHOLDER` from `redaction/mod.rs` (declared there; the
engine itself removes fields instead of writing it). -/
def REDACTED_PLACEHOLDER : String := "[REDACTED]"

mutual

/-- `RedactionEngine::remove_field_recursive`: follow the exact path from
this value; remove the final key when the walk lands on it. Returns the
rewritten value and whether anything was removed. -/
def removeFieldRecursive (v : Json) (parts : List String) (depth : Nat) :
    Json × Bool :=
  if MAX_REDACTION_DEPTH < depth then (v, false)
  else
    match parts with
    | [] => (v, false)
    | current :: remaining =>
        match v with
        | .obj map =>
            if remaining.isEmpty then
              (.obj (objRemove map current), objHas map current)
            else
              let r := removeNavEntries map current remaining depth
              (.obj r.1, r.2)
        | .arr items =>
            let r := removeListRecursive items parts depth
            (.arr r.1, r.2)
        | _ => (v, false)

/-- The `map.get_mut(current_key)` walk of `remove_field_recursive`: find
the entry holding the key and rewrite its value. -/
def removeNavEntries (entries : List (String × Json)) (current : String)
    (remaining : List String) (depth : Nat) :
    List (String × Json) × Bool :=
  match entries with
  | [] => ([], false)
  | (k, v) :: rest =>
      if k == current then
        let r := removeFieldRecursive v remaining (depth + 1)
        ((k, r.1) :: rest, r.2)
      else
        let r := removeNavEntries rest current remaining depth
        ((k, v) :: r.1, r.2)

/-- The array arm of `remove_field_recursive`: apply the same path to every
element. -/
def removeListRecursive (items : List Json) (parts : List String)
    (depth : Nat) : List Json × Bool :=
  match items with
  | [] => ([], false)
  | x :: xs =>
      let r₁ := removeFieldRecursive x parts (depth + 1)
      let r₂ := removeListRecursive xs parts depth
      (r₁.1 :: r₂.1, r₁.2 || r₂.2)

end

mutual

/-- `RedactionEngine::remove_field_at_any_depth`: try the exact path from
every nested position (depth-first); where the exact walk matched, do not
search deeper inside that child. -/
def removeFieldAtAnyDepth (v : Json) (parts : List String) (depth : Nat) :
    Json × Bool :=
  if MAX_REDACTION_DEPTH < depth then (v, false)
  else
    match v with
    | .obj map =>
        let r := anyDepthEntries map parts depth
        (.obj r.1, r.2)
    | .arr items =>
        let r := anyDepthList items parts depth
        (.arr r.1, r.2)
    | _ => (v, false)
termination_by (MAX_REDACTION_DEPTH + 1 - depth, sizeOf v)

/-- The key iteration of `remove_field_at_any_depth`. (The
`MAX_REDACTION_DEPTH < depth + 1` early return is a no-op: every call made
below it is guarded at depth + 1 and leaves its argument unchanged.) -/
def anyDepthEntries (entries : List (String × Json)) (parts : List String)
    (depth : Nat) : List (String × Json) × Bool :=
  if _h : MAX_REDACTION_DEPTH < depth + 1 then (entries, false)
  else
    match entries with
    | [] => ([], false)
    | (k, v) :: rest =>
        let r₁ := removeFieldRecursive v parts (depth + 1)
        let r₂ :=
          if r₁.2 then (r₁.1, true)
          else removeFieldAtAnyDepth r₁.1 parts (depth + 1)
        let r₃ := anyDepthEntries rest parts depth
        ((k, r₂.1) :: r₃.1, r₂.2 || r₃.2)
termination_by (MAX_REDACTION_DEPTH + 1 - depth, sizeOf entries)

/-- The array arm of `remove_field_at_any_depth`. (Same no-op guard as
`anyDepthEntries`.) -/
def anyDepthList (items : List Json) (parts : List String) (depth : Nat) :
    List Json × Bool :=
  if _h : MAX_REDACTION_DEPTH < depth + 1 then (items, false)
  else
    match items with
    | [] => ([], false)
    | x :: xs =>
        let r₁ := removeFieldAtAnyDepth x parts (depth + 1)
        let r₂ := anyDepthList xs parts depth
        (r₁.1 :: r₂.1, r₁.2 || r₂.2)
termination_by (MAX_REDACTION_DEPTH + 1 - depth, sizeOf items)

end

/-- `RedactionEngine::remove_field_by_path`: split the dot path, try the
exact match from the root, then fall back to matching at any depth. -/
def removeFieldByPath (v : Json) (path : String) : Json × Bool :=
  let parts := splitOnCharStr '.' path
  if parts.isEmpty then (v, false)
  else
    let r := removeFieldRecursive v parts 0
    if r.2 then r else removeFieldAtAnyDepth r.1 parts 0

/-- The loop of `RedactionEngine::redact_fields` over the parsed JSON body:
apply every redaction path in order. -/
def redactFieldsValue (v : Json) (paths : List String) : Json :=
  paths.foldl (fun acc path => (removeFieldByPath acc path).1) v

/-- `RedactionEngine::redact_fields` at the byte level: a body that does not
parse as JSON passes through unchanged, otherwise the rewritten document is
serialized back. `parse`/`ser` stand for `serde_json` (external crate);
bytes are `List Nat`. -/
def redactFields (parse : List Nat → Option Json) (ser : Json → List Nat)
    (body : List Nat) (paths : List String) : List Nat :=
  match parse body with
  | none => body
  | some v => ser (redactFieldsValue v paths)

/-! ## MQTT payload transformer (src/services/bridge-mqtt/src/transform/transformer.rs) -/

/-- `MAX_TRANSFORM_DEPTH` from `transform/mod.rs`. -/
def MAX_TRANSFORM_DEPTH : Nat := 10

/-- `TransformDirective`. -/
inductive TransformDirective where
  | removeFields (paths : List String)
  | redactFields (paths : List String)
  | stripCoordinates
deriving Repr, DecidableEq

/-- The `remove_path` single-segment array arm: drop the key from every
object element, counting the drops. -/
def removeKeyElems (items : List Json) (key : String) : List Json × Nat :=
  match items with
  | [] => ([], 0)
  | .obj map :: xs =>
      let r := removeKeyElems xs key
      if objHas map key then (.obj (objRemove map key) :: r.1, r.2 + 1)
      else (.obj map :: r.1, r.2)
  | x :: xs =>
      let r := removeKeyElems xs key
      (x :: r.1, r.2)

/-- The `redact_path` single-segment array arm: overwrite the key with the
placeholder in every object element that has it. -/
def redactKeyElems (items : List Json) (key : String) : List Json × Nat :=
  match items with
  | [] => ([], 0)
  | .obj map :: xs =>
      let r := redactKeyElems xs key
      if objHas map key then
        (.obj (objSet map key (.str REDACTED_PLACEHOLDER)) :: r.1, r.2 + 1)
      else (.obj map :: r.1, r.2)
  | x :: xs =>
      let r := redactKeyElems xs key
      (x :: r.1, r.2)

mutual

/-- `PayloadTransformer::remove_path`: remove the field at the exact dot
path; arrays distribute the path over their elements. Returns the rewritten
value and the removal count, or `MaxDepthExceeded`. -/
def removePath (v : Json) (path : String) (depth : Nat) :
    Except String (Json × Nat) :=
  if MAX_TRANSFORM_DEPTH < depth then .error "MaxDepthExceeded"
  else
    match splitOnCharStr '.' path with
    | [] => .ok (v, 0)
    | [key] =>
        match v with
        | .obj map =>
            if objHas map key then .ok (.obj (objRemove map key), 1)
            else .ok (.obj map, 0)
        | .arr items =>
            let r := removeKeyElems items key
            .ok (.arr r.1, r.2)
        | _ => .ok (v, 0)
    | first :: restParts =>
        let rest := String.intercalate "." restParts
        match v with
        | .obj map =>
            (removeNavMqtt map first rest depth).map
              (fun r => (Json.obj r.1, r.2))
        | .arr items =>
            (removeListMqtt items path depth).map
              (fun r => (Json.arr r.1, r.2))
        | _ => .ok (v, 0)

/-- The `map.get_mut(first)` walk of `remove_path`: recurse into the entry
holding the first segment with the re-joined remaining path. -/
def removeNavMqtt (entries : List (String × Json)) (first rest : String)
    (depth : Nat) : Except String (List (String × Json) × Nat) :=
  match entries with
  | [] => .ok ([], 0)
  | (k, v) :: tail =>
      if k == first then
        (removePath v rest (depth + 1)).map (fun r => ((k, r.1) :: tail, r.2))
      else
        (removeNavMqtt tail first rest depth).map
          (fun r => ((k, v) :: r.1, r.2))

/-- The multi-segment array arm of `remove_path`: recurse into every element
with the full path, summing counts; the first error aborts. -/
def removeListMqtt (items : List Json) (path : String) (depth : Nat) :
    Except String (List Json × Nat) :=
  match items with
  | [] => .ok ([], 0)
  | x :: xs => do
      let r₁ ← removePath x path (depth + 1)
      let r₂ ← removeListMqtt xs path depth
      .ok (r₁.1 :: r₂.1, r₁.2 + r₂.2)

end

mutual

/-- `PayloadTransformer::redact_path`: overwrite the field at the exact dot
path with `"[REDACTED]"`; arrays distribute the path over their elements. -/
def redactPath (v : Json) (path : String) (depth : Nat) :
    Except String (Json × Nat) :=
  if MAX_TRANSFORM_DEPTH < depth then .error "MaxDepthExceeded"
  else
    match splitOnCharStr '.' path with
    | [] => .ok (v, 0)
    | [key] =>
        match v with
        | .obj map =>
            if objHas map key then
              .ok (.obj (objSet map key (.str REDACTED_PLACEHOLDER)), 1)
            else .ok (.obj map, 0)
        | .arr items =>
            let r := redactKeyElems items key
            .ok (.arr r.1, r.2)
        | _ => .ok (v, 0)
    | first :: restParts =>
        let rest := String.intercalate "." restParts
        match v with
        | .obj map =>
            (redactNavMqtt map first rest depth).map
              (fun r => (Json.obj r.1, r.2))
        | .arr items =>
            (redactListMqtt items path depth).map
              (fun r => (Json.arr r.1, r.2))
        | _ => .ok (v, 0)

/-- The `map.get_mut(first)` walk of `redact_path`. -/
def redactNavMqtt (entries : List (String × Json)) (first rest : String)
    (depth : Nat) : Except String (List (String × Json) × Nat) :=
  match entries with
  | [] => .ok ([], 0)
  | (k, v) :: tail =>
      if k == first then
        (redactPath v rest (depth + 1)).map (fun r => ((k, r.1) :: tail, r.2))
      else
        (redactNavMqtt tail first rest depth).map
          (fun r => ((k, v) :: r.1, r.2))

/-- The multi-segment array arm of `redact_path`. -/
def redactListMqtt (items : List Json) (path : String) (depth : Nat) :
    Except String (List Json × Nat) :=
  match items with
  | [] => .ok ([], 0)
  | x :: xs => do
      let r₁ ← redactPath x path (depth + 1)
      let r₂ ← redactListMqtt xs path depth
      .ok (r₁.1 :: r₂.1, r₁.2 + r₂.2)

end

/-- The leaf GPS coordinate field names of `strip_gps_recursive`. -/
def gpsCoordinateFields : List String :=
  ["latitude", "longitude", "lat", "lon", "lng", "gps", "coordinates"]

mutual

/-- `PayloadTransformer::strip_gps_recursive`: drop the GPS leaf keys from
every object, descending into all remaining fields (containers such as
`location`/`position` are kept but stripped inside). -/
def stripGps (v : Json) (depth : Nat) : Except String (Json × Nat) :=
  if MAX_TRANSFORM_DEPTH < depth then .error "MaxDepthExceeded"
  else
    match v with
    | .obj map =>
        (stripEntries map depth).map (fun r => (Json.obj r.1, r.2))
    | .arr items =>
        (stripList items depth).map (fun r => (Json.arr r.1, r.2))
    | _ => .ok (v, 0)

/-- The object arm of `strip_gps_recursive`; the source's two phases (remove
the GPS fields, then recurse into what remains) are fused into one ordered
walk over the entries, which agrees with them on every key-unique map. -/
def stripEntries (entries : List (String × Json)) (depth : Nat) :
    Except String (List (String × Json) × Nat) :=
  match entries with
  | [] => .ok ([], 0)
  | (k, v) :: rest =>
      if gpsCoordinateFields.contains k then
        (stripEntries rest depth).map (fun r => (r.1, r.2 + 1))
      else do
        let r₁ ← stripGps v (depth + 1)
        let r₂ ← stripEntries rest depth
        .ok ((k, r₁.1) :: r₂.1, r₁.2 + r₂.2)

/-- The array arm of `strip_gps_recursive`. -/
def stripList (items : List Json) (depth : Nat) :
    Except String (List Json × Nat) :=
  match items with
  | [] => .ok ([], 0)
  | x :: xs => do
      let r₁ ← stripGps x (depth + 1)
      let r₂ ← stripList xs depth
      .ok (r₁.1 :: r₂.1, r₁.2 + r₂.2)

end

/-- `remove_fields_by_path`: fold `remove_path` over the paths, each from
depth 0, summing counts. -/
def removeFieldsByPath (v : Json) (paths : List String) :
    Except String (Json × Nat) :=
  paths.foldlM
    (fun acc path => (removePath acc.1 path 0).map (fun r => (r.1, acc.2 + r.2)))
    (v, 0)

/-- `redact_fields_by_path`. -/
def redactFieldsByPath (v : Json) (paths : List String) :
    Except String (Json × Nat) :=
  paths.foldlM
    (fun acc path => (redactPath acc.1 path 0).map (fun r => (r.1, acc.2 + r.2)))
    (v, 0)

/-- One directive of `transform_payload`. -/
def applyDirective (v : Json) (d : TransformDirective) :
    Except String (Json × Nat) :=
  match d with
  | .removeFields paths => removeFieldsByPath v paths
  | .redactFields paths => redactFieldsByPath v paths
  | .stripCoordinates => stripGps v 0

/-- The directive loop of `transform_payload` over the parsed document. -/
def transformValue (v : Json) (directives : List TransformDirective) :
    Except String (Json × Nat) :=
  directives.foldlM
    (fun acc d => (applyDirective acc.1 d).map (fun r => (r.1, acc.2 + r.2)))
    (v, 0)

/-- `PayloadTransformer::transform_payload` at the byte level: a payload
that does not parse as JSON is returned unchanged; otherwise the transformed
document is serialized back. `parse`/`ser` stand for `serde_json`. -/
def transformPayload (parse : List Nat → Option Json) (ser : Json → List Nat)
    (payload : List Nat) (directives : List TransformDirective) :
    Except String (List Nat) :=
  match parse payload with
  | none => .ok payload
  | some v => (transformValue v directives).map (fun r => ser r.1)

/-! ## HTTP proxy handler, response-redaction step
(src/services/proxy-http/src/proxy/handler.rs, step 5) -/

def listIsPrefix (p l : List Char) : Bool :=
  match p, l with
  | [], _ => true
  | _ :: _, [] => false
  | a :: asRest, b :: bs => a == b && listIsPrefix asRest bs

/-- `str::contains` for a literal pattern. -/
def strContainsSub (hay needle : String) : Bool :=
  go hay.data needle.data
where
  go : List Char → List Char → Bool
    | l, p => if listIsPrefix p l then true
              else match l with
                   | [] => false
                   | _ :: tl => go tl p

/-- Step 5 of `ProxyHandler::handle_request_inner`: when the decision holds
a non-empty redact list and the upstream response is JSON within the size
limit, rewrite the body and recompute `Content-Length` (the second
component: the header value written, `none` when untouched); everything
else passes through unchanged. -/
def applyResponseRedaction (parse : List Nat → Option Json)
    (ser : Json → List Nat) (maxBodySize : Nat)
    (redact : Option (List String)) (contentType : String)
    (body : List Nat) : List Nat × Option Nat :=
  match redact with
  | none => (body, none)
  | some paths =>
      if paths.isEmpty then (body, none)
      else if strContainsSub contentType "application/json" then
        if maxBodySize < body.length then (body, none)
        else
          let newBody := redactFields parse ser body paths
          (newBody, some newBody.length)
      else (body, none)

/-! ## Structural facts about the MQTT transformer

`JsonDom w v` captures how every transformer operation rewrites a document:
entries may be deleted, a subtree may be overwritten with the redaction
placeholder, arrays keep their length, and everything else is untouched.
`nodupKeys` is the well-formedness every `serde_json` map enjoys: no object
holds a key twice. -/

mutual

inductive JsonDom : Json → Json → Prop where
  | placeholder (v : Json) : JsonDom (.str REDACTED_PLACEHOLDER) v
  | null : JsonDom .null .null
  | bool (b : Bool) : JsonDom (.bool b) (.bool b)
  | num (n : Int) : JsonDom (.num n) (.num n)
  | str (s : String) : JsonDom (.str s) (.str s)
  | arr {xs ys : List Json} : JsonDomList xs ys → JsonDom (.arr xs) (.arr ys)
  | obj {xs ys : List (String × Json)} : JsonDomObj xs ys →
      JsonDom (.obj xs) (.obj ys)

inductive JsonDomList : List Json → List Json → Prop where
  | nil : JsonDomList [] []
  | cons {w v : Json} {ws vs : List Json} : JsonDom w v →
      JsonDomList ws vs → JsonDomList (w :: ws) (v :: vs)

inductive JsonDomObj : List (String × Json) → List (String × Json) → Prop where
  | nil : JsonDomObj [] []
  | skip {ws vs : List (String × Json)} (kv : String × Json) :
      JsonDomObj ws vs → JsonDomObj ws (kv :: vs)
  | keep {ws vs : List (String × Json)} (k : String) {w v : Json} :
      JsonDom w v → JsonDomObj ws vs → JsonDomObj ((k, w) :: ws) ((k, v) :: vs)

end

mutual

def nodupKeys : Json → Bool
  | .null => true
  | .bool _ => true
  | .num _ => true
  | .str _ => true
  | .arr xs => nodupKeysList xs
  | .obj xs => nodupKeysObj xs

def nodupKeysList : List Json → Bool
  | [] => true
  | x :: xs => nodupKeys x && nodupKeysList xs

def nodupKeysObj : List (String × Json) → Bool
  | [] => true
  | (k, v) :: xs => !(xs.any (fun kv => kv.1 == k)) && nodupKeys v &&
      nodupKeysObj xs

end

mutual

theorem jsonDom_refl : ∀ v : Json, JsonDom v v
  | .null => .null
  | .bool b => .bool b
  | .num n => .num n
  | .str s => .str s
  | .arr xs => .arr (jsonDomList_refl xs)
  | .obj xs => .obj (jsonDomObj_refl xs)

theorem jsonDomList_refl : ∀ xs : List Json, JsonDomList xs xs
  | [] => .nil
  | x :: xs => .cons (jsonDom_refl x) (jsonDomList_refl xs)

theorem jsonDomObj_refl : ∀ xs : List (String × Json), JsonDomObj xs xs
  | [] => .nil
  | (k, v) :: xs => .keep k (jsonDom_refl v) (jsonDomObj_refl xs)

end

theorem JsonDomObj.keys_sublist :
    ∀ {ws vs : List (String × Json)}, JsonDomObj ws vs →
      List.Sublist (ws.map Prod.fst) (vs.map Prod.fst)
  | _, _, .nil => List.Sublist.refl _
  | _, _, .skip kv h => List.Sublist.cons _ (JsonDomObj.keys_sublist h)
  | _, _, .keep k _hd h => List.Sublist.cons₂ _ (JsonDomObj.keys_sublist h)

mutual

theorem jsonDom_nodup_down : ∀ {w v : Json}, JsonDom w v →
    nodupKeys v = true → nodupKeys w = true
  | _, _, .placeholder _, _ => rfl
  | _, _, .null, h => h
  | _, _, .bool _, h => h
  | _, _, .num _, h => h
  | _, _, .str _, h => h
  | _, _, .arr hl, h => jsonDomList_nodup_down hl h
  | _, _, .obj ho, h => jsonDomObj_nodup_down ho h

theorem jsonDomList_nodup_down : ∀ {ws vs : List Json}, JsonDomList ws vs →
    nodupKeysList vs = true → nodupKeysList ws = true
  | _, _, .nil, h => h
  | _, _, .cons hd htl, h => by
      rw [nodupKeysList] at h ⊢
      obtain ⟨h₁, h₂⟩ := Bool.and_eq_true_iff.mp h
      exact Bool.and_eq_true_iff.mpr
        ⟨jsonDom_nodup_down hd h₁, jsonDomList_nodup_down htl h₂⟩

theorem jsonDomObj_nodup_down : ∀ {ws vs : List (String × Json)},
    JsonDomObj ws vs → nodupKeysObj vs = true → nodupKeysObj ws = true
  | _, _, .nil, h => h
  | _, _, .skip (k, v) htl, h => by
      rw [nodupKeysObj] at h
      obtain ⟨h₁₂, h₃⟩ := Bool.and_eq_true_iff.mp h
      exact jsonDomObj_nodup_down htl h₃
  | _, _, @JsonDomObj.keep ws vs k _ _ hd htl, h => by
      rw [nodupKeysObj] at h ⊢
      obtain ⟨h₁₂, h₃⟩ := Bool.and_eq_true_iff.mp h
      obtain ⟨h₁, h₂⟩ := Bool.and_eq_true_iff.mp h₁₂
      refine Bool.and_eq_true_iff.mpr ⟨Bool.and_eq_true_iff.mpr ⟨?_, ?_⟩, ?_⟩
      · simp only [Bool.not_eq_true', List.any_eq_false] at h₁ ⊢
        intro kv hkv
        have hsub := (JsonDomObj.keys_sublist htl).subset
        have : kv.1 ∈ vs.map Prod.fst := hsub (List.mem_map_of_mem _ hkv)
        obtain ⟨kv', hkv', hfst⟩ := List.mem_map.mp this
        have hk := h₁ kv' hkv'
        rw [hfst] at hk
        exact hk
      · exact jsonDom_nodup_down hd h₂
      · exact jsonDomObj_nodup_down htl h₃

end

mutual

theorem jsonDom_trans : ∀ {a b c : Json}, JsonDom a b → JsonDom b c →
    JsonDom a c
  | _, _, _, .placeholder _, _ => .placeholder _
  | _, _, _, .null, .null => .null
  | _, _, _, .bool _, .bool _ => .bool _
  | _, _, _, .num _, .num _ => .num _
  | _, _, _, .str _, .placeholder c => .placeholder c
  | _, _, _, .str _, .str _ => .str _
  | _, _, _, .arr hab, .arr hbc => .arr (jsonDomList_trans hab hbc)
  | _, _, _, .obj hab, .obj hbc => .obj (jsonDomObj_trans hab hbc)

theorem jsonDomList_trans : ∀ {xs ys zs : List Json}, JsonDomList xs ys →
    JsonDomList ys zs → JsonDomList xs zs
  | _, _, _, .nil, .nil => .nil
  | _, _, _, .cons hab htab, .cons hbc htbc =>
      .cons (jsonDom_trans hab hbc) (jsonDomList_trans htab htbc)

theorem jsonDomObj_trans : ∀ {xs ys zs : List (String × Json)},
    JsonDomObj xs ys → JsonDomObj ys zs → JsonDomObj xs zs
  | _, _, _, hab, .skip kv hbc => .skip kv (jsonDomObj_trans hab hbc)
  | _, _, _, .nil, .nil => .nil
  | _, _, _, .skip _ hab, .keep _ _ hbc => .skip _ (jsonDomObj_trans hab hbc)
  | _, _, _, .keep _ hd hab, .keep _ hd' hbc =>
      .keep _ (jsonDom_trans hd hd') (jsonDomObj_trans hab hbc)

end

theorem objRemove_dom (m : List (String × Json)) (k : String) :
    JsonDomObj (objRemove m k) m := by
  induction m with
  | nil => exact .nil
  | cons kv tail ih =>
      unfold objRemove at ih ⊢
      rw [List.filter_cons]
      by_cases hk : kv.1 == k
      · simp only [hk, Bool.not_true, Bool.false_eq_true, if_false]
        exact .skip kv ih
      · have hk' : (!(kv.1 == k)) = true := by simp [hk]
        simp only [hk', if_true]
        exact .keep kv.1 (jsonDom_refl kv.2) ih

theorem objSet_dom_placeholder (m : List (String × Json)) (k : String) :
    JsonDomObj (objSet m k (.str REDACTED_PLACEHOLDER)) m := by
  induction m with
  | nil => exact .nil
  | cons kv tail ih =>
      unfold objSet at ih ⊢
      rw [List.map_cons]
      by_cases hk : kv.1 == k
      · simp only [hk, if_true]
        exact .keep kv.1 (.placeholder kv.2) ih
      · simp only [hk, Bool.false_eq_true, if_false]
        exact .keep kv.1 (jsonDom_refl kv.2) ih

theorem removeKeyElems_dom (items : List Json) (key : String) :
    JsonDomList (removeKeyElems items key).1 items := by
  induction items with
  | nil => exact .nil
  | cons x xs ih =>
      rcases x with _ | b | nn | s | elems | map
      · exact .cons (jsonDom_refl _) ih
      · exact .cons (jsonDom_refl _) ih
      · exact .cons (jsonDom_refl _) ih
      · exact .cons (jsonDom_refl _) ih
      · exact .cons (jsonDom_refl _) ih
      · unfold removeKeyElems
        by_cases hk : objHas map key
        · simp only [hk, if_true]
          exact .cons (.obj (objRemove_dom map key)) ih
        · simp only [hk, Bool.false_eq_true, if_false]
          exact .cons (jsonDom_refl _) ih

theorem redactKeyElems_dom (items : List Json) (key : String) :
    JsonDomList (redactKeyElems items key).1 items := by
  induction items with
  | nil => exact .nil
  | cons x xs ih =>
      rcases x with _ | b | nn | s | elems | map
      · exact .cons (jsonDom_refl _) ih
      · exact .cons (jsonDom_refl _) ih
      · exact .cons (jsonDom_refl _) ih
      · exact .cons (jsonDom_refl _) ih
      · exact .cons (jsonDom_refl _) ih
      · unfold redactKeyElems
        by_cases hk : objHas map key
        · simp only [hk, if_true]
          exact .cons (.obj (objSet_dom_placeholder map key)) ih
        · simp only [hk, Bool.false_eq_true, if_false]
          exact .cons (jsonDom_refl _) ih

mutual

theorem removePath_dom : ∀ (v : Json) (path : String) (depth : Nat)
    (w : Json) (n : Nat), removePath v path depth = .ok (w, n) → JsonDom w v
  | v, path, depth, w, n => by
      intro h
      unfold removePath at h
      by_cases hg : MAX_TRANSFORM_DEPTH < depth
      · simp [hg] at h
      · simp only [hg, if_false] at h
        rcases hsplit : splitOnCharStr '.' path with _ | ⟨key, restParts⟩
        · rw [hsplit] at h
          cases h
          exact jsonDom_refl v
        · rw [hsplit] at h
          rcases restParts with _ | ⟨r₁, rrest⟩
          · rcases v with _ | b | nn | s | items | map
            · cases h; exact jsonDom_refl _
            · cases h; exact jsonDom_refl _
            · cases h; exact jsonDom_refl _
            · cases h; exact jsonDom_refl _
            · cases h
              exact .arr (removeKeyElems_dom items key)
            · by_cases hk : objHas map key
              · simp only [hk, if_true] at h
                cases h
                exact .obj (objRemove_dom map key)
              · simp only [hk, Bool.false_eq_true, if_false] at h
                cases h
                exact jsonDom_refl _
          · rcases v with _ | b | nn | s | items | map
            · cases h; exact jsonDom_refl _
            · cases h; exact jsonDom_refl _
            · cases h; exact jsonDom_refl _
            · cases h; exact jsonDom_refl _
            · dsimp only [] at h
              rcases hlist : removeListMqtt items path depth with e | r
              · rw [hlist] at h; cases h
              · rw [hlist] at h
                cases h
                exact .arr (removeListMqtt_dom items path depth r.1 r.2 hlist)
            · dsimp only [] at h
              rcases hnav : removeNavMqtt map key
                  (String.intercalate "." (r₁ :: rrest)) depth with e | r
              · rw [hnav] at h; cases h
              · rw [hnav] at h
                cases h
                exact .obj (removeNavMqtt_dom map key _ depth r.1 r.2 hnav)

theorem removeNavMqtt_dom : ∀ (entries : List (String × Json))
    (first rest : String) (depth : Nat) (es : List (String × Json)) (n : Nat),
    removeNavMqtt entries first rest depth = .ok (es, n) → JsonDomObj es entries
  | entries, first, rest, depth, es, n => by
      intro h
      unfold removeNavMqtt at h
      rcases entries with _ | ⟨⟨k, v⟩, tail⟩
      · cases h; exact .nil
      · dsimp only [] at h
        by_cases hk : k == first
        · simp only [hk, if_true] at h
          rcases hrec : removePath v rest (depth + 1) with e | r
          · rw [hrec] at h; cases h
          · rw [hrec] at h
            cases h
            exact .keep k (removePath_dom v rest (depth + 1) r.1 r.2 hrec)
              (jsonDomObj_refl tail)
        · simp only [hk, Bool.false_eq_true, if_false] at h
          rcases hnav : removeNavMqtt tail first rest depth with e | r
          · rw [hnav] at h; cases h
          · rw [hnav] at h
            cases h
            exact .keep k (jsonDom_refl v)
              (removeNavMqtt_dom tail first rest depth r.1 r.2 hnav)

theorem removeListMqtt_dom : ∀ (items : List Json) (path : String)
    (depth : Nat) (ws : List Json) (n : Nat),
    removeListMqtt items path depth = .ok (ws, n) → JsonDomList ws items
  | items, path, depth, ws, n => by
      intro h
      unfold removeListMqtt at h
      rcases items with _ | ⟨x, xs⟩
      · cases h; exact .nil
      · dsimp only [] at h
        rcases hx : removePath x path (depth + 1) with e | r₁
        · rw [hx] at h
          cases h
        · rw [hx] at h
          rcases hxs : removeListMqtt xs path depth with e | r₂
          · rw [hxs] at h
            cases h
          · rw [hxs] at h
            cases h
            exact .cons (removePath_dom x path (depth + 1) r₁.1 r₁.2 hx)
              (removeListMqtt_dom xs path depth r₂.1 r₂.2 hxs)

end

mutual

theorem redactPath_dom : ∀ (v : Json) (path : String) (depth : Nat)
    (w : Json) (n : Nat), redactPath v path depth = .ok (w, n) → JsonDom w v
  | v, path, depth, w, n => by
      intro h
      unfold redactPath at h
      by_cases hg : MAX_TRANSFORM_DEPTH < depth
      · simp [hg] at h
      · simp only [hg, if_false] at h
        rcases hsplit : splitOnCharStr '.' path with _ | ⟨key, restParts⟩
        · rw [hsplit] at h
          cases h
          exact jsonDom_refl v
        · rw [hsplit] at h
          rcases restParts with _ | ⟨r₁, rrest⟩
          · rcases v with _ | b | nn | s | items | map
            · cases h; exact jsonDom_refl _
            · cases h; exact jsonDom_refl _
            · cases h; exact jsonDom_refl _
            · cases h; exact jsonDom_refl _
            · cases h
              exact .arr (redactKeyElems_dom items key)
            · by_cases hk : objHas map key
              · simp only [hk, if_true] at h
                cases h
                exact .obj (objSet_dom_placeholder map key)
              · simp only [hk, Bool.false_eq_true, if_false] at h
                cases h
                exact jsonDom_refl _
          · rcases v with _ | b | nn | s | items | map
            · cases h; exact jsonDom_refl _
            · cases h; exact jsonDom_refl _
            · cases h; exact jsonDom_refl _
            · cases h; exact jsonDom_refl _
            · dsimp only [] at h
              rcases hlist : redactListMqtt items path depth with e | r
              · rw [hlist] at h; cases h
              · rw [hlist] at h
                cases h
                exact .arr (redactListMqtt_dom items path depth r.1 r.2 hlist)
            · dsimp only [] at h
              rcases hnav : redactNavMqtt map key
                  (String.intercalate "." (r₁ :: rrest)) depth with e | r
              · rw [hnav] at h; cases h
              · rw [hnav] at h
                cases h
                exact .obj (redactNavMqtt_dom map key _ depth r.1 r.2 hnav)

theorem redactNavMqtt_dom : ∀ (entries : List (String × Json))
    (first rest : String) (depth : Nat) (es : List (String × Json)) (n : Nat),
    redactNavMqtt entries first rest depth = .ok (es, n) → JsonDomObj es entries
  | entries, first, rest, depth, es, n => by
      intro h
      unfold redactNavMqtt at h
      rcases entries with _ | ⟨⟨k, v⟩, tail⟩
      · cases h; exact .nil
      · dsimp only [] at h
        by_cases hk : k == first
        · simp only [hk, if_true] at h
          rcases hrec : redactPath v rest (depth + 1) with e | r
          · rw [hrec] at h; cases h
          · rw [hrec] at h
            cases h
            exact .keep k (redactPath_dom v rest (depth + 1) r.1 r.2 hrec)
              (jsonDomObj_refl tail)
        · simp only [hk, Bool.false_eq_true, if_false] at h
          rcases hnav : redactNavMqtt tail first rest depth with e | r
          · rw [hnav] at h; cases h
          · rw [hnav] at h
            cases h
            exact .keep k (jsonDom_refl v)
              (redactNavMqtt_dom tail first rest depth r.1 r.2 hnav)

theorem redactListMqtt_dom : ∀ (items : List Json) (path : String)
    (depth : Nat) (ws : List Json) (n : Nat),
    redactListMqtt items path depth = .ok (ws, n) → JsonDomList ws items
  | items, path, depth, ws, n => by
      intro h
      unfold redactListMqtt at h
      rcases items with _ | ⟨x, xs⟩
      · cases h; exact .nil
      · dsimp only [] at h
        rcases hx : redactPath x path (depth + 1) with e | r₁
        · rw [hx] at h
          cases h
        · rw [hx] at h
          rcases hxs : redactListMqtt xs path depth with e | r₂
          · rw [hxs] at h
            cases h
          · rw [hxs] at h
            cases h
            exact .cons (redactPath_dom x path (depth + 1) r₁.1 r₁.2 hx)
              (redactListMqtt_dom xs path depth r₂.1 r₂.2 hxs)

end

mutual

theorem stripGps_dom : ∀ (v : Json) (depth : Nat) (w : Json) (n : Nat),
    stripGps v depth = .ok (w, n) → JsonDom w v
  | v, depth, w, n => by
      intro h
      unfold stripGps at h
      by_cases hg : MAX_TRANSFORM_DEPTH < depth
      · simp [hg] at h
      · simp only [hg, if_false] at h
        rcases v with _ | b | nn | s | items | map
        · cases h; exact jsonDom_refl _
        · cases h; exact jsonDom_refl _
        · cases h; exact jsonDom_refl _
        · cases h; exact jsonDom_refl _
        · dsimp only [] at h
          rcases hlist : stripList items depth with e | r
          · rw [hlist] at h; cases h
          · rw [hlist] at h
            cases h
            exact .arr (stripList_dom items depth r.1 r.2 hlist)
        · dsimp only [] at h
          rcases hent : stripEntries map depth with e | r
          · rw [hent] at h; cases h
          · rw [hent] at h
            cases h
            exact .obj (stripEntries_dom map depth r.1 r.2 hent)

theorem stripEntries_dom : ∀ (entries : List (String × Json)) (depth : Nat)
    (es : List (String × Json)) (n : Nat),
    stripEntries entries depth = .ok (es, n) → JsonDomObj es entries
  | entries, depth, es, n => by
      intro h
      unfold stripEntries at h
      rcases entries with _ | ⟨⟨k, v⟩, tail⟩
      · cases h; exact .nil
      · dsimp only [] at h
        by_cases hk : gpsCoordinateFields.contains k
        · simp only [hk, if_true] at h
          rcases htl : stripEntries tail depth with e | r
          · rw [htl] at h; cases h
          · rw [htl] at h
            cases h
            exact .skip (k, v) (stripEntries_dom tail depth r.1 r.2 htl)
        · simp only [hk, Bool.false_eq_true, if_false] at h
          rcases hv : stripGps v (depth + 1) with e | r₁
          · rw [hv] at h; cases h
          · rw [hv] at h
            rcases htl : stripEntries tail depth with e | r₂
            · rw [htl] at h; cases h
            · rw [htl] at h
              cases h
              exact .keep k (stripGps_dom v (depth + 1) r₁.1 r₁.2 hv)
                (stripEntries_dom tail depth r₂.1 r₂.2 htl)

theorem stripList_dom : ∀ (items : List Json) (depth : Nat)
    (ws : List Json) (n : Nat),
    stripList items depth = .ok (ws, n) → JsonDomList ws items
  | items, depth, ws, n => by
      intro h
      unfold stripList at h
      rcases items with _ | ⟨x, xs⟩
      · cases h; exact .nil
      · dsimp only [] at h
        rcases hx : stripGps x (depth + 1) with e | r₁
        · rw [hx] at h; cases h
        · rw [hx] at h
          rcases hxs : stripList xs depth with e | r₂
          · rw [hxs] at h; cases h
          · rw [hxs] at h
            cases h
            exact .cons (stripGps_dom x (depth + 1) r₁.1 r₁.2 hx)
              (stripList_dom xs depth r₂.1 r₂.2 hxs)

end

theorem objHas_objRemove_false (m : List (String × Json)) (k : String) :
    objHas (objRemove m k) k = false := by
  induction m with
  | nil => rfl
  | cons kv tail ih =>
      unfold objRemove at ih ⊢
      rw [List.filter_cons]
      by_cases hk : kv.1 == k
      · simp only [hk, Bool.not_true, Bool.false_eq_true, if_false]
        exact ih
      · have hk' : (!(kv.1 == k)) = true := by simp [hk]
        simp only [hk', if_true]
        unfold objHas at ih ⊢
        rw [List.any_cons]
        simp [hk, ih]

theorem objHas_objSet (m : List (String × Json)) (k : String) (x : Json) :
    objHas (objSet m k x) k = objHas m k := by
  induction m with
  | nil => rfl
  | cons kv tail ih =>
      unfold objSet at ih ⊢
      unfold objHas at ih ⊢
      rw [List.map_cons, List.any_cons, List.any_cons, ih]
      by_cases hk : kv.1 == k
      · simp [hk]
      · simp [hk]

theorem objSet_objSet (m : List (String × Json)) (k : String) (x : Json) :
    objSet (objSet m k x) k x = objSet m k x := by
  induction m with
  | nil => rfl
  | cons kv tail ih =>
      unfold objSet at ih ⊢
      rw [List.map_cons, List.map_cons]
      by_cases hk : kv.1 == k
      · simp only [hk, if_true]
        rw [ih]
      · simp only [hk, Bool.false_eq_true, if_false]
        rw [ih]

theorem removeKeyElems_fix (items : List Json) (k : String) :
    removeKeyElems (removeKeyElems items k).1 k =
      ((removeKeyElems items k).1, 0) := by
  induction items with
  | nil => rfl
  | cons x xs ih =>
      rcases x with _ | b | nn | s | elems | map
      · simp only [removeKeyElems]; rw [ih]
      · simp only [removeKeyElems]; rw [ih]
      · simp only [removeKeyElems]; rw [ih]
      · simp only [removeKeyElems]; rw [ih]
      · simp only [removeKeyElems]; rw [ih]
      · by_cases hk : objHas map k
        · simp only [removeKeyElems, hk, if_true, objHas_objRemove_false,
            Bool.false_eq_true, if_false]
          rw [ih]
        · simp only [removeKeyElems, hk, Bool.false_eq_true, if_false]
          rw [ih]

theorem redactKeyElems_fix (items : List Json) (k : String) :
    redactKeyElems (redactKeyElems items k).1 k =
      ((redactKeyElems items k).1, (redactKeyElems items k).2) := by
  induction items with
  | nil => rfl
  | cons x xs ih =>
      rcases x with _ | b | nn | s | elems | map
      · simp only [redactKeyElems]; rw [ih]
      · simp only [redactKeyElems]; rw [ih]
      · simp only [redactKeyElems]; rw [ih]
      · simp only [redactKeyElems]; rw [ih]
      · simp only [redactKeyElems]; rw [ih]
      · by_cases hk : objHas map k
        · simp only [redactKeyElems, hk, if_true, objHas_objSet]
          rw [objSet_objSet, ih]
        · simp only [redactKeyElems, hk, Bool.false_eq_true, if_false]
          rw [ih]

mutual

theorem removePath_fix : ∀ (v : Json) (path : String) (depth : Nat)
    (w : Json) (n : Nat), removePath v path depth = .ok (w, n) →
    removePath w path depth = .ok (w, 0)
  | v, path, depth, w, n => by
      intro h
      unfold removePath at h
      by_cases hg : MAX_TRANSFORM_DEPTH < depth
      · simp [hg] at h
      · simp only [hg, if_false] at h
        rcases hsplit : splitOnCharStr '.' path with _ | ⟨key, restParts⟩
        · rw [hsplit] at h
          cases h
          unfold removePath
          simp only [hg, if_false]
          rw [hsplit]
        · rw [hsplit] at h
          rcases restParts with _ | ⟨r₁, rrest⟩
          · rcases v with _ | b | nn | s | items | map
            · cases h; unfold removePath; simp only [hg, if_false]; rw [hsplit]
            · cases h; unfold removePath; simp only [hg, if_false]; rw [hsplit]
            · cases h; unfold removePath; simp only [hg, if_false]; rw [hsplit]
            · cases h; unfold removePath; simp only [hg, if_false]; rw [hsplit]
            · cases h
              unfold removePath
              simp only [hg, if_false]
              rw [hsplit]
              dsimp only []
              rw [removeKeyElems_fix]
            · by_cases hk : objHas map key
              · simp only [hk, if_true] at h
                cases h
                unfold removePath
                simp only [hg, if_false]
                rw [hsplit]
                dsimp only []
                rw [objHas_objRemove_false]
                simp
              · simp only [hk, Bool.false_eq_true, if_false] at h
                cases h
                unfold removePath
                simp only [hg, if_false]
                rw [hsplit]
                dsimp only []
                simp [hk]
          · rcases v with _ | b | nn | s | items | map
            · cases h; unfold removePath; simp only [hg, if_false]; rw [hsplit]
            · cases h; unfold removePath; simp only [hg, if_false]; rw [hsplit]
            · cases h; unfold removePath; simp only [hg, if_false]; rw [hsplit]
            · cases h; unfold removePath; simp only [hg, if_false]; rw [hsplit]
            · dsimp only [] at h
              rcases hlist : removeListMqtt items path depth with e | r
              · rw [hlist] at h; cases h
              · rw [hlist] at h
                cases h
                unfold removePath
                simp only [hg, if_false]
                rw [hsplit]
                dsimp only []
                rw [removeListMqtt_fix items path depth r.1 r.2 hlist]
                rfl
            · dsimp only [] at h
              rcases hnav : removeNavMqtt map key
                  (String.intercalate "." (r₁ :: rrest)) depth with e | r
              · rw [hnav] at h; cases h
              · rw [hnav] at h
                cases h
                unfold removePath
                simp only [hg, if_false]
                rw [hsplit]
                dsimp only []
                rw [removeNavMqtt_fix map key _ depth r.1 r.2 hnav]
                rfl

theorem removeNavMqtt_fix : ∀ (entries : List (String × Json))
    (first rest : String) (depth : Nat) (es : List (String × Json)) (n : Nat),
    removeNavMqtt entries first rest depth = .ok (es, n) →
    removeNavMqtt es first rest depth = .ok (es, 0)
  | entries, first, rest, depth, es, n => by
      intro h
      unfold removeNavMqtt at h
      rcases entries with _ | ⟨⟨k, v⟩, tail⟩
      · cases h; rfl
      · dsimp only [] at h
        by_cases hk : k == first
        · simp only [hk, if_true] at h
          rcases hrec : removePath v rest (depth + 1) with e | r
          · rw [hrec] at h; cases h
          · rw [hrec] at h
            cases h
            unfold removeNavMqtt
            simp only [hk, if_true]
            rw [removePath_fix v rest (depth + 1) r.1 r.2 hrec]
            rfl
        · simp only [hk, Bool.false_eq_true, if_false] at h
          rcases hnav : removeNavMqtt tail first rest depth with e | r
          · rw [hnav] at h; cases h
          · rw [hnav] at h
            cases h
            unfold removeNavMqtt
            simp only [hk, Bool.false_eq_true, if_false]
            rw [removeNavMqtt_fix tail first rest depth r.1 r.2 hnav]
            rfl

theorem removeListMqtt_fix : ∀ (items : List Json) (path : String)
    (depth : Nat) (ws : List Json) (n : Nat),
    removeListMqtt items path depth = .ok (ws, n) →
    removeListMqtt ws path depth = .ok (ws, 0)
  | items, path, depth, ws, n => by
      intro h
      unfold removeListMqtt at h
      rcases items with _ | ⟨x, xs⟩
      · cases h; rfl
      · dsimp only [] at h
        rcases hx : removePath x path (depth + 1) with e | r₁
        · rw [hx] at h; cases h
        · rw [hx] at h
          rcases hxs : removeListMqtt xs path depth with e | r₂
          · rw [hxs] at h; cases h
          · rw [hxs] at h
            cases h
            unfold removeListMqtt
            rw [removePath_fix x path (depth + 1) r₁.1 r₁.2 hx]
            rw [removeListMqtt_fix xs path depth r₂.1 r₂.2 hxs]
            rfl

end

mutual

theorem redactPath_fix : ∀ (v : Json) (path : String) (depth : Nat)
    (w : Json) (n : Nat), redactPath v path depth = .ok (w, n) →
    ∃ m, redactPath w path depth = .ok (w, m)
  | v, path, depth, w, n => by
      intro h
      unfold redactPath at h
      by_cases hg : MAX_TRANSFORM_DEPTH < depth
      · simp [hg] at h
      · simp only [hg, if_false] at h
        rcases hsplit : splitOnCharStr '.' path with _ | ⟨key, restParts⟩
        · rw [hsplit] at h
          cases h
          refine ⟨0, ?_⟩
          unfold redactPath
          simp only [hg, if_false]
          rw [hsplit]
        · rw [hsplit] at h
          rcases restParts with _ | ⟨r₁, rrest⟩
          · rcases v with _ | b | nn | s | items | map
            · cases h
              refine ⟨0, ?_⟩
              unfold redactPath
              simp only [hg, if_false]
              rw [hsplit]
            · cases h
              refine ⟨0, ?_⟩
              unfold redactPath
              simp only [hg, if_false]
              rw [hsplit]
            · cases h
              refine ⟨0, ?_⟩
              unfold redactPath
              simp only [hg, if_false]
              rw [hsplit]
            · cases h
              refine ⟨0, ?_⟩
              unfold redactPath
              simp only [hg, if_false]
              rw [hsplit]
            · cases h
              refine ⟨(redactKeyElems (redactKeyElems items key).1 key).2, ?_⟩
              unfold redactPath
              simp only [hg, if_false]
              rw [hsplit]
              dsimp only []
              rw [redactKeyElems_fix]
            · by_cases hk : objHas map key
              · simp only [hk, if_true] at h
                cases h
                refine ⟨1, ?_⟩
                unfold redactPath
                simp only [hg, if_false]
                rw [hsplit]
                dsimp only []
                rw [objHas_objSet]
                simp only [hk, if_true]
                rw [objSet_objSet]
              · simp only [hk, Bool.false_eq_true, if_false] at h
                cases h
                refine ⟨0, ?_⟩
                unfold redactPath
                simp only [hg, if_false]
                rw [hsplit]
                dsimp only []
                simp [hk]
          · rcases v with _ | b | nn | s | items | map
            · cases h
              refine ⟨0, ?_⟩
              unfold redactPath
              simp only [hg, if_false]
              rw [hsplit]
            · cases h
              refine ⟨0, ?_⟩
              unfold redactPath
              simp only [hg, if_false]
              rw [hsplit]
            · cases h
              refine ⟨0, ?_⟩
              unfold redactPath
              simp only [hg, if_false]
              rw [hsplit]
            · cases h
              refine ⟨0, ?_⟩
              unfold redactPath
              simp only [hg, if_false]
              rw [hsplit]
            · dsimp only [] at h
              rcases hlist : redactListMqtt items path depth with e | r
              · rw [hlist] at h; cases h
              · rw [hlist] at h
                cases h
                obtain ⟨m, hm⟩ :=
                  redactListMqtt_fix items path depth r.1 r.2 hlist
                refine ⟨m, ?_⟩
                unfold redactPath
                simp only [hg, if_false]
                rw [hsplit]
                dsimp only []
                rw [hm]
                rfl
            · dsimp only [] at h
              rcases hnav : redactNavMqtt map key
                  (String.intercalate "." (r₁ :: rrest)) depth with e | r
              · rw [hnav] at h; cases h
              · rw [hnav] at h
                cases h
                obtain ⟨m, hm⟩ :=
                  redactNavMqtt_fix map key _ depth r.1 r.2 hnav
                refine ⟨m, ?_⟩
                unfold redactPath
                simp only [hg, if_false]
                rw [hsplit]
                dsimp only []
                rw [hm]
                rfl

theorem redactNavMqtt_fix : ∀ (entries : List (String × Json))
    (first rest : String) (depth : Nat) (es : List (String × Json)) (n : Nat),
    redactNavMqtt entries first rest depth = .ok (es, n) →
    ∃ m, redactNavMqtt es first rest depth = .ok (es, m)
  | entries, first, rest, depth, es, n => by
      intro h
      unfold redactNavMqtt at h
      rcases entries with _ | ⟨⟨k, v⟩, tail⟩
      · cases h; exact ⟨0, rfl⟩
      · dsimp only [] at h
        by_cases hk : k == first
        · simp only [hk, if_true] at h
          rcases hrec : redactPath v rest (depth + 1) with e | r
          · rw [hrec] at h; cases h
          · rw [hrec] at h
            cases h
            obtain ⟨m, hm⟩ := redactPath_fix v rest (depth + 1) r.1 r.2 hrec
            refine ⟨m, ?_⟩
            unfold redactNavMqtt
            simp only [hk, if_true]
            rw [hm]
            rfl
        · simp only [hk, Bool.false_eq_true, if_false] at h
          rcases hnav : redactNavMqtt tail first rest depth with e | r
          · rw [hnav] at h; cases h
          · rw [hnav] at h
            cases h
            obtain ⟨m, hm⟩ := redactNavMqtt_fix tail first rest depth r.1 r.2
              hnav
            refine ⟨m, ?_⟩
            unfold redactNavMqtt
            simp only [hk, Bool.false_eq_true, if_false]
            rw [hm]
            rfl

theorem redactListMqtt_fix : ∀ (items : List Json) (path : String)
    (depth : Nat) (ws : List Json) (n : Nat),
    redactListMqtt items path depth = .ok (ws, n) →
    ∃ m, redactListMqtt ws path depth = .ok (ws, m)
  | items, path, depth, ws, n => by
      intro h
      unfold redactListMqtt at h
      rcases items with _ | ⟨x, xs⟩
      · cases h; exact ⟨0, rfl⟩
      · dsimp only [] at h
        rcases hx : redactPath x path (depth + 1) with e | r₁
        · rw [hx] at h; cases h
        · rw [hx] at h
          rcases hxs : redactListMqtt xs path depth with e | r₂
          · rw [hxs] at h; cases h
          · rw [hxs] at h
            cases h
            obtain ⟨m₁, hm₁⟩ := redactPath_fix x path (depth + 1) r₁.1 r₁.2 hx
            obtain ⟨m₂, hm₂⟩ := redactListMqtt_fix xs path depth r₂.1 r₂.2 hxs
            refine ⟨m₁ + m₂, ?_⟩
            unfold redactListMqtt
            rw [hm₁, hm₂]
            rfl

end

mutual

theorem stripGps_fix : ∀ (v : Json) (depth : Nat) (w : Json) (n : Nat),
    stripGps v depth = .ok (w, n) → stripGps w depth = .ok (w, 0)
  | v, depth, w, n => by
      intro h
      unfold stripGps at h
      by_cases hg : MAX_TRANSFORM_DEPTH < depth
      · simp [hg] at h
      · simp only [hg, if_false] at h
        rcases v with _ | b | nn | s | items | map
        · cases h
          unfold stripGps
          simp only [hg, if_false]
        · cases h
          unfold stripGps
          simp only [hg, if_false]
        · cases h
          unfold stripGps
          simp only [hg, if_false]
        · cases h
          unfold stripGps
          simp only [hg, if_false]
        · dsimp only [] at h
          rcases hl : stripList items depth with e | r
          · rw [hl] at h; cases h
          · rw [hl] at h
            cases h
            unfold stripGps
            simp only [hg, if_false]
            rw [stripList_fix items depth r.1 r.2 hl]
            rfl
        · dsimp only [] at h
          rcases he : stripEntries map depth with e | r
          · rw [he] at h; cases h
          · rw [he] at h
            cases h
            unfold stripGps
            simp only [hg, if_false]
            rw [stripEntries_fix map depth r.1 r.2 he]
            rfl

theorem stripEntries_fix : ∀ (entries : List (String × Json)) (depth : Nat)
    (es : List (String × Json)) (n : Nat),
    stripEntries entries depth = .ok (es, n) → stripEntries es depth = .ok (es, 0)
  | entries, depth, es, n => by
      intro h
      unfold stripEntries at h
      rcases entries with _ | ⟨⟨k, v⟩, tail⟩
      · cases h; rfl
      · dsimp only [] at h
        by_cases hk : gpsCoordinateFields.contains k
        · simp only [hk, if_true] at h
          rcases ht : stripEntries tail depth with e | r
          · rw [ht] at h; cases h
          · rw [ht] at h
            cases h
            exact stripEntries_fix tail depth r.1 r.2 ht
        · simp only [hk, Bool.false_eq_true, if_false] at h
          rcases hv : stripGps v (depth + 1) with e | r₁
          · rw [hv] at h; cases h
          · rw [hv] at h
            rcases ht : stripEntries tail depth with e | r₂
            · rw [ht] at h; cases h
            · rw [ht] at h
              cases h
              unfold stripEntries
              simp only [hk, Bool.false_eq_true, if_false]
              rw [stripGps_fix v (depth + 1) r₁.1 r₁.2 hv]
              rw [stripEntries_fix tail depth r₂.1 r₂.2 ht]
              rfl

theorem stripList_fix : ∀ (items : List Json) (depth : Nat)
    (ws : List Json) (n : Nat),
    stripList items depth = .ok (ws, n) → stripList ws depth = .ok (ws, 0)
  | items, depth, ws, n => by
      intro h
      unfold stripList at h
      rcases items with _ | ⟨x, xs⟩
      · cases h; rfl
      · dsimp only [] at h
        rcases hx : stripGps x (depth + 1) with e | r₁
        · rw [hx] at h; cases h
        · rw [hx] at h
          rcases hxs : stripList xs depth with e | r₂
          · rw [hxs] at h; cases h
          · rw [hxs] at h
            cases h
            unfold stripList
            rw [stripGps_fix x (depth + 1) r₁.1 r₁.2 hx]
            rw [stripList_fix xs depth r₂.1 r₂.2 hxs]
            rfl

end

theorem objRemove_length_lt : ∀ (m : List (String × Json)) (k : String),
    objHas m k = true → (objRemove m k).length < m.length
  | [], k, h => by cases h
  | kv :: tail, k, h => by
      unfold objHas at h
      rw [List.any_cons] at h
      unfold objRemove
      rw [List.filter_cons]
      by_cases hk : kv.1 == k
      · simp only [hk, Bool.not_true, Bool.false_eq_true, if_false]
        exact Nat.lt_succ_of_le (List.length_filter_le _ tail)
      · have hk' : (!(kv.1 == k)) = true := by
          rcases hb : kv.1 == k
          · rfl
          · exact absurd hb hk
        simp only [hk', if_true]
        have htail : objHas tail k = true := by
          rcases hb : kv.1 == k
          · rw [hb, Bool.false_or] at h
            exact h
          · exact absurd hb hk
        exact Nat.succ_lt_succ (objRemove_length_lt tail k htail)

theorem objRemove_ne (m : List (String × Json)) (k : String)
    (h : objHas m k = true) : objRemove m k ≠ m := by
  intro heq
  have := objRemove_length_lt m k h
  rw [heq] at this
  exact Nat.lt_irrefl _ this

theorem objHas_iff_mem (es : List (String × Json)) (k : String) :
    objHas es k = true ↔ k ∈ es.map Prod.fst := by
  unfold objHas
  rw [List.any_eq_true]
  constructor
  · rintro ⟨kv, hkv, hb⟩
    have : kv.1 = k := beq_iff_eq.mp hb
    rw [← this]
    exact List.mem_map_of_mem _ hkv
  · intro hmem
    obtain ⟨kv, hkv, hfst⟩ := List.mem_map.mp hmem
    exact ⟨kv, hkv, beq_iff_eq.mpr hfst⟩

theorem JsonDomObj.noKey_down {ws vs : List (String × Json)}
    (h : JsonDomObj ws vs) {k : String} (hv : objHas vs k = false) :
    objHas ws k = false := by
  rcases hb : objHas ws k
  · rfl
  · have hmem := (objHas_iff_mem ws k).mp hb
    have hsub := (JsonDomObj.keys_sublist h).subset
    have := (objHas_iff_mem vs k).mpr (hsub hmem)
    rw [hv] at this
    cases this

theorem JsonDomObj.mem_dom : ∀ {ws vs : List (String × Json)},
    JsonDomObj ws vs → ∀ {k : String} {w : Json}, (k, w) ∈ ws →
    ∃ v, (k, v) ∈ vs ∧ JsonDom w v
  | _, _, .nil, _, _, h => absurd h (List.not_mem_nil _)
  | _, _, .skip kv htl, _, _, h => by
      obtain ⟨v, hv, hd⟩ := JsonDomObj.mem_dom htl h
      exact ⟨v, List.mem_cons_of_mem _ hv, hd⟩
  | _, _, .keep k' hd htl, k, w, h => by
      rcases List.mem_cons.mp h with heq | hmem
      · injection heq with h₁ h₂
        subst h₁
        subst h₂
        exact ⟨_, List.mem_cons_self _ _, hd⟩
      · obtain ⟨v, hv, hdd⟩ := JsonDomObj.mem_dom htl hmem
        exact ⟨v, List.mem_cons_of_mem _ hv, hdd⟩

theorem JsonDom.of_placeholder : ∀ {w : Json},
    JsonDom w (.str REDACTED_PLACEHOLDER) → w = .str REDACTED_PLACEHOLDER
  | _, .placeholder _ => rfl
  | _, .str _ => rfl

theorem objSet_self_vals : ∀ (m : List (String × Json)) (k : String) (P : Json),
    objSet m k P = m → ∀ p, p ∈ m → p.1 = k → p.2 = P
  | [], _, _, _, p, hp, _ => absurd hp (List.not_mem_nil _)
  | (k₁, v₁) :: t, k, P, h, p, hp, hk => by
      unfold objSet at h
      rw [List.map_cons] at h
      injection h with h₁ h₂
      rcases List.mem_cons.mp hp with heq | hmem
      · subst heq
        dsimp only [] at hk ⊢
        by_cases hb : k₁ == k
        · simp only [hb, if_true] at h₁
          injection h₁ with _ hv
          exact hv.symm
        · exact absurd (beq_iff_eq.mpr hk) hb
      · exact objSet_self_vals t k P h₂ p hmem hk

theorem objSet_id_of_vals : ∀ (m : List (String × Json)) (k : String) (P : Json),
    (∀ p, p ∈ m → p.1 = k → p.2 = P) → objSet m k P = m
  | [], _, _, _ => rfl
  | (k₁, v₁) :: t, k, P, h => by
      unfold objSet
      rw [List.map_cons]
      have ht : objSet t k P = t :=
        objSet_id_of_vals t k P (fun p hp hk => h p (List.mem_cons_of_mem _ hp) hk)
      unfold objSet at ht
      by_cases hb : k₁ == k
      · have hv : v₁ = P := h (k₁, v₁) (List.mem_cons_self _ _) (beq_iff_eq.mp hb)
        simp only [hb, if_true]
        rw [ht, hv]
      · simp only [hb, Bool.false_eq_true, if_false]
        rw [ht]

theorem removeNavMqtt_nomatch : ∀ (entries : List (String × Json))
    (first rest : String) (depth : Nat), objHas entries first = false →
    removeNavMqtt entries first rest depth = .ok (entries, 0)
  | [], _, _, _, _ => rfl
  | (k, v) :: tail, first, rest, depth, h => by
      unfold objHas at h
      rw [List.any_cons] at h
      obtain ⟨h₁, h₂⟩ := Bool.or_eq_false_iff.mp h
      unfold removeNavMqtt
      simp only [h₁, Bool.false_eq_true, if_false]
      rw [removeNavMqtt_nomatch tail first rest depth h₂]
      rfl

theorem redactNavMqtt_nomatch : ∀ (entries : List (String × Json))
    (first rest : String) (depth : Nat), objHas entries first = false →
    redactNavMqtt entries first rest depth = .ok (entries, 0)
  | [], _, _, _, _ => rfl
  | (k, v) :: tail, first, rest, depth, h => by
      unfold objHas at h
      rw [List.any_cons] at h
      obtain ⟨h₁, h₂⟩ := Bool.or_eq_false_iff.mp h
      unfold redactNavMqtt
      simp only [h₁, Bool.false_eq_true, if_false]
      rw [redactNavMqtt_nomatch tail first rest depth h₂]
      rfl

/-- The head rewrite of `removeKeyElems` on a single element. -/
def removeKeyHead (v : Json) (key : String) : Json :=
  match v with
  | .obj map => if objHas map key then .obj (objRemove map key) else .obj map
  | x => x

/-- The head rewrite of `redactKeyElems` on a single element. -/
def redactKeyHead (v : Json) (key : String) : Json :=
  match v with
  | .obj map =>
      if objHas map key then .obj (objSet map key (.str REDACTED_PLACEHOLDER))
      else .obj map
  | x => x

theorem removeKeyElems_cons_fst (v : Json) (vs : List Json) (key : String) :
    (removeKeyElems (v :: vs) key).1 =
      removeKeyHead v key :: (removeKeyElems vs key).1 := by
  rcases v with _ | b | nn | s | items | map
  · rfl
  · rfl
  · rfl
  · rfl
  · rfl
  · simp only [removeKeyElems, removeKeyHead]
    by_cases hk : objHas map key
    · simp only [hk, if_true]
    · simp only [hk, Bool.false_eq_true, if_false]

theorem redactKeyElems_cons_fst (v : Json) (vs : List Json) (key : String) :
    (redactKeyElems (v :: vs) key).1 =
      redactKeyHead v key :: (redactKeyElems vs key).1 := by
  rcases v with _ | b | nn | s | items | map
  · rfl
  · rfl
  · rfl
  · rfl
  · rfl
  · simp only [redactKeyElems, redactKeyHead]
    by_cases hk : objHas map key
    · simp only [hk, if_true]
    · simp only [hk, Bool.false_eq_true, if_false]

theorem removeKeyElems_pres : ∀ {ws items : List Json}, JsonDomList ws items →
    ∀ key : String, (removeKeyElems items key).1 = items →
    (removeKeyElems ws key).1 = ws
  | _, _, .nil, _, _ => rfl
  | _, _, .cons hd htl, key, h => by
      rw [removeKeyElems_cons_fst, List.cons.injEq] at h
      obtain ⟨hh, ht⟩ := h
      rw [removeKeyElems_cons_fst, List.cons.injEq]
      refine ⟨?_, removeKeyElems_pres htl key ht⟩
      cases hd with
      | placeholder => rfl
      | null => rfl
      | bool => rfl
      | num => rfl
      | str => rfl
      | arr hl => rfl
      | @obj ws₂ vs₂ ho =>
          unfold removeKeyHead at hh ⊢
          dsimp only [] at hh ⊢
          by_cases hk : objHas vs₂ key
          · simp only [hk, if_true] at hh
            injection hh with hh'
            exact absurd hh' (objRemove_ne vs₂ key hk)
          · rw [Bool.not_eq_true] at hk
            have hk' := JsonDomObj.noKey_down ho hk
            simp only [hk', Bool.false_eq_true, if_false]

theorem redactKeyElems_pres : ∀ {ws items : List Json}, JsonDomList ws items →
    ∀ key : String, (redactKeyElems items key).1 = items →
    (redactKeyElems ws key).1 = ws
  | _, _, .nil, _, _ => rfl
  | _, _, .cons hd htl, key, h => by
      rw [redactKeyElems_cons_fst, List.cons.injEq] at h
      obtain ⟨hh, ht⟩ := h
      rw [redactKeyElems_cons_fst, List.cons.injEq]
      refine ⟨?_, redactKeyElems_pres htl key ht⟩
      cases hd with
      | placeholder => rfl
      | null => rfl
      | bool => rfl
      | num => rfl
      | str => rfl
      | arr hl => rfl
      | @obj ws₂ vs₂ ho =>
          unfold redactKeyHead at hh ⊢
          dsimp only [] at hh ⊢
          by_cases hk : objHas vs₂ key
          · simp only [hk, if_true] at hh
            injection hh with hh'
            by_cases hk₂ : objHas ws₂ key
            · simp only [hk₂, if_true]
              have hws : objSet ws₂ key (Json.str REDACTED_PLACEHOLDER) = ws₂ := by
                refine objSet_id_of_vals ws₂ key _ ?_
                intro p hp hpk
                obtain ⟨v', hv', hdv⟩ := JsonDomObj.mem_dom ho hp
                have hv'P : v' = Json.str REDACTED_PLACEHOLDER :=
                  objSet_self_vals vs₂ key _ hh' (p.1, v') hv' hpk
                rw [hv'P] at hdv
                exact JsonDom.of_placeholder hdv
              rw [hws]
            · simp only [hk₂, Bool.false_eq_true, if_false]
          · rw [Bool.not_eq_true] at hk
            have hk' := JsonDomObj.noKey_down ho hk
            simp only [hk', Bool.false_eq_true, if_false]

theorem stripEntries_len : ∀ (es : List (String × Json)) (depth : Nat)
    (r : List (String × Json) × Nat), stripEntries es depth = .ok r →
    r.1.length ≤ es.length
  | [], _, r, h => by
      cases h
      exact Nat.le_refl 0
  | (k, v) :: t, depth, r, h => by
      unfold stripEntries at h
      by_cases hk : gpsCoordinateFields.contains k
      · simp only [hk, if_true] at h
        rcases ht : stripEntries t depth with e | r₂
        · rw [ht] at h; cases h
        · rw [ht] at h
          cases h
          exact Nat.le_succ_of_le (stripEntries_len t depth r₂ ht)
      · simp only [hk, Bool.false_eq_true, if_false] at h
        rcases hv : stripGps v (depth + 1) with e | r₁
        · rw [hv] at h; cases h
        · rw [hv] at h
          rcases ht : stripEntries t depth with e | r₂
          · rw [ht] at h; cases h
          · rw [ht] at h
            cases h
            exact Nat.succ_le_succ (stripEntries_len t depth r₂ ht)

mutual

theorem removePath_pres : ∀ {w v : Json}, JsonDom w v →
    ∀ (path : String) (depth : Nat), nodupKeys v = true →
    (∃ n, removePath v path depth = .ok (v, n)) →
    ∃ m, removePath w path depth = .ok (w, m)
  | _, v, .placeholder _, path, depth, _, hfix => by
      obtain ⟨n, h⟩ := hfix
      unfold removePath at h
      by_cases hg : MAX_TRANSFORM_DEPTH < depth
      · simp [hg] at h
      · refine ⟨0, ?_⟩
        unfold removePath
        simp only [hg, if_false]
        rcases hsplit : splitOnCharStr '.' path with _ | ⟨key, restParts⟩
        · rfl
        · rcases restParts with _ | ⟨r₁, rrest⟩
          · rfl
          · rfl
  | _, _, .null, _, _, _, hfix => hfix
  | _, _, .bool _, _, _, _, hfix => hfix
  | _, _, .num _, _, _, _, hfix => hfix
  | _, _, .str _, _, _, _, hfix => hfix
  | _, _, @JsonDom.arr ws items hl, path, depth, hnd, hfix => by
      obtain ⟨n, h⟩ := hfix
      unfold removePath at h
      by_cases hg : MAX_TRANSFORM_DEPTH < depth
      · simp [hg] at h
      · simp only [hg, if_false] at h
        rcases hsplit : splitOnCharStr '.' path with _ | ⟨key, restParts⟩
        · refine ⟨0, ?_⟩
          unfold removePath
          simp only [hg, if_false]
          rw [hsplit]
        · rw [hsplit] at h
          rcases restParts with _ | ⟨r₁, rrest⟩
          · dsimp only [] at h
            injection h with h₁
            injection h₁ with h₂ h₃
            injection h₂ with h₄
            refine ⟨(removeKeyElems ws key).2, ?_⟩
            unfold removePath
            simp only [hg, if_false]
            rw [hsplit]
            dsimp only []
            rw [removeKeyElems_pres hl key h₄]
          · dsimp only [] at h
            rcases hlist : removeListMqtt items path depth with e | ⟨rv, rn⟩
            · rw [hlist] at h; cases h
            · rw [hlist] at h
              injection h with h₁
              injection h₁ with h₂ h₃
              injection h₂ with h₄
              have h₄' : rv = items := h₄
              rw [h₄'] at hlist
              have hndl : nodupKeysList items = true := by
                unfold nodupKeys at hnd
                exact hnd
              obtain ⟨m, hm⟩ := removeListMqtt_pres hl path depth hndl ⟨rn, hlist⟩
              refine ⟨m, ?_⟩
              unfold removePath
              simp only [hg, if_false]
              rw [hsplit]
              dsimp only []
              rw [hm]
              rfl
  | _, _, @JsonDom.obj ws map ho, path, depth, hnd, hfix => by
      obtain ⟨n, h⟩ := hfix
      unfold removePath at h
      by_cases hg : MAX_TRANSFORM_DEPTH < depth
      · simp [hg] at h
      · simp only [hg, if_false] at h
        rcases hsplit : splitOnCharStr '.' path with _ | ⟨key, restParts⟩
        · refine ⟨0, ?_⟩
          unfold removePath
          simp only [hg, if_false]
          rw [hsplit]
        · rw [hsplit] at h
          rcases restParts with _ | ⟨r₁, rrest⟩
          · by_cases hk : objHas map key
            · simp only [hk, if_true] at h
              injection h with h₁
              injection h₁ with h₂ h₃
              injection h₂ with h₄
              exact absurd h₄ (objRemove_ne map key hk)
            · rw [Bool.not_eq_true] at hk
              have hk' : objHas ws key = false := JsonDomObj.noKey_down ho hk
              refine ⟨0, ?_⟩
              unfold removePath
              simp only [hg, if_false]
              rw [hsplit]
              dsimp only []
              simp [hk']
          · dsimp only [] at h
            rcases hnav : removeNavMqtt map key
                (String.intercalate "." (r₁ :: rrest)) depth with e | ⟨rv, rn⟩
            · rw [hnav] at h; cases h
            · rw [hnav] at h
              injection h with h₁
              injection h₁ with h₂ h₃
              injection h₂ with h₄
              have h₄' : rv = map := h₄
              rw [h₄'] at hnav
              have hndo : nodupKeysObj map = true := by
                unfold nodupKeys at hnd
                exact hnd
              obtain ⟨m, hm⟩ := removeNavMqtt_pres ho key _ depth hndo ⟨rn, hnav⟩
              refine ⟨m, ?_⟩
              unfold removePath
              simp only [hg, if_false]
              rw [hsplit]
              dsimp only []
              rw [hm]
              rfl

theorem removeNavMqtt_pres : ∀ {ws entries : List (String × Json)},
    JsonDomObj ws entries → ∀ (first rest : String) (depth : Nat),
    nodupKeysObj entries = true →
    (∃ n, removeNavMqtt entries first rest depth = .ok (entries, n)) →
    ∃ m, removeNavMqtt ws first rest depth = .ok (ws, m)
  | _, _, .nil, _, _, _, _, _ => ⟨0, rfl⟩
  | _, _, @JsonDomObj.skip ws vs kv htl, first, rest, depth, hnd, hfix => by
      obtain ⟨k, v⟩ := kv
      obtain ⟨n, h⟩ := hfix
      unfold removeNavMqtt at h
      unfold nodupKeysObj at hnd
      obtain ⟨h₁₂, h₃⟩ := Bool.and_eq_true_iff.mp hnd
      obtain ⟨h₁, h₂⟩ := Bool.and_eq_true_iff.mp h₁₂
      rw [Bool.not_eq_true'] at h₁
      by_cases hk : k == first
      · have hkeq : k = first := beq_iff_eq.mp hk
        have hvs : objHas vs first = false := by
          unfold objHas
          rw [← hkeq]
          exact h₁
        have hws : objHas ws first = false := JsonDomObj.noKey_down htl hvs
        exact ⟨0, removeNavMqtt_nomatch ws first rest depth hws⟩
      · simp only [hk, Bool.false_eq_true, if_false] at h
        rcases hnav : removeNavMqtt vs first rest depth with e | ⟨rv, rn⟩
        · rw [hnav] at h; cases h
        · rw [hnav] at h
          injection h with hA
          injection hA with hB hC
          injection hB with hB₀ hB'
          have hB'' : rv = vs := hB'
          rw [hB''] at hnav
          exact removeNavMqtt_pres htl first rest depth h₃ ⟨rn, hnav⟩
  | _, _, @JsonDomObj.keep ws' vs k w' v hd htl,
      first, rest, depth, hnd, hfix => by
      obtain ⟨n, h⟩ := hfix
      unfold removeNavMqtt at h
      unfold nodupKeysObj at hnd
      obtain ⟨h₁₂, h₃⟩ := Bool.and_eq_true_iff.mp hnd
      obtain ⟨h₁, h₂⟩ := Bool.and_eq_true_iff.mp h₁₂
      by_cases hk : k == first
      · simp only [hk, if_true] at h
        rcases hrec : removePath v rest (depth + 1) with e | ⟨rv, rn⟩
        · rw [hrec] at h; cases h
        · rw [hrec] at h
          injection h with hA
          injection hA with hB hC
          injection hB with hB₁ hB₂
          injection hB₁ with hBk hBv
          have hBv' : rv = v := hBv
          rw [hBv'] at hrec
          obtain ⟨m₁, hm₁⟩ := removePath_pres hd rest (depth + 1) h₂ ⟨rn, hrec⟩
          refine ⟨m₁, ?_⟩
          unfold removeNavMqtt
          simp only [hk, if_true]
          rw [hm₁]
          rfl
      · simp only [hk, Bool.false_eq_true, if_false] at h
        rcases hnav : removeNavMqtt vs first rest depth with e | ⟨rv, rn⟩
        · rw [hnav] at h; cases h
        · rw [hnav] at h
          injection h with hA
          injection hA with hB hC
          injection hB with hB₁ hB₂
          have hB₂' : rv = vs := hB₂
          rw [hB₂'] at hnav
          obtain ⟨m₂, hm₂⟩ := removeNavMqtt_pres htl first rest depth h₃ ⟨rn, hnav⟩
          refine ⟨m₂, ?_⟩
          unfold removeNavMqtt
          simp only [hk, Bool.false_eq_true, if_false]
          rw [hm₂]
          rfl

theorem removeListMqtt_pres : ∀ {ws items : List Json},
    JsonDomList ws items → ∀ (path : String) (depth : Nat),
    nodupKeysList items = true →
    (∃ n, removeListMqtt items path depth = .ok (items, n)) →
    ∃ m, removeListMqtt ws path depth = .ok (ws, m)
  | _, _, .nil, _, _, _, _ => ⟨0, rfl⟩
  | _, _, @JsonDomList.cons w v ws' vs hd htl,
      path, depth, hnd, hfix => by
      obtain ⟨n, h⟩ := hfix
      unfold removeListMqtt at h
      unfold nodupKeysList at hnd
      obtain ⟨h₁, h₂⟩ := Bool.and_eq_true_iff.mp hnd
      rcases hx : removePath v path (depth + 1) with e | ⟨rv, rn⟩
      · rw [hx] at h; cases h
      · rw [hx] at h
        rcases hxs : removeListMqtt vs path depth with e | ⟨rv₂, rn₂⟩
        · rw [hxs] at h; cases h
        · rw [hxs] at h
          injection h with hA
          injection hA with hB hC
          injection hB with hB₁ hB₂
          have hB₁' : rv = v := hB₁
          have hB₂' : rv₂ = vs := hB₂
          rw [hB₁'] at hx
          rw [hB₂'] at hxs
          obtain ⟨m₁, hm₁⟩ := removePath_pres hd path (depth + 1) h₁ ⟨rn, hx⟩
          obtain ⟨m₂, hm₂⟩ := removeListMqtt_pres htl path depth h₂ ⟨rn₂, hxs⟩
          refine ⟨m₁ + m₂, ?_⟩
          unfold removeListMqtt
          rw [hm₁, hm₂]
          rfl

end

mutual

theorem redactPath_pres : ∀ {w v : Json}, JsonDom w v →
    ∀ (path : String) (depth : Nat), nodupKeys v = true →
    (∃ n, redactPath v path depth = .ok (v, n)) →
    ∃ m, redactPath w path depth = .ok (w, m)
  | _, v, .placeholder _, path, depth, _, hfix => by
      obtain ⟨n, h⟩ := hfix
      unfold redactPath at h
      by_cases hg : MAX_TRANSFORM_DEPTH < depth
      · simp [hg] at h
      · refine ⟨0, ?_⟩
        unfold redactPath
        simp only [hg, if_false]
        rcases hsplit : splitOnCharStr '.' path with _ | ⟨key, restParts⟩
        · rfl
        · rcases restParts with _ | ⟨r₁, rrest⟩
          · rfl
          · rfl
  | _, _, .null, _, _, _, hfix => hfix
  | _, _, .bool _, _, _, _, hfix => hfix
  | _, _, .num _, _, _, _, hfix => hfix
  | _, _, .str _, _, _, _, hfix => hfix
  | _, _, @JsonDom.arr ws items hl, path, depth, hnd, hfix => by
      obtain ⟨n, h⟩ := hfix
      unfold redactPath at h
      by_cases hg : MAX_TRANSFORM_DEPTH < depth
      · simp [hg] at h
      · simp only [hg, if_false] at h
        rcases hsplit : splitOnCharStr '.' path with _ | ⟨key, restParts⟩
        · refine ⟨0, ?_⟩
          unfold redactPath
          simp only [hg, if_false]
          rw [hsplit]
        · rw [hsplit] at h
          rcases restParts with _ | ⟨r₁, rrest⟩
          · dsimp only [] at h
            injection h with h₁
            injection h₁ with h₂ h₃
            injection h₂ with h₄
            refine ⟨(redactKeyElems ws key).2, ?_⟩
            unfold redactPath
            simp only [hg, if_false]
            rw [hsplit]
            dsimp only []
            rw [redactKeyElems_pres hl key h₄]
          · dsimp only [] at h
            rcases hlist : redactListMqtt items path depth with e | ⟨rv, rn⟩
            · rw [hlist] at h; cases h
            · rw [hlist] at h
              injection h with h₁
              injection h₁ with h₂ h₃
              injection h₂ with h₄
              have h₄' : rv = items := h₄
              rw [h₄'] at hlist
              have hndl : nodupKeysList items = true := by
                unfold nodupKeys at hnd
                exact hnd
              obtain ⟨m, hm⟩ := redactListMqtt_pres hl path depth hndl ⟨rn, hlist⟩
              refine ⟨m, ?_⟩
              unfold redactPath
              simp only [hg, if_false]
              rw [hsplit]
              dsimp only []
              rw [hm]
              rfl
  | _, _, @JsonDom.obj ws map ho, path, depth, hnd, hfix => by
      obtain ⟨n, h⟩ := hfix
      unfold redactPath at h
      by_cases hg : MAX_TRANSFORM_DEPTH < depth
      · simp [hg] at h
      · simp only [hg, if_false] at h
        rcases hsplit : splitOnCharStr '.' path with _ | ⟨key, restParts⟩
        · refine ⟨0, ?_⟩
          unfold redactPath
          simp only [hg, if_false]
          rw [hsplit]
        · rw [hsplit] at h
          rcases restParts with _ | ⟨r₁, rrest⟩
          · by_cases hk : objHas map key
            · simp only [hk, if_true] at h
              injection h with h₁
              injection h₁ with h₂ h₃
              injection h₂ with h₄
              by_cases hk₂ : objHas ws key
              · refine ⟨1, ?_⟩
                unfold redactPath
                simp only [hg, if_false]
                rw [hsplit]
                dsimp only []
                simp only [hk₂, if_true]
                have hws : objSet ws key (Json.str REDACTED_PLACEHOLDER) = ws := by
                  refine objSet_id_of_vals ws key _ ?_
                  intro p hp hpk
                  obtain ⟨v', hv', hdv⟩ := JsonDomObj.mem_dom ho hp
                  have hv'P : v' = Json.str REDACTED_PLACEHOLDER :=
                    objSet_self_vals map key _ h₄ (p.1, v') hv' hpk
                  rw [hv'P] at hdv
                  exact JsonDom.of_placeholder hdv
                rw [hws]
              · refine ⟨0, ?_⟩
                unfold redactPath
                simp only [hg, if_false]
                rw [hsplit]
                dsimp only []
                simp [hk₂]
            · rw [Bool.not_eq_true] at hk
              have hk' : objHas ws key = false := JsonDomObj.noKey_down ho hk
              refine ⟨0, ?_⟩
              unfold redactPath
              simp only [hg, if_false]
              rw [hsplit]
              dsimp only []
              simp [hk']
          · dsimp only [] at h
            rcases hnav : redactNavMqtt map key
                (String.intercalate "." (r₁ :: rrest)) depth with e | ⟨rv, rn⟩
            · rw [hnav] at h; cases h
            · rw [hnav] at h
              injection h with h₁
              injection h₁ with h₂ h₃
              injection h₂ with h₄
              have h₄' : rv = map := h₄
              rw [h₄'] at hnav
              have hndo : nodupKeysObj map = true := by
                unfold nodupKeys at hnd
                exact hnd
              obtain ⟨m, hm⟩ := redactNavMqtt_pres ho key _ depth hndo ⟨rn, hnav⟩
              refine ⟨m, ?_⟩
              unfold redactPath
              simp only [hg, if_false]
              rw [hsplit]
              dsimp only []
              rw [hm]
              rfl

theorem redactNavMqtt_pres : ∀ {ws entries : List (String × Json)},
    JsonDomObj ws entries → ∀ (first rest : String) (depth : Nat),
    nodupKeysObj entries = true →
    (∃ n, redactNavMqtt entries first rest depth = .ok (entries, n)) →
    ∃ m, redactNavMqtt ws first rest depth = .ok (ws, m)
  | _, _, .nil, _, _, _, _, _ => ⟨0, rfl⟩
  | _, _, @JsonDomObj.skip ws vs kv htl, first, rest, depth, hnd, hfix => by
      obtain ⟨k, v⟩ := kv
      obtain ⟨n, h⟩ := hfix
      unfold redactNavMqtt at h
      unfold nodupKeysObj at hnd
      obtain ⟨h₁₂, h₃⟩ := Bool.and_eq_true_iff.mp hnd
      obtain ⟨h₁, h₂⟩ := Bool.and_eq_true_iff.mp h₁₂
      rw [Bool.not_eq_true'] at h₁
      by_cases hk : k == first
      · have hkeq : k = first := beq_iff_eq.mp hk
        have hvs : objHas vs first = false := by
          unfold objHas
          rw [← hkeq]
          exact h₁
        have hws : objHas ws first = false := JsonDomObj.noKey_down htl hvs
        exact ⟨0, redactNavMqtt_nomatch ws first rest depth hws⟩
      · simp only [hk, Bool.false_eq_true, if_false] at h
        rcases hnav : redactNavMqtt vs first rest depth with e | ⟨rv, rn⟩
        · rw [hnav] at h; cases h
        · rw [hnav] at h
          injection h with hA
          injection hA with hB hC
          injection hB with hB₀ hB'
          have hB'' : rv = vs := hB'
          rw [hB''] at hnav
          exact redactNavMqtt_pres htl first rest depth h₃ ⟨rn, hnav⟩
  | _, _, @JsonDomObj.keep ws' vs k w' v hd htl,
      first, rest, depth, hnd, hfix => by
      obtain ⟨n, h⟩ := hfix
      unfold redactNavMqtt at h
      unfold nodupKeysObj at hnd
      obtain ⟨h₁₂, h₃⟩ := Bool.and_eq_true_iff.mp hnd
      obtain ⟨h₁, h₂⟩ := Bool.and_eq_true_iff.mp h₁₂
      by_cases hk : k == first
      · simp only [hk, if_true] at h
        rcases hrec : redactPath v rest (depth + 1) with e | ⟨rv, rn⟩
        · rw [hrec] at h; cases h
        · rw [hrec] at h
          injection h with hA
          injection hA with hB hC
          injection hB with hB₁ hB₂
          injection hB₁ with hBk hBv
          have hBv' : rv = v := hBv
          rw [hBv'] at hrec
          obtain ⟨m₁, hm₁⟩ := redactPath_pres hd rest (depth + 1) h₂ ⟨rn, hrec⟩
          refine ⟨m₁, ?_⟩
          unfold redactNavMqtt
          simp only [hk, if_true]
          rw [hm₁]
          rfl
      · simp only [hk, Bool.false_eq_true, if_false] at h
        rcases hnav : redactNavMqtt vs first rest depth with e | ⟨rv, rn⟩
        · rw [hnav] at h; cases h
        · rw [hnav] at h
          injection h with hA
          injection hA with hB hC
          injection hB with hB₁ hB₂
          have hB₂' : rv = vs := hB₂
          rw [hB₂'] at hnav
          obtain ⟨m₂, hm₂⟩ := redactNavMqtt_pres htl first rest depth h₃ ⟨rn, hnav⟩
          refine ⟨m₂, ?_⟩
          unfold redactNavMqtt
          simp only [hk, Bool.false_eq_true, if_false]
          rw [hm₂]
          rfl

theorem redactListMqtt_pres : ∀ {ws items : List Json},
    JsonDomList ws items → ∀ (path : String) (depth : Nat),
    nodupKeysList items = true →
    (∃ n, redactListMqtt items path depth = .ok (items, n)) →
    ∃ m, redactListMqtt ws path depth = .ok (ws, m)
  | _, _, .nil, _, _, _, _ => ⟨0, rfl⟩
  | _, _, @JsonDomList.cons w v ws' vs hd htl,
      path, depth, hnd, hfix => by
      obtain ⟨n, h⟩ := hfix
      unfold redactListMqtt at h
      unfold nodupKeysList at hnd
      obtain ⟨h₁, h₂⟩ := Bool.and_eq_true_iff.mp hnd
      rcases hx : redactPath v path (depth + 1) with e | ⟨rv, rn⟩
      · rw [hx] at h; cases h
      · rw [hx] at h
        rcases hxs : redactListMqtt vs path depth with e | ⟨rv₂, rn₂⟩
        · rw [hxs] at h; cases h
        · rw [hxs] at h
          injection h with hA
          injection hA with hB hC
          injection hB with hB₁ hB₂
          have hB₁' : rv = v := hB₁
          have hB₂' : rv₂ = vs := hB₂
          rw [hB₁'] at hx
          rw [hB₂'] at hxs
          obtain ⟨m₁, hm₁⟩ := redactPath_pres hd path (depth + 1) h₁ ⟨rn, hx⟩
          obtain ⟨m₂, hm₂⟩ := redactListMqtt_pres htl path depth h₂ ⟨rn₂, hxs⟩
          refine ⟨m₁ + m₂, ?_⟩
          unfold redactListMqtt
          rw [hm₁, hm₂]
          rfl

end

mutual

theorem stripGps_pres : ∀ {w v : Json}, JsonDom w v → ∀ depth : Nat,
    (∃ n, stripGps v depth = .ok (v, n)) → ∃ m, stripGps w depth = .ok (w, m)
  | _, v, .placeholder _, depth, hfix => by
      obtain ⟨n, h⟩ := hfix
      unfold stripGps at h
      by_cases hg : MAX_TRANSFORM_DEPTH < depth
      · simp [hg] at h
      · refine ⟨0, ?_⟩
        unfold stripGps
        simp only [hg, if_false]
  | _, _, .null, _, hfix => hfix
  | _, _, .bool _, _, hfix => hfix
  | _, _, .num _, _, hfix => hfix
  | _, _, .str _, _, hfix => hfix
  | _, _, @JsonDom.arr ws items hl, depth, hfix => by
      obtain ⟨n, h⟩ := hfix
      unfold stripGps at h
      by_cases hg : MAX_TRANSFORM_DEPTH < depth
      · simp [hg] at h
      · simp only [hg, if_false] at h
        rcases hlist : stripList items depth with e | ⟨rv, rn⟩
        · rw [hlist] at h; cases h
        · rw [hlist] at h
          injection h with h₁
          injection h₁ with h₂ h₃
          injection h₂ with h₄
          have h₄' : rv = items := h₄
          rw [h₄'] at hlist
          obtain ⟨m, hm⟩ := stripList_pres hl depth ⟨rn, hlist⟩
          refine ⟨m, ?_⟩
          unfold stripGps
          simp only [hg, if_false]
          rw [hm]
          rfl
  | _, _, @JsonDom.obj ws map ho, depth, hfix => by
      obtain ⟨n, h⟩ := hfix
      unfold stripGps at h
      by_cases hg : MAX_TRANSFORM_DEPTH < depth
      · simp [hg] at h
      · simp only [hg, if_false] at h
        rcases hent : stripEntries map depth with e | ⟨rv, rn⟩
        · rw [hent] at h; cases h
        · rw [hent] at h
          injection h with h₁
          injection h₁ with h₂ h₃
          injection h₂ with h₄
          have h₄' : rv = map := h₄
          rw [h₄'] at hent
          obtain ⟨m, hm⟩ := stripEntries_pres ho depth ⟨rn, hent⟩
          refine ⟨m, ?_⟩
          unfold stripGps
          simp only [hg, if_false]
          rw [hm]
          rfl

theorem stripEntries_pres : ∀ {ws vs : List (String × Json)},
    JsonDomObj ws vs → ∀ depth : Nat,
    (∃ n, stripEntries vs depth = .ok (vs, n)) →
    ∃ m, stripEntries ws depth = .ok (ws, m)
  | _, _, .nil, _, _ => ⟨0, rfl⟩
  | _, _, @JsonDomObj.skip ws vs kv htl, depth, hfix => by
      obtain ⟨k, v⟩ := kv
      obtain ⟨n, h⟩ := hfix
      unfold stripEntries at h
      by_cases hgps : gpsCoordinateFields.contains k
      · simp only [hgps, if_true] at h
        rcases ht : stripEntries vs depth with e | ⟨rv, rn⟩
        · rw [ht] at h; cases h
        · rw [ht] at h
          injection h with hA
          injection hA with hB hC
          have hB' : rv = (k, v) :: vs := hB
          have hlen := stripEntries_len vs depth (rv, rn) ht
          rw [hB'] at hlen
          rw [List.length_cons] at hlen
          exact absurd hlen (Nat.not_succ_le_self _)
      · simp only [hgps, Bool.false_eq_true, if_false] at h
        rcases hv : stripGps v (depth + 1) with e | ⟨rv₁, rn₁⟩
        · rw [hv] at h; cases h
        · rw [hv] at h
          rcases ht : stripEntries vs depth with e | ⟨rv₂, rn₂⟩
          · rw [ht] at h; cases h
          · rw [ht] at h
            injection h with hA
            injection hA with hB hC
            injection hB with hB₁ hB₂
            have hB₂' : rv₂ = vs := hB₂
            rw [hB₂'] at ht
            exact stripEntries_pres htl depth ⟨rn₂, ht⟩
  | _, _, @JsonDomObj.keep ws' vs k w' v hd htl,
      depth, hfix => by
      obtain ⟨n, h⟩ := hfix
      unfold stripEntries at h
      by_cases hgps : gpsCoordinateFields.contains k
      · simp only [hgps, if_true] at h
        rcases ht : stripEntries vs depth with e | ⟨rv, rn⟩
        · rw [ht] at h; cases h
        · rw [ht] at h
          injection h with hA
          injection hA with hB hC
          have hB' : rv = (k, v) :: vs := hB
          have hlen := stripEntries_len vs depth (rv, rn) ht
          rw [hB'] at hlen
          rw [List.length_cons] at hlen
          exact absurd hlen (Nat.not_succ_le_self _)
      · simp only [hgps, Bool.false_eq_true, if_false] at h
        rcases hv : stripGps v (depth + 1) with e | ⟨rv₁, rn₁⟩
        · rw [hv] at h; cases h
        · rw [hv] at h
          rcases ht : stripEntries vs depth with e | ⟨rv₂, rn₂⟩
          · rw [ht] at h; cases h
          · rw [ht] at h
            injection h with hA
            injection hA with hB hC
            injection hB with hB₁ hB₂
            injection hB₁ with hBk hBv
            have hBv' : rv₁ = v := hBv
            have hB₂' : rv₂ = vs := hB₂
            rw [hBv'] at hv
            rw [hB₂'] at ht
            obtain ⟨m₁, hm₁⟩ := stripGps_pres hd (depth + 1) ⟨rn₁, hv⟩
            obtain ⟨m₂, hm₂⟩ := stripEntries_pres htl depth ⟨rn₂, ht⟩
            refine ⟨m₁ + m₂, ?_⟩
            unfold stripEntries
            simp only [hgps, Bool.false_eq_true, if_false]
            rw [hm₁, hm₂]
            rfl

theorem stripList_pres : ∀ {ws items : List Json},
    JsonDomList ws items → ∀ depth : Nat,
    (∃ n, stripList items depth = .ok (items, n)) →
    ∃ m, stripList ws depth = .ok (ws, m)
  | _, _, .nil, _, _ => ⟨0, rfl⟩
  | _, _, @JsonDomList.cons w v ws' vs hd htl, depth, hfix => by
      obtain ⟨n, h⟩ := hfix
      unfold stripList at h
      rcases hx : stripGps v (depth + 1) with e | ⟨rv, rn⟩
      · rw [hx] at h; cases h
      · rw [hx] at h
        rcases hxs : stripList vs depth with e | ⟨rv₂, rn₂⟩
        · rw [hxs] at h; cases h
        · rw [hxs] at h
          injection h with hA
          injection hA with hB hC
          injection hB with hB₁ hB₂
          have hB₁' : rv = v := hB₁
          have hB₂' : rv₂ = vs := hB₂
          rw [hB₁'] at hx
          rw [hB₂'] at hxs
          obtain ⟨m₁, hm₁⟩ := stripGps_pres hd (depth + 1) ⟨rn, hx⟩
          obtain ⟨m₂, hm₂⟩ := stripList_pres htl depth ⟨rn₂, hxs⟩
          refine ⟨m₁ + m₂, ?_⟩
          unfold stripList
          rw [hm₁, hm₂]
          rfl

end

/-- The three facts every transformer operation satisfies: the output
dominates the input, the output is a fixed point (on documents with
duplicate-free keys), and fixed points propagate downward along
domination. -/
def GoodOp (f : Json → Except String (Json × Nat)) : Prop :=
  (∀ v w n, f v = .ok (w, n) → JsonDom w v) ∧
  (∀ v w n, nodupKeys v = true → f v = .ok (w, n) → ∃ m, f w = .ok (w, m)) ∧
  (∀ v w, nodupKeys v = true → JsonDom w v → (∃ n, f v = .ok (v, n)) →
    ∃ m, f w = .ok (w, m))

/-- The accumulator step shared by `remove_fields_by_path`,
`redact_fields_by_path` and the directive loop of `transform_payload`. -/
def foldStep {α : Type} (g : Json → α → Except String (Json × Nat))
    (acc : Json × Nat) (x : α) : Except String (Json × Nat) :=
  (g acc.1 x).map (fun r => (r.1, acc.2 + r.2))

theorem foldShift {α : Type} (g : Json → α → Except String (Json × Nat)) :
    ∀ (l : List α) (v : Json) (c : Nat),
      l.foldlM (foldStep g) (v, c) =
        (l.foldlM (foldStep g) (v, 0)).map (fun r => (r.1, c + r.2))
  | [], v, c => by
      rw [List.foldlM_nil, List.foldlM_nil]
      rfl
  | x :: l, v, c => by
      rw [List.foldlM_cons, List.foldlM_cons]
      rcases hg : g v x with e | ⟨v₁, k⟩
      · have h₁ : foldStep g (v, c) x = .error e := by
          unfold foldStep
          rw [hg]
          rfl
        have h₂ : foldStep g (v, 0) x = .error e := by
          unfold foldStep
          rw [hg]
          rfl
        rw [h₁, h₂]
        rfl
      · have h₁ : foldStep g (v, c) x = .ok (v₁, c + k) := by
          unfold foldStep
          rw [hg]
          rfl
        have h₂ : foldStep g (v, 0) x = .ok (v₁, 0 + k) := by
          unfold foldStep
          rw [hg]
          rfl
        rw [h₁, h₂]
        show l.foldlM (foldStep g) (v₁, c + k) =
          Except.map (fun r => (r.1, c + r.2)) (l.foldlM (foldStep g) (v₁, 0 + k))
        rw [foldShift g l v₁ (c + k), foldShift g l v₁ (0 + k)]
        rcases l.foldlM (foldStep g) (v₁, 0) with e | r
        · rfl
        · show Except.ok (r.1, c + k + r.2) = Except.ok (r.1, c + (0 + k + r.2))
          rw [Nat.zero_add, Nat.add_assoc]

theorem foldDom {α : Type} (g : Json → α → Except String (Json × Nat)) :
    ∀ (l : List α), (∀ x ∈ l, ∀ v w n, g v x = .ok (w, n) → JsonDom w v) →
    ∀ (v : Json) (c : Nat) (w : Json) (n : Nat),
      l.foldlM (foldStep g) (v, c) = .ok (w, n) → JsonDom w v
  | [], _, v, c, w, n => by
      intro h
      rw [List.foldlM_nil] at h
      injection h with h'
      injection h' with h₁ h₂
      rw [h₁]
      exact jsonDom_refl w
  | x :: l, hall, v, c, w, n => by
      intro h
      rw [List.foldlM_cons] at h
      rcases hg : g v x with e | ⟨v₁, k⟩
      · have h₁ : foldStep g (v, c) x = .error e := by
          unfold foldStep
          rw [hg]
          rfl
        rw [h₁] at h
        cases h
      · have h₁ : foldStep g (v, c) x = .ok (v₁, c + k) := by
          unfold foldStep
          rw [hg]
          rfl
        rw [h₁] at h
        have h₂ : l.foldlM (foldStep g) (v₁, c + k) = .ok (w, n) := h
        exact jsonDom_trans
          (foldDom g l (fun y hy => hall y (List.mem_cons_of_mem _ hy))
            v₁ (c + k) w n h₂)
          (hall x (List.mem_cons_self _ _) v v₁ k hg)

theorem foldFix {α : Type} (g : Json → α → Except String (Json × Nat)) :
    ∀ (l : List α), (∀ x ∈ l, GoodOp (fun u => g u x)) →
    ∀ (v : Json) (c : Nat) (w : Json) (n : Nat), nodupKeys v = true →
      l.foldlM (foldStep g) (v, c) = .ok (w, n) →
      ∃ m, l.foldlM (foldStep g) (w, 0) = .ok (w, m)
  | [], _, v, c, w, n, hnd => by
      intro h
      rw [List.foldlM_nil] at h
      injection h with h'
      injection h' with h₁ h₂
      refine ⟨0, ?_⟩
      rw [List.foldlM_nil]
      rfl
  | x :: l, hall, v, c, w, n, hnd => by
      intro h
      rw [List.foldlM_cons] at h
      rcases hg : g v x with e | ⟨v₁, k⟩
      · have h₁ : foldStep g (v, c) x = .error e := by
          unfold foldStep
          rw [hg]
          rfl
        rw [h₁] at h
        cases h
      · have h₁ : foldStep g (v, c) x = .ok (v₁, c + k) := by
          unfold foldStep
          rw [hg]
          rfl
        rw [h₁] at h
        have h₂ : l.foldlM (foldStep g) (v₁, c + k) = .ok (w, n) := h
        obtain ⟨hgd, hgf, hgp⟩ := hall x (List.mem_cons_self _ _)
        have hshr : ∀ y ∈ l, ∀ a b m, g a y = .ok (b, m) → JsonDom b a :=
          fun y hy => (hall y (List.mem_cons_of_mem _ hy)).1
        have hnd₁ : nodupKeys v₁ = true :=
          jsonDom_nodup_down (hgd v v₁ k hg) hnd
        obtain ⟨m₂, hm₂⟩ :=
          foldFix g l (fun y hy => hall y (List.mem_cons_of_mem _ hy))
            v₁ (c + k) w n hnd₁ h₂
        have hdwv₁ : JsonDom w v₁ := foldDom g l hshr v₁ (c + k) w n h₂
        obtain ⟨m₁, hm₁⟩ := hgp v₁ w hnd₁ hdwv₁ (hgf v v₁ k hnd hg)
        refine ⟨m₁ + m₂, ?_⟩
        rw [List.foldlM_cons]
        have hm₁' : g w x = .ok (w, m₁) := hm₁
        have hstep : foldStep g (w, 0) x = .ok (w, 0 + m₁) := by
          unfold foldStep
          rw [hm₁']
          rfl
        rw [hstep]
        show l.foldlM (foldStep g) (w, 0 + m₁) = .ok (w, m₁ + m₂)
        rw [foldShift g l w (0 + m₁), hm₂]
        show Except.ok (w, 0 + m₁ + m₂) = Except.ok (w, m₁ + m₂)
        rw [Nat.zero_add]

theorem foldPres {α : Type} (g : Json → α → Except String (Json × Nat)) :
    ∀ (l : List α), (∀ x ∈ l, GoodOp (fun u => g u x)) →
    ∀ (v w : Json), nodupKeys v = true → JsonDom w v →
      (∃ n, l.foldlM (foldStep g) (v, 0) = .ok (v, n)) →
      ∃ m, l.foldlM (foldStep g) (w, 0) = .ok (w, m)
  | [], _, v, w, hnd, hdom, hfix => by
      refine ⟨0, ?_⟩
      rw [List.foldlM_nil]
      rfl
  | x :: l, hall, v, w, hnd, hdom, hfix => by
      obtain ⟨n, h⟩ := hfix
      rw [List.foldlM_cons] at h
      rcases hg : g v x with e | ⟨v₁, k⟩
      · have h₁ : foldStep g (v, 0) x = .error e := by
          unfold foldStep
          rw [hg]
          rfl
        rw [h₁] at h
        cases h
      · have h₁ : foldStep g (v, 0) x = .ok (v₁, 0 + k) := by
          unfold foldStep
          rw [hg]
          rfl
        rw [h₁] at h
        have h₂ : l.foldlM (foldStep g) (v₁, 0 + k) = .ok (v, n) := h
        obtain ⟨hgd, hgf, hgp⟩ := hall x (List.mem_cons_self _ _)
        have hrest : ∀ y ∈ l, GoodOp (fun u => g u y) :=
          fun y hy => hall y (List.mem_cons_of_mem _ hy)
        have hshr : ∀ y ∈ l, ∀ a b m, g a y = .ok (b, m) → JsonDom b a :=
          fun y hy => (hrest y hy).1
        have hd₁ : JsonDom v₁ v := hgd v v₁ k hg
        have hnd₁ : nodupKeys v₁ = true := jsonDom_nodup_down hd₁ hnd
        have hdvv₁ : JsonDom v v₁ := foldDom g l hshr v₁ (0 + k) v n h₂
        have hdwv₁ : JsonDom w v₁ := jsonDom_trans hdom hdvv₁
        obtain ⟨m₁, hm₁⟩ := hgp v₁ w hnd₁ hdwv₁ (hgf v v₁ k hnd hg)
        have hfixrest : ∃ nn, l.foldlM (foldStep g) (v, 0) = .ok (v, nn) :=
          foldFix g l hrest v₁ (0 + k) v n hnd₁ h₂
        obtain ⟨m₂, hm₂⟩ := foldPres g l hrest v w hnd hdom hfixrest
        refine ⟨m₁ + m₂, ?_⟩
        rw [List.foldlM_cons]
        have hm₁' : g w x = .ok (w, m₁) := hm₁
        have hstep : foldStep g (w, 0) x = .ok (w, 0 + m₁) := by
          unfold foldStep
          rw [hm₁']
          rfl
        rw [hstep]
        show l.foldlM (foldStep g) (w, 0 + m₁) = .ok (w, m₁ + m₂)
        rw [foldShift g l w (0 + m₁), hm₂]
        show Except.ok (w, 0 + m₁ + m₂) = Except.ok (w, m₁ + m₂)
        rw [Nat.zero_add]

theorem removePath_good (p : String) : GoodOp (fun v => removePath v p 0) :=
  ⟨fun v w n h => removePath_dom v p 0 w n h,
   fun v w n _ h => ⟨0, removePath_fix v p 0 w n h⟩,
   fun v w hnd hdom hfix => removePath_pres hdom p 0 hnd hfix⟩

theorem redactPath_good (p : String) : GoodOp (fun v => redactPath v p 0) :=
  ⟨fun v w n h => redactPath_dom v p 0 w n h,
   fun v w n _ h => redactPath_fix v p 0 w n h,
   fun v w hnd hdom hfix => redactPath_pres hdom p 0 hnd hfix⟩

theorem stripGps_good : GoodOp (fun v => stripGps v 0) :=
  ⟨fun v w n h => stripGps_dom v 0 w n h,
   fun v w n _ h => ⟨0, stripGps_fix v 0 w n h⟩,
   fun v w _ hdom hfix => stripGps_pres hdom 0 hfix⟩

theorem removeFieldsByPath_eq_fold (v : Json) (paths : List String) :
    removeFieldsByPath v paths =
      paths.foldlM (foldStep (fun u p => removePath u p 0)) (v, 0) := rfl

theorem redactFieldsByPath_eq_fold (v : Json) (paths : List String) :
    redactFieldsByPath v paths =
      paths.foldlM (foldStep (fun u p => redactPath u p 0)) (v, 0) := rfl

theorem transformValue_eq_fold (v : Json) (ds : List TransformDirective) :
    transformValue v ds =
      ds.foldlM (foldStep (fun u d => applyDirective u d)) (v, 0) := rfl

theorem removeFieldsByPath_good (paths : List String) :
    GoodOp (fun v => removeFieldsByPath v paths) := by
  have hall : ∀ p ∈ paths, GoodOp (fun u => removePath u p 0) :=
    fun p _ => removePath_good p
  refine ⟨?_, ?_, ?_⟩
  · intro v w n h
    replace h : removeFieldsByPath v paths = .ok (w, n) := h
    rw [removeFieldsByPath_eq_fold] at h
    exact foldDom _ paths (fun p hp => (hall p hp).1) v 0 w n h
  · intro v w n hnd h
    replace h : removeFieldsByPath v paths = .ok (w, n) := h
    rw [removeFieldsByPath_eq_fold] at h
    obtain ⟨m, hm⟩ := foldFix _ paths hall v 0 w n hnd h
    have hm2 : removeFieldsByPath w paths = .ok (w, m) := by
      rw [removeFieldsByPath_eq_fold]
      exact hm
    exact ⟨m, hm2⟩
  · intro v w hnd hdom hfix
    obtain ⟨n, hn⟩ := hfix
    replace hn : removeFieldsByPath v paths = .ok (v, n) := hn
    rw [removeFieldsByPath_eq_fold] at hn
    obtain ⟨m, hm⟩ := foldPres _ paths hall v w hnd hdom ⟨n, hn⟩
    have hm2 : removeFieldsByPath w paths = .ok (w, m) := by
      rw [removeFieldsByPath_eq_fold]
      exact hm
    exact ⟨m, hm2⟩

theorem redactFieldsByPath_good (paths : List String) :
    GoodOp (fun v => redactFieldsByPath v paths) := by
  have hall : ∀ p ∈ paths, GoodOp (fun u => redactPath u p 0) :=
    fun p _ => redactPath_good p
  refine ⟨?_, ?_, ?_⟩
  · intro v w n h
    replace h : redactFieldsByPath v paths = .ok (w, n) := h
    rw [redactFieldsByPath_eq_fold] at h
    exact foldDom _ paths (fun p hp => (hall p hp).1) v 0 w n h
  · intro v w n hnd h
    replace h : redactFieldsByPath v paths = .ok (w, n) := h
    rw [redactFieldsByPath_eq_fold] at h
    obtain ⟨m, hm⟩ := foldFix _ paths hall v 0 w n hnd h
    have hm2 : redactFieldsByPath w paths = .ok (w, m) := by
      rw [redactFieldsByPath_eq_fold]
      exact hm
    exact ⟨m, hm2⟩
  · intro v w hnd hdom hfix
    obtain ⟨n, hn⟩ := hfix
    replace hn : redactFieldsByPath v paths = .ok (v, n) := hn
    rw [redactFieldsByPath_eq_fold] at hn
    obtain ⟨m, hm⟩ := foldPres _ paths hall v w hnd hdom ⟨n, hn⟩
    have hm2 : redactFieldsByPath w paths = .ok (w, m) := by
      rw [redactFieldsByPath_eq_fold]
      exact hm
    exact ⟨m, hm2⟩

theorem applyDirective_good : ∀ d : TransformDirective,
    GoodOp (fun v => applyDirective v d)
  | .removeFields paths => removeFieldsByPath_good paths
  | .redactFields paths => redactFieldsByPath_good paths
  | .stripCoordinates => stripGps_good

/-- The directive loop of `transform_payload` keeps its output fixed: a
second pass over the already-transformed document returns it unchanged. -/
theorem transformValue_fix (ds : List TransformDirective) (v w : Json) (n : Nat)
    (hnd : nodupKeys v = true) (h : transformValue v ds = .ok (w, n)) :
    ∃ m, transformValue w ds = .ok (w, m) := by
  rw [transformValue_eq_fold] at h
  obtain ⟨m, hm⟩ :=
    foldFix _ ds (fun d _ => applyDirective_good d) v 0 w n hnd h
  exact ⟨m, by rw [transformValue_eq_fold]; exact hm⟩

/-! # Theorems -/

/-- The decision a policy of undefined result shape is rendered as. -/
def undefinedResultDecision : PolicyDecision :=
  { allow := false, redact := none,
    reason := some "policy returned undefined result" }

/-- C1: every evaluation runs under the hard 10 ms wall-clock ceiling;
an evaluation exceeding the ceiling is surfaced to the caller as an
`EvaluationFailed` error and never as an `allow` (or any other) decision,
while an evaluation within the ceiling completes on the rule result:
in particular 9 ms completes normally and 11 ms is reported as evaluation
failure. -/
theorem evaluate_wall_clock_ceiling :
    MAX_EVAL_TIME_MS = 10 ∧
    (∀ (tid : String) (elapsed : Nat) (res : Except String (Option Json)),
       MAX_EVAL_TIME_MS < elapsed →
       tenantEngineEvaluate tid elapsed res = .error (.evaluationFailed tid)) ∧
    (∀ (tid : String) (elapsed : Nat) (res : Except String (Option Json))
       (dec : PolicyDecision),
       MAX_EVAL_TIME_MS < elapsed →
       tenantEngineEvaluate tid elapsed res ≠ .ok dec) ∧
    (∀ (tid : String) (elapsed : Nat) (value : Option Json),
       elapsed ≤ MAX_EVAL_TIME_MS →
       tenantEngineEvaluate tid elapsed (.ok value) = .ok (parseDecision value)) ∧
    (∀ (tid : String) (value : Option Json),
       tenantEngineEvaluate tid 9 (.ok value) = .ok (parseDecision value)) ∧
    (∀ (tid : String) (res : Except String (Option Json)),
       tenantEngineEvaluate tid 11 res = .error (.evaluationFailed tid)) := by
  refine ⟨rfl, ?_, ?_, ?_, ?_, ?_⟩
  · intro tid elapsed res h
    simp [tenantEngineEvaluate, h]
  · intro tid elapsed res dec h
    simp [tenantEngineEvaluate, h]
  · intro tid elapsed value h
    simp [tenantEngineEvaluate, Nat.not_lt.mpr h]
  · intro tid value
    simp [tenantEngineEvaluate, MAX_EVAL_TIME_MS]
  · intro tid res
    simp [tenantEngineEvaluate, MAX_EVAL_TIME_MS]

/-- Witness for C1 at concrete inputs: a 9 ms evaluation of a `true` rule
result completes as `allow`, while an 11 ms evaluation of the same result is
reported as `EvaluationFailed`. -/
theorem evaluate_wall_clock_ceiling_witness :
    tenantEngineEvaluate "tenant-a" 9 (.ok (some (.bool true))) =
      .ok { allow := true, redact := none, reason := none } ∧
    tenantEngineEvaluate "tenant-a" 11 (.ok (some (.bool true))) =
      .error (.evaluationFailed "tenant-a") ∧
    ∀ dec, tenantEngineEvaluate "tenant-a" 11 (.ok (some (.bool true))) ≠
      .ok dec := by
  refine ⟨?_, ?_, ?_⟩
  · exact evaluate_wall_clock_ceiling.2.2.2.2.1 "tenant-a" (some (.bool true))
  · exact evaluate_wall_clock_ceiling.2.2.2.2.2 "tenant-a" (.ok (some (.bool true)))
  · exact fun dec =>
      evaluate_wall_clock_ceiling.2.2.1 "tenant-a" 11 (.ok (some (.bool true)))
        dec (by decide)

theorem parseDecision_obj_allow (map : List (String × Json)) :
    (parseDecision (some (.obj map))).allow =
      ((objGet map "allow").bind Json.asBool).getD false := rfl

theorem parseDecision_obj_redact (map : List (String × Json)) :
    (parseDecision (some (.obj map))).redact =
      (((objGet map "redact").bind Json.asArr).map
          (fun items => items.filterMap Json.asStr)).filter
        (fun items => !items.isEmpty) := rfl

theorem parseDecision_obj_reason (map : List (String × Json)) :
    (parseDecision (some (.obj map))).reason =
      (objGet map "reason").bind Json.asStr := rfl

/-- C5: decision decoding: a boolean rule value becomes `{allow: b}`; an
object takes `allow` (default `false` when missing or non-boolean), `redact`
from an array of strings with the empty array coalesced to absent, and
`reason` from a string member; every other result shape becomes
`{allow: false, reason: "policy returned undefined result"}`. -/
theorem parse_decision_decoding :
    (∀ b, parseDecision (some (.bool b)) =
       { allow := b, redact := none, reason := none }) ∧
    (∀ map b, objGet map "allow" = some (.bool b) →
       (parseDecision (some (.obj map))).allow = b) ∧
    (∀ map, objGet map "allow" = none →
       (parseDecision (some (.obj map))).allow = false) ∧
    (∀ map v, objGet map "allow" = some v → v.asBool = none →
       (parseDecision (some (.obj map))).allow = false) ∧
    (∀ map ss, objGet map "redact" = some (.arr (ss.map Json.str)) →
       (parseDecision (some (.obj map))).redact =
         if ss.isEmpty then none else some ss) ∧
    (∀ map, objGet map "redact" = none →
       (parseDecision (some (.obj map))).redact = none) ∧
    (∀ map v, objGet map "redact" = some v → v.asArr = none →
       (parseDecision (some (.obj map))).redact = none) ∧
    (∀ map s, objGet map "reason" = some (.str s) →
       (parseDecision (some (.obj map))).reason = some s) ∧
    (∀ map, objGet map "reason" = none →
       (parseDecision (some (.obj map))).reason = none) ∧
    (parseDecision none = undefinedResultDecision) ∧
    (parseDecision (some .null) = undefinedResultDecision) ∧
    (∀ n, parseDecision (some (.num n)) = undefinedResultDecision) ∧
    (∀ s, parseDecision (some (.str s)) = undefinedResultDecision) ∧
    (∀ xs, parseDecision (some (.arr xs)) = undefinedResultDecision) := by
  refine ⟨fun b => rfl, ?_, ?_, ?_, ?_, ?_, ?_, ?_, ?_, rfl, rfl,
    fun n => rfl, fun s => rfl, fun xs => rfl⟩
  · intro map b h
    rw [parseDecision_obj_allow, h]; rfl
  · intro map h
    rw [parseDecision_obj_allow, h]; rfl
  · intro map v h hb
    rw [parseDecision_obj_allow, h]; simp [hb]
  · intro map ss h
    rw [parseDecision_obj_redact, h]
    show (some ((ss.map Json.str).filterMap Json.asStr)).filter
        (fun items => !items.isEmpty) = _
    rw [List.filterMap_map]
    have hcomp : (Json.asStr ∘ Json.str) = some := by
      funext s; rfl
    rw [hcomp, List.filterMap_some]
    cases ss with
    | nil => rfl
    | cons a l => rfl
  · intro map h
    rw [parseDecision_obj_redact, h]; rfl
  · intro map v h ha
    rw [parseDecision_obj_redact, h]
    show ((Json.asArr v).map (fun items => items.filterMap Json.asStr)).filter
        (fun items => !items.isEmpty) = none
    rw [ha]; rfl
  · intro map s h
    rw [parseDecision_obj_reason, h]; rfl
  · intro map h
    rw [parseDecision_obj_reason, h]; rfl

/-- C3: a reload that fails at any stage — bundle load, policy compilation,
or entry-point verification — returns the failure to the caller and leaves
the registry's mapping unchanged for every tenant, so subsequent evaluate
calls use the previously installed engine; the mapping changes only when a
new engine was fully constructed and verified, and then to exactly that
engine. -/
theorem reload_tenant_atomic {Engine : Type}
    (load : Except String PolicyBundle)
    (compile : String → PolicyBundle → Except PolicyError Engine)
    (verify : Engine → Except PolicyError Unit)
    (st : ManagerState Engine) (tid : String) :
    (∀ e, (reloadTenant load compile verify st tid).1 = .error e →
       ∀ t, (reloadTenant load compile verify st tid).2.engines t =
         st.engines t) ∧
    (∀ e, (reloadTenant load compile verify st tid).1 = .error e →
       ∀ (evalEngine : Engine → Json → Except PolicyError PolicyDecision)
         (input : Json) (t : String),
         managerEvaluate evalEngine (reloadTenant load compile verify st tid).2
             t input =
           managerEvaluate evalEngine st t input) ∧
    (∀ err, load = .error err →
       (reloadTenant load compile verify st tid).1 =
         .error (.bundleLoadError tid)) ∧
    (∀ b e, load = .ok b → compile tid b = .error e →
       (reloadTenant load compile verify st tid).1 = .error e) ∧
    (∀ b eng e, load = .ok b → compile tid b = .ok eng →
       verify eng = .error e →
       (reloadTenant load compile verify st tid).1 = .error e) ∧
    (∀ t, (reloadTenant load compile verify st tid).2.engines t ≠
        st.engines t →
       t = tid ∧ ∃ b eng, load = .ok b ∧ compile tid b = .ok eng ∧
         verify eng = .ok () ∧
         (reloadTenant load compile verify st tid).2.engines tid = some eng ∧
         (reloadTenant load compile verify st tid).1 = .ok ()) := by
  rcases load with err | b
  · have hred : reloadTenant (Except.error err) compile verify st tid =
        (.error (.bundleLoadError tid), st) := by
      simp [reloadTenant]
    refine ⟨fun e _ t => by rw [hred], fun e _ evalE input t => by rw [hred],
      fun err' _ => by rw [hred], ?_, ?_, ?_⟩
    · intro b e hb; cases hb
    · intro b eng e hb; cases hb
    · intro t h; rw [hred] at h; exact absurd rfl h
  · rcases hc : compile tid b with e | eng
    · have hred : reloadTenant (Except.ok b) compile verify st tid =
          (.error e, st) := by
        simp [reloadTenant, installTenantEngine, hc]
      refine ⟨fun e' _ t => by rw [hred], fun e' _ evalE input t => by rw [hred],
        ?_, ?_, ?_, ?_⟩
      · intro err hb; cases hb
      · intro b' e' hb hc'
        cases hb; rw [hc] at hc'; cases hc'; rw [hred]
      · intro b' eng e' hb hc'
        cases hb; rw [hc] at hc'; cases hc'
      · intro t h; rw [hred] at h; exact absurd rfl h
    · rcases hv : verify eng with e | u
      · have hred : reloadTenant (Except.ok b) compile verify st tid =
            (.error e, st) := by
          simp [reloadTenant, installTenantEngine, hc, hv]
        refine ⟨fun e' _ t => by rw [hred], fun e' _ evalE input t => by rw [hred],
          ?_, ?_, ?_, ?_⟩
        · intro err hb; cases hb
        · intro b' e' hb hc'
          cases hb; rw [hc] at hc'; cases hc'
        · intro b' eng' e' hb hc' hv'
          cases hb; rw [hc] at hc'; cases hc'
          rw [hv] at hv'; cases hv'; rw [hred]
        · intro t h; rw [hred] at h; exact absurd rfl h
      · have hred : reloadTenant (Except.ok b) compile verify st tid =
            (.ok (),
             { engines := fun t =>
                 if t = tid then some eng else st.engines t }) := by
          simp [reloadTenant, installTenantEngine, hc, hv]
        refine ⟨?_, ?_, ?_, ?_, ?_, ?_⟩
        · intro e h; rw [hred] at h; cases h
        · intro e h; rw [hred] at h; cases h
        · intro err hb; cases hb
        · intro b' e' hb hc'
          cases hb; rw [hc] at hc'; cases hc'
        · intro b' eng' e' hb hc' hv'
          cases hb; rw [hc] at hc'; cases hc'
          rw [hv] at hv'; cases hv'
        · intro t h
          rw [hred] at h
          constructor
          · by_contra hne
            exact h (by simp [hne])
          · refine ⟨b, eng, rfl, hc, ?_, by rw [hred]; simp, by rw [hred]⟩
            cases u; exact hv

/-- Witness for C3 at a concrete instance: a failing bundle load over a
one-tenant registry returns `BundleLoadError` and keeps the installed
engine visible to `evaluate`. -/
theorem reload_tenant_atomic_witness :
    (@reloadTenant Nat (.error "unreadable bundle dir")
        (fun _ _ => .ok 1) (fun _ => .ok ())
        { engines := fun t => if t = "tenant-a" then some 0 else none }
        "tenant-a").2.engines "tenant-a" = some 0 ∧
    (@reloadTenant Nat (.error "unreadable bundle dir")
        (fun _ _ => .ok 1) (fun _ => .ok ())
        { engines := fun t => if t = "tenant-a" then some 0 else none }
        "tenant-a").1 = .error (.bundleLoadError "tenant-a") := by
  constructor
  · exact (@reload_tenant_atomic Nat (.error "unreadable bundle dir")
      (fun _ _ => .ok 1) (fun _ => .ok ())
      { engines := fun t => if t = "tenant-a" then some 0 else none }
      "tenant-a").1 (.bundleLoadError "tenant-a") rfl "tenant-a"
  · exact (@reload_tenant_atomic Nat (.error "unreadable bundle dir")
      (fun _ _ => .ok 1) (fun _ => .ok ())
      { engines := fun t => if t = "tenant-a" then some 0 else none }
      "tenant-a").2.2.1 "unreadable bundle dir" rfl

theorem satAdd_le_max (a b : Nat) : satAdd a b ≤ U64_MAX :=
  Nat.min_le_right _ _

theorem satAdd_fold (a b c m : Nat) :
    min (min (a + b) m + c) m = min (a + (b + c)) m := by omega

theorem incrementMessageCount_same_period (autoReset : Bool)
    (day month : String) (entry : QuotaEntry) (m b : Nat)
    (hday : entry.period = day) (hmonth : entry.lastResetMonth = month) :
    incrementMessageCount autoReset day month entry m b =
      { message_count := satAdd entry.message_count (msgDelta m),
        bytes_sent := satAdd entry.bytes_sent b,
        period := day, lastResetMonth := month } := by
  subst hday hmonth
  cases entry with
  | mk mc bs p lrm =>
      simp [incrementMessageCount, msgDelta, satAdd]

theorem incrementMessageCount_day_rollover (day month : String)
    (entry : QuotaEntry) (m b : Nat) (hday : entry.period ≠ day) :
    (incrementMessageCount true day month entry m b).message_count =
      min (msgDelta m) U64_MAX := by
  have h1 : (true && (entry.period != day)) = true := by
    simp [bne_iff_ne]; exact hday
  unfold incrementMessageCount
  simp only [h1, if_true]
  split <;> simp [satAdd, msgDelta]

theorem incrementMessageCount_month_rollover (day month : String)
    (entry : QuotaEntry) (m b : Nat) (hmonth : month ≠ entry.lastResetMonth) :
    (incrementMessageCount true day month entry m b).bytes_sent =
      min b U64_MAX := by
  unfold incrementMessageCount
  split
  · have h2 : (true && (month != entry.lastResetMonth)) = true := by
      simp [bne_iff_ne]; exact hmonth
    simp only [h2, if_true]
    simp [satAdd]
  · have h2 : (true && (month != entry.lastResetMonth)) = true := by
      simp [bne_iff_ne]; exact hmonth
    simp only [h2, if_true]
    simp [satAdd]

/-- C10: quota counters are updated with saturating unsigned 64-bit
addition: the updated counters never exceed `u64::MAX`, within a period they
never decrease (no wrap-around), and a counter already at `u64::MAX` stays
there; the update is total, so incrementing never panics. -/
theorem quota_increment_saturates :
    (∀ (autoReset : Bool) (day month : String) (entry : QuotaEntry)
       (m b : Nat),
       (incrementMessageCount autoReset day month entry m b).message_count ≤
           U64_MAX ∧
       (incrementMessageCount autoReset day month entry m b).bytes_sent ≤
           U64_MAX) ∧
    (∀ (autoReset : Bool) (day month : String) (entry : QuotaEntry)
       (m b : Nat),
       entry.period = day → entry.lastResetMonth = month →
       entry.message_count ≤ U64_MAX → entry.bytes_sent ≤ U64_MAX →
       entry.message_count ≤
           (incrementMessageCount autoReset day month entry m b).message_count ∧
       entry.bytes_sent ≤
           (incrementMessageCount autoReset day month entry m b).bytes_sent) ∧
    (∀ (autoReset : Bool) (day month : String) (entry : QuotaEntry)
       (m b : Nat),
       entry.period = day → entry.lastResetMonth = month →
       (entry.message_count = U64_MAX →
         (incrementMessageCount autoReset day month entry m b).message_count =
           U64_MAX) ∧
       (entry.bytes_sent = U64_MAX →
         (incrementMessageCount autoReset day month entry m b).bytes_sent =
           U64_MAX)) := by
  refine ⟨?_, ?_, ?_⟩
  · intro autoReset day month entry m b
    exact ⟨satAdd_le_max _ _, satAdd_le_max _ _⟩
  · intro autoReset day month entry m b hday hmonth hmle hble
    rw [incrementMessageCount_same_period autoReset day month entry m b
      hday hmonth]
    simp only [satAdd]
    constructor <;> omega
  · intro autoReset day month entry m b hday hmonth
    rw [incrementMessageCount_same_period autoReset day month entry m b
      hday hmonth]
    simp only [satAdd]
    constructor
    · intro hmax; rw [hmax]; omega
    · intro hmax; rw [hmax]; omega

/-- Witness for C10 at concrete inputs: a counter at `u64::MAX` stays at
`u64::MAX` after a further increment, and the byte counter stays within the
64-bit range. -/
theorem quota_increment_saturates_witness :
    (incrementMessageCount true "2026-10-12" "2026-10"
        { message_count := U64_MAX, bytes_sent := 7, period := "2026-10-12",
          lastResetMonth := "2026-10" } 3 5).message_count = U64_MAX ∧
    (incrementMessageCount true "2026-10-12" "2026-10"
        { message_count := U64_MAX, bytes_sent := 7, period := "2026-10-12",
          lastResetMonth := "2026-10" } 3 5).bytes_sent ≤ U64_MAX := by
  constructor
  · exact (quota_increment_saturates.2.2 true "2026-10-12" "2026-10"
      { message_count := U64_MAX, bytes_sent := 7, period := "2026-10-12",
        lastResetMonth := "2026-10" } 3 5 rfl rfl).1 rfl
  · exact (quota_increment_saturates.1 true "2026-10-12" "2026-10"
      { message_count := U64_MAX, bytes_sent := 7, period := "2026-10-12",
        lastResetMonth := "2026-10" } 3 5).2

/-- Counterexample to C8 as stated: from a fresh entry, the single call
`increment(T, 0, 5)` leaves a message counter of 1, not the argument sum 0 —
a zero message count is coalesced to 1 by the code. -/
theorem quota_sum_counterexample :
    (runIncrements true "2026-10-12" "2026-10"
        (freshQuotaEntry "2026-10-12" "2026-10") [(0, 5)]).message_count = 1 ∧
    (runIncrements true "2026-10-12" "2026-10"
        (freshQuotaEntry "2026-10-12" "2026-10") [(0, 5)]).message_count ≠
      0 + 0 := by
  constructor <;> decide

/-- C8 as amended: within one period, the counters equal the starting
values plus the sum of the per-call deltas — the byte delta is the `b`
argument, the message delta is `m` with 0 coalesced to 1 — saturating at
`u64::MAX`; the call that crosses a day (resp. month) rollover boundary
resets the message (resp. byte) counter to exactly its own delta
(saturated). -/
theorem quota_sum_amended :
    (∀ (day month : String) (entry : QuotaEntry) (calls : List (Nat × Nat)),
       entry.period = day → entry.lastResetMonth = month →
       entry.message_count ≤ U64_MAX → entry.bytes_sent ≤ U64_MAX →
       (runIncrements true day month entry calls).message_count =
           min (entry.message_count + (calls.map (fun c => msgDelta c.1)).sum)
             U64_MAX ∧
       (runIncrements true day month entry calls).bytes_sent =
           min (entry.bytes_sent + (calls.map (·.2)).sum) U64_MAX) ∧
    (∀ (day month : String) (entry : QuotaEntry) (m b : Nat),
       entry.period ≠ day →
       (incrementMessageCount true day month entry m b).message_count =
         min (msgDelta m) U64_MAX) ∧
    (∀ (day month : String) (entry : QuotaEntry) (m b : Nat),
       month ≠ entry.lastResetMonth →
       (incrementMessageCount true day month entry m b).bytes_sent =
         min b U64_MAX) := by
  refine ⟨?_, incrementMessageCount_day_rollover,
    incrementMessageCount_month_rollover⟩
  intro day month entry calls
  induction calls generalizing entry with
  | nil =>
      intro hday hmonth hmle hble
      simp only [runIncrements, List.foldl_nil, List.map_nil, List.sum_nil,
        Nat.add_zero]
      constructor <;> omega
  | cons c rest ih =>
      intro hday hmonth hmle hble
      have hstep : runIncrements true day month entry (c :: rest) =
          runIncrements true day month
            (incrementMessageCount true day month entry c.1 c.2) rest := rfl
      have hinc := incrementMessageCount_same_period true day month entry
        c.1 c.2 hday hmonth
      rw [hstep, hinc]
      have := ih { message_count := satAdd entry.message_count (msgDelta c.1),
                   bytes_sent := satAdd entry.bytes_sent c.2,
                   period := day, lastResetMonth := month }
        rfl rfl (satAdd_le_max _ _) (satAdd_le_max _ _)
      rcases this with ⟨h₁, h₂⟩
      refine ⟨?_, ?_⟩
      · rw [h₁]
        simp only [satAdd, List.map_cons, List.sum_cons]
        rw [satAdd_fold]
      · rw [h₂]
        simp only [satAdd, List.map_cons, List.sum_cons]
        rw [satAdd_fold]

/-- Witness for C8's amended statement at concrete inputs: three same-period
calls (2,10), (0,5), (4,0) from a fresh entry leave the counters at
2+1+4 = 7 messages and 10+5+0 = 15 bytes, and a call after a day rollover
resets the message counter to its own delta. -/
theorem quota_sum_amended_witness :
    (runIncrements true "2026-10-12" "2026-10"
        (freshQuotaEntry "2026-10-12" "2026-10")
        [(2, 10), (0, 5), (4, 0)]).message_count = 7 ∧
    (runIncrements true "2026-10-12" "2026-10"
        (freshQuotaEntry "2026-10-12" "2026-10")
        [(2, 10), (0, 5), (4, 0)]).bytes_sent = 15 ∧
    (incrementMessageCount true "2026-10-13" "2026-10"
        (runIncrements true "2026-10-12" "2026-10"
          (freshQuotaEntry "2026-10-12" "2026-10")
          [(2, 10), (0, 5), (4, 0)]) 2 1).message_count = 2 := by
  refine ⟨?_, ?_, ?_⟩
  · rw [(quota_sum_amended.1 "2026-10-12" "2026-10"
      (freshQuotaEntry "2026-10-12" "2026-10") [(2, 10), (0, 5), (4, 0)]
      rfl rfl (by decide) (by decide)).1]
    decide
  · rw [(quota_sum_amended.1 "2026-10-12" "2026-10"
      (freshQuotaEntry "2026-10-12" "2026-10") [(2, 10), (0, 5), (4, 0)]
      rfl rfl (by decide) (by decide)).2]
    decide
  · rw [quota_sum_amended.2.1 "2026-10-13" "2026-10" _ 2 1 (by decide)]
    decide

/-- Counterexample to C7 as stated: a subscriber sends the filter message
`{"type":"filter","tenant_id":"t1","decision":"deny"}`; the handler stores
only the tenant id, and an allow event for `t1` is still delivered, although
a filter matching on both components would drop it. -/
theorem stream_filter_counterexample :
    applyClientTextMessage
        (.obj [("type", .str "filter"), ("tenant_id", .str "t1"),
               ("decision", .str "deny")]) none = some "t1" ∧
    shouldSendEvent { tenant_id := "t1", allow := true } (some "t1") = true ∧
    specShouldSendEvent { tenant_id := "t1", allow := true }
        { tenant_id := some "t1", decision := some "deny" } = false := by
  refine ⟨by decide, by decide, by decide⟩

/-- C7 as amended: the per-subscriber filter is tenant-only. An event is
delivered exactly when its tenant id matches the current filter (or no
filter is set); a `"filter"` message updates the tenant component to its
trimmed `tenant_id` string (cleared when blank), and the handler reads only
the `type` and `tenant_id` members, so the `decision` member of a filter
message never influences delivery. -/
theorem stream_filter_tenant_only :
    (∀ event : StreamEvent, shouldSendEvent event none = true) ∧
    (∀ (event : StreamEvent) (t : String),
       shouldSendEvent event (some t) = true ↔ event.tenant_id = t) ∧
    (∀ (m₁ m₂ : List (String × Json)) (f : Option String),
       objGet m₁ "type" = objGet m₂ "type" →
       objGet m₁ "tenant_id" = objGet m₂ "tenant_id" →
       applyClientTextMessage (.obj m₁) f = applyClientTextMessage (.obj m₂) f) ∧
    (∀ (entries : List (String × Json)) (f : Option String) (tenant : String),
       objGet entries "type" = some (.str "filter") →
       objGet entries "tenant_id" = some (.str tenant) →
       applyClientTextMessage (.obj entries) f =
         if trimChars tenant = "" then none else some (trimChars tenant)) := by
  refine ⟨fun event => rfl, ?_, ?_, ?_⟩
  · intro event t
    simp [shouldSendEvent]
  · intro m₁ m₂ f hty hti
    simp only [applyClientTextMessage, hty, hti]
  · intro entries f tenant hty hti
    simp only [applyClientTextMessage, hty, hti, if_true]
    simp [Json.asStr]

/-- Witness for C7's amended statement at concrete inputs: a filter message
with a padded tenant id sets the filter to the trimmed id, matching events
are delivered and mismatching ones dropped. -/
theorem stream_filter_tenant_only_witness :
    applyClientTextMessage
        (.obj [("type", .str "filter"), ("tenant_id", .str " t2 ")])
        (some "t1") = some "t2" ∧
    (shouldSendEvent { tenant_id := "t2", allow := false } (some "t2") = true ↔
      ("t2" : String) = "t2") ∧
    applyClientTextMessage
        (.obj [("type", .str "filter"), ("tenant_id", .str " t2 "),
               ("decision", .str "allow")]) (some "t1") =
      applyClientTextMessage
        (.obj [("type", .str "filter"), ("tenant_id", .str " t2 "),
               ("decision", .str "deny")]) (some "t1") := by
  refine ⟨?_, ?_, ?_⟩
  · rw [stream_filter_tenant_only.2.2.2
      [("type", .str "filter"), ("tenant_id", .str " t2 ")]
      (some "t1") " t2 " rfl rfl]
    decide
  · exact stream_filter_tenant_only.2.1 { tenant_id := "t2", allow := false }
      "t2"
  · exact stream_filter_tenant_only.2.2.1
      [("type", .str "filter"), ("tenant_id", .str " t2 "),
       ("decision", .str "allow")]
      [("type", .str "filter"), ("tenant_id", .str " t2 "),
       ("decision", .str "deny")]
      (some "t1") rfl rfl

/-- Counterexample to C2 as stated: `store_bundle` inserts the row with the
caller-supplied status, so two stores with status `"active"` (reachable
through `POST /api/bundles`, which forwards the whole record) leave one
tenant with two active rows without any `activate` call. -/
theorem bundle_store_counterexample :
    activeCount
        (runBundleOps []
          [.store { bundle_id := "b1", tenant_id := "t", version := 0,
                    rego_code := "", metadata := none, status := "active",
                    created_at := "", activated_at := none },
           .store { bundle_id := "b2", tenant_id := "t", version := 0,
                    rego_code := "", metadata := none, status := "active",
                    created_at := "", activated_at := none }]) "t" = 2 ∧
    ¬ activeCount
        (runBundleOps []
          [.store { bundle_id := "b1", tenant_id := "t", version := 0,
                    rego_code := "", metadata := none, status := "active",
                    created_at := "", activated_at := none },
           .store { bundle_id := "b2", tenant_id := "t", version := 0,
                    rego_code := "", metadata := none, status := "active",
                    created_at := "", activated_at := none }]) "t" ≤ 1 := by
  constructor <;> decide

theorem getBundle_mem {db : BundleDb} {bid : String}
    {bundle : PolicyBundleRecord} (h : getBundle db bid = some bundle) :
    bundle ∈ db ∧ bundle.bundle_id = bid := by
  unfold getBundle at h
  refine ⟨List.mem_of_find?_eq_some h, ?_⟩
  have := List.find?_some h
  simpa using this

theorem ids_nodup_unique {db : BundleDb} {r s : PolicyBundleRecord}
    (hids : (db.map (·.bundle_id)).Nodup) (hr : r ∈ db) (hs : s ∈ db)
    (heq : r.bundle_id = s.bundle_id) : r = s :=
  List.inj_on_of_nodup_map hids hr hs heq

theorem activeCount_store {db : BundleDb} {b : PolicyBundleRecord}
    (hb : b.status ≠ "active") (t : String) :
    activeCount (applyBundleOp db (.store b)) t = activeCount db t := by
  unfold applyBundleOp storeBundle
  by_cases hdup : db.any (fun r => r.bundle_id == b.bundle_id)
  · simp [hdup, Except.toOption]
  · simp only [hdup, if_false, Bool.false_eq_true, Except.toOption,
      Option.getD_some]
    unfold activeCount
    rw [List.countP_append]
    have hstat : (b.status == "active") = false := by simp [hb]
    have : List.countP
        (fun r => r.tenant_id == t && r.status == "active")
        [{ b with version := queryNextVersion db b.tenant_id }] = 0 := by
      simp [List.countP, List.countP.go, hstat]
    omega

theorem ids_store {db : BundleDb} {b : PolicyBundleRecord} :
    (applyBundleOp db (.store b)).map (·.bundle_id) =
      db.map (·.bundle_id) ++
        (if db.any (fun r => r.bundle_id == b.bundle_id) then []
         else [b.bundle_id]) := by
  unfold applyBundleOp storeBundle
  by_cases hdup : db.any (fun r => r.bundle_id == b.bundle_id)
  · simp [hdup, Except.toOption]
  · simp [hdup, Except.toOption]

/-- The demotion pass of `activate_bundle`. -/
def demoteRow (tenant : String) (r : PolicyBundleRecord) : PolicyBundleRecord :=
  if r.tenant_id == tenant then
    { r with status := "inactive", activated_at := none }
  else r

/-- The promotion pass of `activate_bundle`. -/
def promoteRow (bid now : String) (r : PolicyBundleRecord) :
    PolicyBundleRecord :=
  if r.bundle_id == bid then
    { r with status := "active", activated_at := some now }
  else r

theorem activateBundle_eq {db : BundleDb} {bid : String}
    {bundle : PolicyBundleRecord} (now : String)
    (hget : getBundle db bid = some bundle) :
    activateBundle db bid now =
      .ok ((db.map (demoteRow bundle.tenant_id)).map (promoteRow bid now)) := by
  unfold activateBundle
  rw [hget]
  rfl

theorem promoteRow_demoteRow_bundle_id (tenant bid now : String)
    (r : PolicyBundleRecord) :
    (promoteRow bid now (demoteRow tenant r)).bundle_id = r.bundle_id := by
  unfold promoteRow demoteRow
  by_cases h1 : r.tenant_id == tenant <;> by_cases h2 : r.bundle_id == bid <;>
    simp [h1, h2]

theorem promoteRow_demoteRow_tenant_id (tenant bid now : String)
    (r : PolicyBundleRecord) :
    (promoteRow bid now (demoteRow tenant r)).tenant_id = r.tenant_id := by
  unfold promoteRow demoteRow
  by_cases h1 : r.tenant_id == tenant <;> by_cases h2 : r.bundle_id == bid <;>
    simp [h1, h2]

theorem promoteRow_demoteRow_status (tenant bid now : String)
    (r : PolicyBundleRecord) :
    (promoteRow bid now (demoteRow tenant r)).status =
      if r.bundle_id == bid then "active"
      else if r.tenant_id == tenant then "inactive" else r.status := by
  unfold promoteRow demoteRow
  by_cases h1 : r.tenant_id == tenant <;> by_cases h2 : r.bundle_id == bid <;>
    simp [h1, h2]

theorem promoteRow_demoteRow_activated_at (tenant bid now : String)
    (r : PolicyBundleRecord) :
    (promoteRow bid now (demoteRow tenant r)).activated_at =
      if r.bundle_id == bid then some now
      else if r.tenant_id == tenant then none else r.activated_at := by
  unfold promoteRow demoteRow
  by_cases h1 : r.tenant_id == tenant <;> by_cases h2 : r.bundle_id == bid <;>
    simp [h1, h2]

theorem activate_ids {db : BundleDb} {bid : String}
    {bundle : PolicyBundleRecord} (now : String)
    (hget : getBundle db bid = some bundle) :
    ∀ db', activateBundle db bid now = .ok db' →
      db'.map (·.bundle_id) = db.map (·.bundle_id) := by
  intro db' h
  rw [activateBundle_eq now hget] at h
  cases h
  rw [List.map_map, List.map_map]
  exact List.map_congr_left fun r _ =>
    promoteRow_demoteRow_bundle_id bundle.tenant_id bid now r

theorem activate_count_eq_one {db : BundleDb} {bid : String}
    {bundle : PolicyBundleRecord} (now : String)
    (hids : (db.map (·.bundle_id)).Nodup)
    (hget : getBundle db bid = some bundle) :
    ∀ db', activateBundle db bid now = .ok db' →
      activeCount db' bundle.tenant_id = 1 := by
  intro db' h
  rw [activateBundle_eq now hget] at h
  cases h
  obtain ⟨hmem, hbid⟩ := getBundle_mem hget
  unfold activeCount
  rw [List.map_map, List.countP_map]
  have hcongr : List.countP
      ((fun r => r.tenant_id == bundle.tenant_id && r.status == "active") ∘
        promoteRow bid now ∘ demoteRow bundle.tenant_id) db =
      List.countP (fun r => r.bundle_id == bid && r.tenant_id == bundle.tenant_id)
        db := by
    refine List.countP_congr fun r _ => ?_
    simp only [Function.comp_apply, promoteRow_demoteRow_tenant_id,
      promoteRow_demoteRow_status]
    by_cases h2 : r.bundle_id == bid
    · simp [h2, Bool.and_comm]
    · by_cases h1 : r.tenant_id == bundle.tenant_id <;> simp [h1, h2]
  rw [hcongr]
  refine Nat.le_antisymm ?_ ?_
  · calc List.countP (fun r => r.bundle_id == bid && r.tenant_id ==
          bundle.tenant_id) db
        ≤ List.countP (fun r => r.bundle_id == bid) db :=
          List.countP_mono_left fun r _ hp => by
            simp at hp ⊢; exact hp.1
      _ = List.countP (fun s => s == bid) (db.map (·.bundle_id)) := by
          rw [List.countP_map]; rfl
      _ = List.count bid (db.map (·.bundle_id)) := rfl
      _ ≤ 1 := List.nodup_iff_count_le_one.mp hids bid
  · refine Nat.succ_le_of_lt (List.countP_pos_iff.mpr ?_)
    exact ⟨bundle, hmem, by simp [hbid]⟩

theorem activate_count_other {db : BundleDb} {bid : String}
    {bundle : PolicyBundleRecord} (now : String)
    (hids : (db.map (·.bundle_id)).Nodup)
    (hget : getBundle db bid = some bundle) :
    ∀ db', activateBundle db bid now = .ok db' →
      ∀ t, t ≠ bundle.tenant_id → activeCount db' t = activeCount db t := by
  intro db' h t ht
  rw [activateBundle_eq now hget] at h
  cases h
  obtain ⟨hmem, hbid⟩ := getBundle_mem hget
  unfold activeCount
  rw [List.map_map, List.countP_map]
  refine List.countP_congr fun r hr => ?_
  simp only [Function.comp_apply, promoteRow_demoteRow_tenant_id,
    promoteRow_demoteRow_status]
  by_cases h2 : r.bundle_id == bid
  · have hre : r = bundle := ids_nodup_unique hids hr hmem (by
      simp at h2; rw [h2, hbid])
    subst hre
    have h1 : (r.tenant_id == t) = false := by
      simp; intro hc; exact ht hc.symm
    simp [h2, h1]
  · by_cases h1 : r.tenant_id == bundle.tenant_id
    · have h4 : (r.tenant_id == t) = false := by
        simp at h1 ⊢; rw [h1]; intro hc; exact ht hc.symm
      simp [h1, h2, h4]
    · simp [h1, h2]

theorem activate_rows {db : BundleDb} {bid now : String}
    {bundle : PolicyBundleRecord}
    (hget : getBundle db bid = some bundle) :
    ∀ db', activateBundle db bid now = .ok db' →
      ∀ r ∈ db', r.tenant_id = bundle.tenant_id →
        (r.bundle_id = bid → r.status = "active" ∧
          r.activated_at = some now) ∧
        (r.bundle_id ≠ bid → r.status = "inactive" ∧ r.activated_at = none) := by
  intro db' h r hr hrt
  rw [activateBundle_eq now hget] at h
  cases h
  rw [List.map_map] at hr
  obtain ⟨r₀, hr₀, hreq⟩ := List.mem_map.mp hr
  subst hreq
  rw [Function.comp_apply, promoteRow_demoteRow_tenant_id] at hrt
  simp only [Function.comp_apply, promoteRow_demoteRow_bundle_id,
    promoteRow_demoteRow_status, promoteRow_demoteRow_activated_at]
  constructor
  · intro hid
    simp [hid]
  · intro hid
    have h2 : (r₀.bundle_id == bid) = false := by simp [hid]
    have h1 : (r₀.tenant_id == bundle.tenant_id) = true := by simp [hrt]
    simp [h1, h2]

theorem activeCount_archive_le (db : BundleDb) (bid t : String) :
    activeCount (applyBundleOp db (.archive bid)) t ≤ activeCount db t := by
  unfold applyBundleOp archiveBundle
  by_cases hany : db.any (fun r => r.bundle_id == bid)
  · simp only [hany, if_true, Except.toOption, Option.getD_some]
    unfold activeCount
    rw [List.countP_map]
    refine List.countP_mono_left fun r _ hp => ?_
    by_cases h2 : r.bundle_id = bid
    · simp [h2] at hp
    · simp [h2] at hp ⊢; exact hp
  · simp [hany, Except.toOption]

theorem ids_archive (db : BundleDb) (bid : String) :
    (applyBundleOp db (.archive bid)).map (·.bundle_id) =
      db.map (·.bundle_id) := by
  unfold applyBundleOp archiveBundle
  by_cases hany : db.any (fun r => r.bundle_id == bid)
  · simp only [hany, if_true, Except.toOption, Option.getD_some]
    rw [List.map_map]
    refine List.map_congr_left fun r _ => ?_
    by_cases h2 : r.bundle_id = bid <;> simp [h2]
  · simp [hany, Except.toOption]

theorem ids_activate_op (db : BundleDb) (bid now : String) :
    (applyBundleOp db (.activate bid now)).map (·.bundle_id) =
      db.map (·.bundle_id) := by
  simp only [applyBundleOp]
  rcases hget : getBundle db bid with _ | bundle
  · unfold activateBundle
    rw [hget]
    simp [Except.toOption]
  · have heq := activateBundle_eq now hget
    rw [heq]
    simp only [Except.toOption, Option.getD_some]
    exact activate_ids now hget _ heq

theorem activeCount_activate_op_le (db : BundleDb) (bid now : String)
    (hids : (db.map (·.bundle_id)).Nodup)
    (hact : ∀ t, activeCount db t ≤ 1) :
    ∀ t, activeCount (applyBundleOp db (.activate bid now)) t ≤ 1 := by
  intro t
  simp only [applyBundleOp]
  rcases hget : getBundle db bid with _ | bundle
  · unfold activateBundle
    rw [hget]
    simp only [Except.toOption]
    exact hact t
  · have heq := activateBundle_eq now hget
    rw [heq]
    simp only [Except.toOption, Option.getD_some]
    by_cases ht : t = bundle.tenant_id
    · subst ht
      rw [activate_count_eq_one now hids hget _ heq]
    · rw [activate_count_other now hids hget _ heq t ht]
      exact hact t

theorem bundle_inv_step (db : BundleDb) (op : BundleOp)
    (hids : (db.map (·.bundle_id)).Nodup)
    (hact : ∀ t, activeCount db t ≤ 1)
    (hop : ∀ b, op = .store b → b.status ≠ "active") :
    ((applyBundleOp db op).map (·.bundle_id)).Nodup ∧
    ∀ t, activeCount (applyBundleOp db op) t ≤ 1 := by
  rcases op with b | ⟨bid, now⟩ | bid
  · constructor
    · rw [ids_store]
      by_cases hdup : db.any (fun r => r.bundle_id == b.bundle_id)
      · simp [hdup, hids]
      · simp only [hdup, if_false, Bool.false_eq_true]
        rw [List.nodup_append]
        refine ⟨hids, List.nodup_singleton _, ?_⟩
        intro x hx hx'
        simp at hx'
        subst hx'
        obtain ⟨r, hr, hrid⟩ := List.mem_map.mp hx
        exact hdup (List.any_eq_true.mpr ⟨r, hr, by simp [hrid]⟩)
    · intro t
      rw [activeCount_store (hop b rfl) t]
      exact hact t
  · exact ⟨by rw [ids_activate_op]; exact hids,
      activeCount_activate_op_le db bid now hids hact⟩
  · constructor
    · rw [ids_archive]; exact hids
    · intro t
      exact le_trans (activeCount_archive_le db bid t) (hact t)

theorem bundle_inv_run (ops : List BundleOp) (db : BundleDb)
    (hids : (db.map (·.bundle_id)).Nodup)
    (hact : ∀ t, activeCount db t ≤ 1)
    (hops : ∀ b, BundleOp.store b ∈ ops → b.status ≠ "active") :
    ((runBundleOps db ops).map (·.bundle_id)).Nodup ∧
    ∀ t, activeCount (runBundleOps db ops) t ≤ 1 := by
  induction ops generalizing db with
  | nil => exact ⟨hids, hact⟩
  | cons op rest ih =>
      have hstep := bundle_inv_step db op hids hact
        (fun b hb => hops b (by rw [hb]; exact List.mem_cons_self _ _))
      exact ih (applyBundleOp db op) hstep.1 hstep.2
        (fun b hb => hops b (List.mem_cons_of_mem _ hb))

/-- C2 as amended: provided every `store` supplies a non-`active` status (as
the bundle lifecycle does — rows are created as drafts), every tenant has at
most one `active` row at every point of every operation sequence; and
`activate` — one transaction covering the demotion and the promotion — leaves
the target's tenant with exactly one `active` row (the target, with
`activated_at` set, every other row of the tenant `inactive` with
`activated_at` cleared) and every other tenant's count unchanged. As stated
the claim is false: `store` keeps the caller-supplied status, so storing two
`active` records gives a tenant two active rows. -/
theorem bundle_store_one_active_amended :
    (∀ ops : List BundleOp,
       (∀ b, BundleOp.store b ∈ ops → b.status ≠ "active") →
       ∀ pre : List BundleOp, pre <+: ops →
       ∀ t, activeCount (runBundleOps [] pre) t ≤ 1) ∧
    (∀ (db : BundleDb) (bid now : String) (bundle : PolicyBundleRecord),
       (db.map (·.bundle_id)).Nodup →
       getBundle db bid = some bundle →
       ∃ db', activateBundle db bid now = .ok db' ∧
         activeCount db' bundle.tenant_id = 1 ∧
         (∀ t, t ≠ bundle.tenant_id →
            activeCount db' t = activeCount db t) ∧
         (∀ r ∈ db', r.tenant_id = bundle.tenant_id →
           (r.bundle_id = bid →
              r.status = "active" ∧ r.activated_at = some now) ∧
           (r.bundle_id ≠ bid →
              r.status = "inactive" ∧ r.activated_at = none))) := by
  constructor
  · intro ops hops pre hpre t
    have hpresub : ∀ b, BundleOp.store b ∈ pre → b.status ≠ "active" :=
      fun b hb => hops b (hpre.subset hb)
    exact (bundle_inv_run pre [] (by simp) (fun t => by simp [activeCount])
      hpresub).2 t
  · intro db bid now bundle hids hget
    refine ⟨_, activateBundle_eq now hget, ?_, ?_, ?_⟩
    · exact activate_count_eq_one now hids hget _ (activateBundle_eq now hget)
    · exact activate_count_other now hids hget _ (activateBundle_eq now hget)
    · exact activate_rows hget _ (activateBundle_eq now hget)

/-- Witness for C2's amended statement at a concrete history: store a draft,
activate it, store a second draft and activate that one — every prefix keeps
at most one active row for the tenant, and activating over an existing
active row leaves exactly one. -/
theorem bundle_store_one_active_amended_witness :
    activeCount
        (runBundleOps []
          [.store { bundle_id := "b1", tenant_id := "t", version := 0,
                    rego_code := "p1", metadata := none, status := "draft",
                    created_at := "c1", activated_at := none },
           .activate "b1" "ts1",
           .store { bundle_id := "b2", tenant_id := "t", version := 0,
                    rego_code := "p2", metadata := none, status := "draft",
                    created_at := "c2", activated_at := none },
           .activate "b2" "ts2"]) "t" ≤ 1 := by
  refine bundle_store_one_active_amended.1 _ ?_ _
    (List.prefix_refl _) "t"
  intro b hb
  simp only [List.mem_cons, List.not_mem_nil, or_false] at hb
  rcases hb with h | h | h | h <;> simp_all

/-- C4: with the external HMAC-SHA256 and base64 primitives modelled as a
keyed MAC function and an encoding with a left inverse, and HMAC's
collision-freedom made explicit as injectivity of the encoded tag:
every signed log verifies against its own canonical payload; two signatures
agree exactly when the canonical payloads — the pipe-joined
`log_id|tenant_id|timestamp|decision|protocol|subject|action|resource|`
`environment|policy_version|reason` string with every JSON field's keys
sorted recursively and absent optional scalars as empty strings — agree;
and records whose JSON fields differ only in key order (equal after
`sort_json_keys`) and agree on the scalar fields get byte-identical
signatures. -/
theorem audit_sign_canonical
    (hmac : String → List Nat) (b64enc : List Nat → List Nat)
    (b64dec : List Nat → Option (List Nat))
    (hroundtrip : ∀ data, b64dec (b64enc (hmac data)) = some (hmac data))
    (hinj : Function.Injective (fun data => b64enc (hmac data))) :
    (∀ L : AuditLogEntry,
       signerVerify hmac b64dec (canonicalPayload L)
         (signAuditLog hmac b64enc L) = .ok true) ∧
    (∀ L₁ L₂ : AuditLogEntry,
       signAuditLog hmac b64enc L₁ = signAuditLog hmac b64enc L₂ ↔
         canonicalPayload L₁ = canonicalPayload L₂) ∧
    (∀ L₁ L₂ : AuditLogEntry,
       L₁.log_id = L₂.log_id → L₁.tenant_id = L₂.tenant_id →
       L₁.timestamp = L₂.timestamp → L₁.decision = L₂.decision →
       L₁.protocol = L₂.protocol → L₁.action = L₂.action →
       L₁.policy_version = L₂.policy_version → L₁.reason = L₂.reason →
       sortJsonKeys L₁.subject = sortJsonKeys L₂.subject →
       sortJsonKeys L₁.resource = sortJsonKeys L₂.resource →
       sortJsonKeys L₁.environment = sortJsonKeys L₂.environment →
       signAuditLog hmac b64enc L₁ = signAuditLog hmac b64enc L₂) := by
  refine ⟨?_, ?_, ?_⟩
  · intro L
    unfold signerVerify signAuditLog signerSign
    rw [hroundtrip]
    simp
  · intro L₁ L₂
    constructor
    · intro h
      exact hinj h
    · intro h
      unfold signAuditLog signerSign
      rw [h]
  · intro L₁ L₂ h1 h2 h3 h4 h5 h6 h7 h8 hs hr he
    unfold signAuditLog signerSign canonicalPayload canonicalizeJson
    rw [h1, h2, h3, h4, h5, h6, h7, h8, hs, hr, he]

/-- Witness for C4 at concrete inputs: instantiating the MAC with the
injective byte encoding of the payload and base64 with the identity, two
log records whose subjects differ only in nested key order produce the same
signature, which verifies. -/
theorem audit_sign_canonical_witness :
    signAuditLog (fun s => s.data.map Char.toNat) (fun bs => bs)
        { log_id := "L1", tenant_id := "t", timestamp := "ts",
          decision := "allow", protocol := "http",
          subject := .obj [("user", .obj [("b", .num 1), ("a", .num 2)]),
                           ("role", .str "admin")],
          action := "read", resource := .null, environment := .null,
          policy_version := some 3, reason := none } =
      signAuditLog (fun s => s.data.map Char.toNat) (fun bs => bs)
        { log_id := "L1", tenant_id := "t", timestamp := "ts",
          decision := "allow", protocol := "http",
          subject := .obj [("role", .str "admin"),
                           ("user", .obj [("a", .num 2), ("b", .num 1)])],
          action := "read", resource := .null, environment := .null,
          policy_version := some 3, reason := none } ∧
    signerVerify (fun s => s.data.map Char.toNat) (fun bs => some bs)
        (canonicalPayload
          { log_id := "L1", tenant_id := "t", timestamp := "ts",
            decision := "allow", protocol := "http",
            subject := .obj [("user", .obj [("b", .num 1), ("a", .num 2)]),
                             ("role", .str "admin")],
            action := "read", resource := .null, environment := .null,
            policy_version := some 3, reason := none })
        (signAuditLog (fun s => s.data.map Char.toNat) (fun bs => bs)
          { log_id := "L1", tenant_id := "t", timestamp := "ts",
            decision := "allow", protocol := "http",
            subject := .obj [("user", .obj [("b", .num 1), ("a", .num 2)]),
                             ("role", .str "admin")],
            action := "read", resource := .null, environment := .null,
            policy_version := some 3, reason := none }) = .ok true := by
  have hinj : Function.Injective
      (fun data : String => (fun bs : List Nat => bs)
        ((fun s : String => s.data.map Char.toNat) data)) := by
    intro a b h
    simp only at h
    have hchar : Function.Injective Char.toNat := fun c d hc =>
      Char.ext (UInt32.ext hc)
    have hdata : a.data = b.data := List.map_injective_iff.mpr hchar h
    cases a; cases b; simp_all
  have := audit_sign_canonical (fun s => s.data.map Char.toNat)
    (fun bs => bs) (fun bs => some bs) (fun data => rfl) hinj
  refine ⟨?_, ?_⟩
  · exact this.2.2 _ _ rfl rfl rfl rfl rfl rfl rfl rfl (by decide) rfl rfl
  · exact this.1 _

/-- Navigation through objects along a key path (the reading counterpart of
the exact-path match). -/
def objPathLookup : Json → List String → Option Json
  | v, [] => some v
  | .obj map, k :: rest =>
      match objGet map k with
      | some v' => objPathLookup v' rest
      | none => none
  | _, _ :: _ => none

theorem objGet_objRemove_self (map : List (String × Json)) (k : String) :
    objGet (objRemove map k) k = none := by
  induction map with
  | nil => rfl
  | cons kv tail ih =>
      unfold objRemove at ih ⊢
      rw [List.filter_cons]
      by_cases hk : kv.1 == k
      · simp only [hk, Bool.not_true, Bool.false_eq_true, if_false]
        exact ih
      · have hk' : (!(kv.1 == k)) = true := by simp [hk]
        simp only [hk', if_true]
        unfold objGet at ih ⊢
        rw [List.find?_cons]
        simp only [hk]
        exact ih

theorem objGet_some_objHas {map : List (String × Json)} {k : String}
    {v : Json} (h : objGet map k = some v) : objHas map k = true := by
  unfold objGet at h
  unfold objHas
  rcases hf : map.find? (fun kv => kv.1 == k) with _ | kv
  · rw [hf] at h; cases h
  · have hp := List.find?_some hf
    exact List.any_eq_true.mpr ⟨kv, List.mem_of_find?_eq_some hf, hp⟩

theorem removeNavEntries_found :
    ∀ (entries : List (String × Json)) (k : String) (rest : List String)
      (depth : Nat) (v' : Json), objGet entries k = some v' →
      objGet (removeNavEntries entries k rest depth).1 k =
          some ((removeFieldRecursive v' rest (depth + 1)).1) ∧
      (removeNavEntries entries k rest depth).2 =
          (removeFieldRecursive v' rest (depth + 1)).2 := by
  intro entries
  induction entries with
  | nil => intro k rest depth v' h; cases h
  | cons kv tail ih =>
      intro k rest depth v' h
      obtain ⟨k₁, v₁⟩ := kv
      by_cases hk : k₁ == k
      · have hv : v' = v₁ := by
          unfold objGet at h
          simp [List.find?, hk] at h
          exact h.symm
        subst hv
        unfold removeNavEntries
        simp only [hk, if_true]
        unfold objGet
        simp [List.find?, hk]
      · have htail : objGet tail k = some v' := by
          unfold objGet at h ⊢
          simp only [List.find?, hk] at h
          exact h
        unfold removeNavEntries
        simp only [hk, Bool.false_eq_true, if_false]
        have := ih k rest depth v' htail
        constructor
        · unfold objGet at this ⊢
          simp only [List.find?, hk]
          exact this.1
        · exact this.2

theorem removeFieldRecursive_removes :
    ∀ (parts : List String) (v x : Json) (depth : Nat),
      objPathLookup v parts = some x → parts ≠ [] →
      depth + parts.length ≤ MAX_REDACTION_DEPTH + 1 →
      (removeFieldRecursive v parts depth).2 = true ∧
      objPathLookup (removeFieldRecursive v parts depth).1 parts = none := by
  intro parts
  induction parts with
  | nil => intro v x depth _ hne _; exact absurd rfl hne
  | cons k rest ih =>
      intro v x depth hlook _ hdepth
      have hguard : ¬ MAX_REDACTION_DEPTH < depth := by
        simp only [List.length_cons] at hdepth
        omega
      rcases v with _ | b | n | s | items | map
      · cases hlook
      · cases hlook
      · cases hlook
      · cases hlook
      · cases hlook
      · unfold objPathLookup at hlook
        rcases hget : objGet map k with _ | v'
        · rw [hget] at hlook; cases hlook
        · rw [hget] at hlook
          rcases rest with _ | ⟨r₁, rrest⟩
          · -- single segment: the final key is removed from the object
            unfold removeFieldRecursive
            simp only [hguard, if_false, List.isEmpty_nil, if_true]
            refine ⟨objGet_some_objHas hget, ?_⟩
            unfold objPathLookup
            rw [objGet_objRemove_self]
          · -- navigate the first entry holding the key
            have hlook' : objPathLookup v' (r₁ :: rrest) = some x := hlook
            have hrec := ih v' x (depth + 1) hlook' (by simp) (by
              simp only [List.length_cons] at hdepth ⊢; omega)
            have hnav := removeNavEntries_found map k (r₁ :: rrest) depth v'
              hget
            unfold removeFieldRecursive
            simp only [hguard, if_false, List.isEmpty_cons, Bool.false_eq_true]
            refine ⟨by rw [hnav.2]; exact hrec.1, ?_⟩
            unfold objPathLookup
            rw [hnav.1]
            exact hrec.2

/-- Counterexample to C6 as stated: for the upstream body
`{"pii":{"email":"a@b.com","phone":"+1"}}` and redact path `"pii.email"`,
the HTTP engine deletes the matched field — the result holds no
`"[REDACTED]"` placeholder at the path, the path is simply gone. -/
theorem http_redaction_counterexample :
    redactFieldsValue
        (.obj [("pii", .obj [("email", .str "a@b.com"),
                             ("phone", .str "+1")])])
        ["pii.email"] =
      .obj [("pii", .obj [("phone", .str "+1")])] ∧
    objPathLookup
        (redactFieldsValue
          (.obj [("pii", .obj [("email", .str "a@b.com"),
                               ("phone", .str "+1")])])
          ["pii.email"]) ["pii", "email"] = none ∧
    objPathLookup
        (redactFieldsValue
          (.obj [("pii", .obj [("email", .str "a@b.com"),
                               ("phone", .str "+1")])])
          ["pii.email"]) ["pii", "email"] ≠
      some (.str "[REDACTED]") := by
  refine ⟨by decide, by decide, by decide⟩

/-- C6 as amended: each path matched by the HTTP adapter's response
redaction (from the document root, with fallback matching at any nested
depth, bounded by depth 10) is removed — the field is deleted, not replaced
by a placeholder; `Content-Length` is recomputed to the rewritten body's
length; responses that are not JSON, exceed the body-size limit, or do not
parse pass through unchanged. -/
theorem http_redaction_removes :
    (∀ parse ser maxBody redact contentType (body : List Nat),
       strContainsSub contentType "application/json" = false →
       applyResponseRedaction parse ser maxBody redact contentType body =
         (body, none)) ∧
    (∀ parse ser maxBody paths contentType (body : List Nat),
       strContainsSub contentType "application/json" = true →
       paths ≠ [] → maxBody < body.length →
       applyResponseRedaction parse ser maxBody (some paths) contentType
           body = (body, none)) ∧
    (∀ (parse : List Nat → Option Json) ser maxBody paths contentType
       (body : List Nat),
       parse body = none →
       strContainsSub contentType "application/json" = true →
       paths ≠ [] → body.length ≤ maxBody →
       applyResponseRedaction parse ser maxBody (some paths) contentType
           body = (body, some body.length)) ∧
    (∀ (parse : List Nat → Option Json) (ser : Json → List Nat) maxBody
       paths contentType (body : List Nat) (v : Json),
       parse body = some v →
       strContainsSub contentType "application/json" = true →
       paths ≠ [] → body.length ≤ maxBody →
       applyResponseRedaction parse ser maxBody (some paths) contentType
           body =
         (ser (redactFieldsValue v paths),
          some (ser (redactFieldsValue v paths)).length)) ∧
    (∀ (v x : Json) (path : String),
       let parts := splitOnCharStr '.' path
       objPathLookup v parts = some x → parts ≠ [] →
       parts.length ≤ MAX_REDACTION_DEPTH + 1 →
       removeFieldByPath v path = ((removeFieldRecursive v parts 0).1, true) ∧
       objPathLookup (removeFieldByPath v path).1 parts = none) := by
  refine ⟨?_, ?_, ?_, ?_, ?_⟩
  · intro parse ser maxBody redact contentType body hct
    unfold applyResponseRedaction
    rcases redact with _ | paths
    · rfl
    · by_cases hp : paths.isEmpty <;> simp [hp, hct]
  · intro parse ser maxBody paths contentType body hct hne hlen
    unfold applyResponseRedaction
    have hp : ¬ paths.isEmpty := by simp [List.isEmpty_iff]; exact hne
    simp [hp, hct, hlen]
  · intro parse ser maxBody paths contentType body hparse hct hne hlen
    unfold applyResponseRedaction
    have hp : ¬ paths.isEmpty := by simp [List.isEmpty_iff]; exact hne
    have hlen' : ¬ maxBody < body.length := by omega
    simp [hp, hct, hlen', redactFields, hparse]
  · intro parse ser maxBody paths contentType body v hparse hct hne hlen
    unfold applyResponseRedaction
    have hp : ¬ paths.isEmpty := by simp [List.isEmpty_iff]; exact hne
    have hlen' : ¬ maxBody < body.length := by omega
    simp [hp, hct, hlen', redactFields, hparse]
  · intro v x path parts hlook hne hdepth
    have hrec := removeFieldRecursive_removes parts v x 0 hlook hne
      (by omega)
    have hby : removeFieldByPath v path =
        ((removeFieldRecursive v parts 0).1, true) := by
      unfold removeFieldByPath
      have hpe : ¬ parts.isEmpty := by
        simp [List.isEmpty_iff]; exact hne
      simp only [hpe, Bool.false_eq_true, if_false]
      have : removeFieldRecursive v parts 0 =
          ((removeFieldRecursive v parts 0).1,
           (removeFieldRecursive v parts 0).2) := rfl
      rw [hrec.1] at this
      rw [this]
      rfl
    exact ⟨hby, by rw [hby]; exact hrec.2⟩

/-- Witness for C6's amended statement at concrete inputs: a JSON body
within the limit is rewritten with the matched field removed and
`Content-Length` recomputed, and the root-path removal lemma applies to the
concrete document. -/
theorem http_redaction_removes_witness :
    (applyResponseRedaction
        (fun bs => if bs = [1] then
            some (.obj [("pii", .obj [("email", .str "a@b.com")])]) else none)
        (fun v => if v = .obj [("pii", .obj [])] then [2, 3] else [9])
        100 (some ["pii.email"]) "application/json; charset=utf-8" [1]) =
      ([2, 3], some 2) ∧
    removeFieldByPath (.obj [("pii", .obj [("email", .str "a@b.com")])])
        "pii.email" =
      (.obj [("pii", .obj [])], true) := by
  constructor
  · rw [http_redaction_removes.2.2.2.1
      (fun bs => if bs = [1] then
          some (.obj [("pii", .obj [("email", .str "a@b.com")])]) else none)
      (fun v => if v = .obj [("pii", .obj [])] then [2, 3] else [9])
      100 ["pii.email"] "application/json; charset=utf-8" [1]
      (.obj [("pii", .obj [("email", .str "a@b.com")])])
      (by decide) (by decide) (by decide) (by decide)]
    decide
  · have := (http_redaction_removes.2.2.2.2
      (.obj [("pii", .obj [("email", .str "a@b.com")])])
      (.str "a@b.com") "pii.email" (by decide) (by decide) (by decide)).1
    rw [this]
    decide

/-- Witness for C5 at concrete inputs: an object result with a redact array
and a reason decodes member-wise, and a bare number is rendered as the
undefined-result deny. -/
theorem parse_decision_decoding_witness :
    (parseDecision (some (.obj
        [("allow", .bool true), ("redact", .arr [.str "pii.email"]),
         ("reason", .str "ok")]))).allow = true ∧
    (parseDecision (some (.obj [("redact", .arr [])]))).redact = none ∧
    parseDecision (some (.num 3)) = undefinedResultDecision := by
  refine ⟨?_, ?_, parse_decision_decoding.2.2.2.2.2.2.2.2.2.2.2.1 3⟩
  · exact parse_decision_decoding.2.1 _ true rfl
  · exact parse_decision_decoding.2.2.2.2.1 _ ([] : List String) rfl

/-- C9 counterexample: the HTTP adapter's field-removal redaction is not
idempotent. `remove_field_by_path` returns right after the exact root walk
matches, skipping the any-depth fallback, so the first application of path
"email" removes only the root field and a second application removes the
nested occurrence as well. -/
theorem http_removal_not_idempotent :
    redactFieldsValue
        (redactFieldsValue
          (Json.obj [("email", Json.num 1),
                     ("a", Json.obj [("email", Json.num 2)])]) ["email"])
        ["email"] ≠
      redactFieldsValue
        (Json.obj [("email", Json.num 1),
                   ("a", Json.obj [("email", Json.num 2)])]) ["email"] := by
  have h1 : redactFieldsValue
      (Json.obj [("email", Json.num 1),
                 ("a", Json.obj [("email", Json.num 2)])]) ["email"] =
      Json.obj [("a", Json.obj [("email", Json.num 2)])] := by decide
  rw [h1]
  have h2 : redactFieldsValue
      (Json.obj [("a", Json.obj [("email", Json.num 2)])]) ["email"] =
      Json.obj [("a", Json.obj [])] := by
    simp [redactFieldsValue, removeFieldByPath, splitOnCharStr, splitChars,
      removeFieldAtAnyDepth, anyDepthEntries, anyDepthList,
      removeFieldRecursive, removeNavEntries, removeListRecursive,
      objHas, objRemove, MAX_REDACTION_DEPTH]
  rw [h2]
  decide

/-- C9: as stated the claim fails (see `http_removal_not_idempotent`): the
HTTP adapter's removal is not idempotent because `remove_field_by_path`
skips the any-depth fallback after a root match. The MQTT payload
transformer, however, is idempotent: on any parsed document with
duplicate-free object keys (as every `serde_json` document has), a second
run of the directive loop returns the first run's output unchanged, both at
the document level and at the byte level of `transform_payload`, and a
payload that does not parse passes through unchanged. -/
theorem mqtt_transform_idempotent :
    (∀ (v : Json) (ds : List TransformDirective) (w : Json) (n : Nat),
       nodupKeys v = true → transformValue v ds = .ok (w, n) →
       ∃ m, transformValue w ds = .ok (w, m)) ∧
    (∀ (parse : List Nat → Option Json) (ser : Json → List Nat)
       (payload : List Nat) (v w : Json) (n : Nat)
       (ds : List TransformDirective),
       parse payload = some v → nodupKeys v = true →
       transformValue v ds = .ok (w, n) → parse (ser w) = some w →
       transformPayload parse ser payload ds = .ok (ser w) ∧
       transformPayload parse ser (ser w) ds = .ok (ser w)) ∧
    (∀ (parse : List Nat → Option Json) (ser : Json → List Nat)
       (payload : List Nat) (ds : List TransformDirective),
       parse payload = none →
       transformPayload parse ser payload ds = .ok payload) := by
  refine ⟨?_, ?_, ?_⟩
  · intro v ds w n hnd h
    exact transformValue_fix ds v w n hnd h
  · intro parse ser payload v w n ds hp hnd h hroundtrip
    obtain ⟨m, hm⟩ := transformValue_fix ds v w n hnd h
    constructor
    · unfold transformPayload
      rw [hp]
      dsimp only []
      rw [h]
      rfl
    · unfold transformPayload
      rw [hroundtrip]
      dsimp only []
      rw [hm]
      rfl
  · intro parse ser payload ds hp
    unfold transformPayload
    rw [hp]

/-- Witness for C9 at concrete inputs: stripping GPS coordinates and
redacting "a.email" reaches a fixed point after one pass, at the document
level and at the byte level. -/
theorem mqtt_transform_idempotent_witness :
    (∃ m, transformValue
        (Json.obj [("a", Json.obj [("email", Json.str "[REDACTED]")])])
        [TransformDirective.stripCoordinates,
         TransformDirective.redactFields ["a.email"]] =
      .ok (Json.obj [("a", Json.obj [("email", Json.str "[REDACTED]")])],
           m)) ∧
    transformPayload
        (fun bs => if bs = [0] then
            some (Json.obj [("gps", Json.num 1),
                            ("a", Json.obj [("email", Json.str "x")])])
          else if bs = [1] then
            some (Json.obj [("a", Json.obj [("email", Json.str "[REDACTED]")])])
          else none)
        (fun u =>
          if u = Json.obj [("a", Json.obj [("email", Json.str "[REDACTED]")])]
          then [1] else [9])
        [1]
        [TransformDirective.stripCoordinates,
         TransformDirective.redactFields ["a.email"]] = .ok [1] := by
  constructor
  · exact mqtt_transform_idempotent.1
      (Json.obj [("gps", Json.num 1),
                 ("a", Json.obj [("email", Json.str "x")])])
      [TransformDirective.stripCoordinates,
       TransformDirective.redactFields ["a.email"]]
      (Json.obj [("a", Json.obj [("email", Json.str "[REDACTED]")])]) 2
      (by decide) (by decide)
  · have h := (mqtt_transform_idempotent.2.1
      (fun bs => if bs = [0] then
          some (Json.obj [("gps", Json.num 1),
                          ("a", Json.obj [("email", Json.str "x")])])
        else if bs = [1] then
          some (Json.obj [("a", Json.obj [("email", Json.str "[REDACTED]")])])
        else none)
      (fun u =>
        if u = Json.obj [("a", Json.obj [("email", Json.str "[REDACTED]")])]
        then [1] else [9])
      [0]
      (Json.obj [("gps", Json.num 1),
                 ("a", Json.obj [("email", Json.str "x")])])
      (Json.obj [("a", Json.obj [("email", Json.str "[REDACTED]")])]) 2
      [TransformDirective.stripCoordinates,
       TransformDirective.redactFields ["a.email"]]
      (by decide) (by decide) (by decide) (by decide)).2
    exact h
